import Mathlib

/-!
Verification development for the AbqParse repository (abaqus_lexer.py,
abaqus_parser.py): a PLY-based lexer and LALR parser for Abaqus input decks.

The lexer is embedded as a deterministic scanner over `List Char`.  Each
PLY token rule's regular expression is translated into an explicit matcher
returning the matched length (Python `re` semantics: leftmost alternative
first, greedy quantifiers; comments on each matcher record the translation).
PLY tries the rules of the current state in source order (state-specific
function rules first, then the rules of the INITIAL state, function rules
before string rules, string rules by decreasing pattern length), taking the
first rule whose regex matches at the current position.

The parser (grammar in abaqus_parser.py) is embedded as a deterministic
recursive-descent parser equivalent to PLY's LALR automaton on this
unambiguous grammar.  Syntax errors and lexical errors raised through
pycparser's `PLYParser._parse_error` abort the parse with no Document;
this is modelled with `Except`.
-/

namespace Abq

/-- Character class `[a-zA-Z]`. -/
def isLetter (c : Char) : Bool :=
  ('a' ≤ c && c ≤ 'z') || ('A' ≤ c && c ≤ 'Z')

/-- Character class `[0-9]`. -/
def isDigitC (c : Char) : Bool :=
  '0' ≤ c && c ≤ '9'

/-- Character class `[0-9a-zA-Z_]` (identifier continuation). -/
def isIdentChar (c : Char) : Bool :=
  isLetter c || isDigitC c || c = '_'

/-- Character class `[0-7]`. -/
def isOctC (c : Char) : Bool :=
  '0' ≤ c && c ≤ '7'

/-- Character class `[0-9a-fA-F]`. -/
def isHexC (c : Char) : Bool :=
  isDigitC c || ('a' ≤ c && c ≤ 'f') || ('A' ≤ c && c ≤ 'F')

/-- Matcher for `integer_suffix_opt =
`(u?ll|U?LL|([uU][lL])|([lL][uU])|[uU]|[lL])?`: length of the suffix the
regex consumes (0 when the optional group matches empty).  Alternatives are
tried in the regex's left-to-right order. -/
def matchSuffix : List Char → Nat
  | [] => 0
  | c1 :: rest =>
    if c1 = 'u' then
      match rest with
      | [] => 1
      | c2 :: rest2 =>
        if c2 = 'l' then
          match rest2 with
          | [] => 2
          | c3 :: _ => if c3 = 'l' then 3 else 2
        else if c2 = 'L' then 2 else 1
    else if c1 = 'U' then
      match rest with
      | [] => 1
      | c2 :: rest2 =>
        if c2 = 'L' then
          match rest2 with
          | [] => 2
          | c3 :: _ => if c3 = 'L' then 3 else 2
        else if c2 = 'l' then 2 else 1
    else if c1 = 'l' then
      match rest with
      | [] => 1
      | c2 :: _ => if c2 = 'l' || c2 = 'u' || c2 = 'U' then 2 else 1
    else if c1 = 'L' then
      match rest with
      | [] => 1
      | c2 :: _ => if c2 = 'L' || c2 = 'u' || c2 = 'U' then 2 else 1
    else 0

/-- Matcher for `identifier = [a-zA-Z_][0-9a-zA-Z_]*` (rules
`t_keywordstate_PARAM` and `t_ID`). -/
def matchIdentifier : List Char → Option Nat
  | c :: rest =>
    if isLetter c || c = '_' then some (1 + (rest.takeWhile isIdentChar).length)
    else none
  | [] => none

/-- Matcher for `abaqus_keyword = \*[a-zA-Z][0-9a-zA-Z_]*` (rule
`t_KEYWORD`). -/
def matchKeywordRule : List Char → Option Nat
  | m :: c :: rest =>
    if m = '*' then
      if isLetter c then some (2 + (rest.takeWhile isIdentChar).length)
      else none
    else none
  | _ => none

/-- Matcher for `decimal_constant = (0 suffix?)|([1-9][0-9]* suffix?)`
(rule `t_INT_CONST_DEC`). -/
def matchDecimal : List Char → Option Nat
  | c :: rest =>
    if c = '0' then some (1 + matchSuffix rest)
    else if '1' ≤ c && c ≤ '9' then
      let ds := rest.takeWhile isDigitC
      some (1 + ds.length + matchSuffix (rest.drop ds.length))
    else none
  | [] => none

/-- Matcher for `octal_constant = 0[0-7]* suffix?` (rule
`t_INT_CONST_OCT`). -/
def matchOctal : List Char → Option Nat
  | c :: rest =>
    if c = '0' then
      let os := rest.takeWhile isOctC
      some (1 + os.length + matchSuffix (rest.drop os.length))
    else none
  | [] => none

/-- Matcher for `hex_constant = 0[xX][0-9a-fA-F]+ suffix?` (rule
`t_INT_CONST_HEX`). -/
def matchHexRule : List Char → Option Nat
  | c :: x :: rest =>
    if c = '0' && (x = 'x' || x = 'X') then
      let hs := rest.takeWhile isHexC
      if hs.length = 0 then none
      else some (2 + hs.length + matchSuffix (rest.drop hs.length))
    else none
  | _ => none

/-- Matcher for `bad_octal_constant = 0[0-7]*[89]` (rule
`t_BAD_CONST_OCT`).  The greedy `[0-7]*` run is deterministic: a shorter
run would leave an octal digit where `[89]` is required. -/
def matchBadOctal : List Char → Option Nat
  | c :: rest =>
    if c = '0' then
      let os := rest.takeWhile isOctC
      match rest.drop os.length with
      | d :: _ => if d = '8' || d = '9' then some (1 + os.length + 1) else none
      | [] => none
    else none
  | [] => none

/-- Matcher for the mandatory exponent `[eE][-+]?[0-9]+`. -/
def matchExpPart : List Char → Option Nat
  | c :: rest =>
    if c = 'e' || c = 'E' then
      match rest with
      | s :: r2 =>
        if s = '+' || s = '-' then
          let ds := r2.takeWhile isDigitC
          if ds.length = 0 then none else some (1 + 1 + ds.length)
        else
          let ds := rest.takeWhile isDigitC
          if ds.length = 0 then none else some (1 + ds.length)
      | [] => none
    else none
  | [] => none

/-- Matcher for the optional float suffix `[FfLl]?` (length 0 or 1). -/
def matchFloatSfx : List Char → Nat
  | c :: _ => if c = 'F' || c = 'f' || c = 'L' || c = 'l' then 1 else 0
  | [] => 0

/-- Matcher for `floating_constant =
`((((frac)exponent?)|([0-9]+exponent))[FfLl]?)` with
`frac = ([0-9]*\.[0-9]+)|([0-9]+\.)` (rule `t_FLOAT_CONST`).  Alternation
order follows the regex: the fractional branch is tried first; inside it
`[0-9]*\.[0-9]+` before `[0-9]+\.`.  The greedy digit runs are
deterministic because a shortened run leaves a digit where a non-digit is
required. -/
def matchFloatRule (cs : List Char) : Option Nat :=
  let d1 := cs.takeWhile isDigitC
  let r1 := cs.drop d1.length
  if r1.head? = some '.' then
    let d2 := r1.tail.takeWhile isDigitC
    if d2.length = 0 && d1.length = 0 then none
    else
      let fr := if d2.length = 0 then d1.length + 1 else d1.length + 1 + d2.length
      let r3 := cs.drop fr
      let e := (matchExpPart r3).getD 0
      some (fr + e + matchFloatSfx (r3.drop e))
  else
    if d1.length = 0 then none
    else
      match matchExpPart r1 with
      | some e => some (d1.length + e + matchFloatSfx (r1.drop e))
      | none => none

/-- Matcher for rule `t_keywordstate_CONTINUE` with pattern `,\n`. -/
def matchContinueRule : List Char → Option Nat
  | c1 :: c2 :: _ => if c1 = ',' ∧ c2 = '\n' then some 2 else none
  | _ => none

/-- Matcher for rule `t_keywordstate_NEWLINE` with pattern `\n`. -/
def matchNewlineOne : List Char → Option Nat
  | c :: _ => if c = '\n' then some 1 else none
  | [] => none

/-- Matcher for pattern `\n+` (rules `t_NEWLINEALONE` and
`t_datalinestate_LASTTOKENONLINE`). -/
def matchNewlineRun : List Char → Option Nat
  | c :: rest =>
    if c = '\n' then some (1 + (rest.takeWhile (fun c => c = '\n')).length)
    else none
  | [] => none

/-- Matcher for rule `t_COMMENT` with pattern `[ \t]*\*\*.*\n`.  `.`
does not match a newline, so the greedy `.*` runs to the first newline,
which the pattern then consumes. -/
def matchCommentRule (cs : List Char) : Option Nat :=
  let ws := cs.takeWhile (fun c => c = ' ' || c = '\t')
  match cs.drop ws.length with
  | c1 :: c2 :: r2 =>
    if c1 = '*' ∧ c2 = '*' then
      let body := r2.takeWhile (fun c => c ≠ '\n')
      match r2.drop body.length with
      | '\n' :: _ => some (ws.length + 2 + body.length + 1)
      | _ => none
    else none
  | _ => none

/-- Character class of `simple_escape = ([a-zA-Z._~!=&\^\-\\?'"])`. -/
def isSimpleEscChar (c : Char) : Bool :=
  isLetter c || c = '.' || c = '_' || c = '~' || c = '!' || c = '=' ||
  c = '&' || c = '^' || c = '-' || c = '\\' || c = '?' || c = '\'' || c = '"'

/-- Character class of `bad_escape = ([\\][^a-zA-Z._~^!=&\^\-\\?'"x0-7])`:
the second character is bad exactly when it is neither a simple-escape
character nor an octal digit (`x` is already a letter). -/
def isBadEscChar (c : Char) : Bool :=
  !(isSimpleEscChar c || isOctC c)

/-- One `cconst_char = [^'\\\n] | escape_sequence` in a starred context
(no following-context constraint).  The escape alternatives are tried in
the regex order simple, octal, hex; since `x` is in the simple class the
hex alternative is unreachable here, and the octal run `[0-7]{1,3}` is
greedy. -/
def matchCConstChar : List Char → Option Nat
  | '\\' :: c :: rest =>
    if isSimpleEscChar c then some 2
    else if isOctC c then some (2 + min 2 (rest.takeWhile isOctC).length)
    else none
  | '\\' :: [] => none
  | c :: _ =>
    if c = '\'' || c = '\\' || c = '\n' then none else some 1
  | [] => none

/-- One `string_char = [^"\\\n] | escape_sequence`. -/
def matchStringChar : List Char → Option Nat
  | '\\' :: c :: rest =>
    if isSimpleEscChar c then some 2
    else if isOctC c then some (2 + min 2 (rest.takeWhile isOctC).length)
    else none
  | '\\' :: [] => none
  | c :: _ =>
    if c = '"' || c = '\\' || c = '\n' then none else some 1
  | [] => none

/-- Length consumed by a maximal `cconst_char*` run.  (`matchCConstChar`
only ever returns a positive length, so `max 1 n = n`; the `max` is there
for the termination measure.) -/
def ccRun (cs : List Char) : Nat :=
  match h : matchCConstChar cs with
  | some n => n + ccRun (cs.drop (max 1 n))
  | none => 0
termination_by cs.length
decreasing_by
  simp only [List.length_drop]
  cases cs with
  | nil => simp [matchCConstChar] at h
  | cons c rest =>
    have : 0 < max 1 n := Nat.lt_of_lt_of_le Nat.zero_lt_one (Nat.le_max_left 1 n)
    simp only [List.length_cons]
    omega

/-- Length consumed by a maximal `string_char*` run (same `max` remark as
for `ccRun`). -/
def scRun (cs : List Char) : Nat :=
  match h : matchStringChar cs with
  | some n => n + scRun (cs.drop (max 1 n))
  | none => 0
termination_by cs.length
decreasing_by
  simp only [List.length_drop]
  cases cs with
  | nil => simp [matchStringChar] at h
  | cons c rest =>
    have : 0 < max 1 n := Nat.lt_of_lt_of_le Nat.zero_lt_one (Nat.le_max_left 1 n)
    simp only [List.length_cons]
    omega

/-- Matcher for `char_const = 'cconst_char'` (rule `t_CHAR_CONST`),
with the closing-quote continuation folded into the escape alternation
exactly as Python's backtracking resolves it: a simple escape is accepted
only if a quote follows; otherwise for `\x...` the hex alternative is
retried, and an octal escape takes its maximal run (a shorter run leaves
an octal digit where the quote is required). -/
def matchCharConstRule : List Char → Option Nat
  | q :: rest =>
    if q = '\'' then
      match rest with
      | '\\' :: c :: r2 =>
        if isSimpleEscChar c then
          match r2 with
          | '\'' :: _ => some 4
          | _ =>
            if c = 'x' then
              let hs := r2.takeWhile isHexC
              if hs.length = 0 then none
              else
                match r2.drop hs.length with
                | '\'' :: _ => some (3 + hs.length + 1)
                | _ => none
            else none
        else if isOctC c then
          let k := min 2 (r2.takeWhile isOctC).length
          match r2.drop k with
          | '\'' :: _ => some (3 + k + 1)
          | _ => none
        else none
      | c :: '\'' :: _ =>
        if c = '\'' || c = '\\' || c = '\n' then none else some 3
      | _ => none
    else none
  | [] => none

/-- Matcher for `wchar_const = L char_const` (rule `t_WCHAR_CONST`). -/
def matchWCharRule : List Char → Option Nat
  | c :: rest => if c = 'L' then (matchCharConstRule rest).map (1 + ·) else none
  | [] => none

/-- Matcher for `unmatched_quote = ('cconst_char*\n)|('cconst_char*$)`
(rule `t_UNMATCHED_QUOTE`).  The maximal `cconst_char*` run stops at the
first quote, newline or invalid escape, so no backtracking is needed:
the match succeeds exactly when the run is followed by a newline
(included) or the end of the buffer. -/
def matchUnmatchedQuoteRule : List Char → Option Nat
  | q :: rest =>
    if q = '\'' then
      let k := ccRun rest
      match rest.drop k with
      | '\n' :: _ => some (1 + k + 1)
      | [] => some (1 + k)
      | _ => none
    else none
  | [] => none

/-- Matcher for the first `bad_char_const` alternative
`('cconst_char[^'\n]+')`. -/
def badCharAlt1 (rest : List Char) : Option Nat :=
  match matchCConstChar rest with
  | some n =>
    let r2 := rest.drop n
    let run := r2.takeWhile (fun c => c ≠ '\'' && c ≠ '\n')
    if run.length = 0 then none
    else
      match r2.drop run.length with
      | '\'' :: _ => some (1 + n + run.length + 1)
      | _ => none
  | none => none

/-- Matcher for the third `bad_char_const` alternative
`('bad_escape[^'\n]*')`. -/
def badCharAlt3 (rest : List Char) : Option Nat :=
  match rest with
  | '\\' :: c :: r2 =>
    if isBadEscChar c then
      let run := r2.takeWhile (fun c => c ≠ '\'' && c ≠ '\n')
      match r2.drop run.length with
      | '\'' :: _ => some (1 + 2 + run.length + 1)
      | _ => none
    else none
  | _ => none

/-- Matcher for `bad_char_const =
`('cconst_char[^'\n]+')|('')|('bad_escape[^'\n]*')` (rule
`t_BAD_CHAR_CONST`), alternatives in regex order. -/
def matchBadCharRule : List Char → Option Nat
  | q :: rest =>
    if q = '\'' then
      match badCharAlt1 rest with
      | some n => some n
      | none =>
        match rest with
        | '\'' :: _ => some 2
        | _ => badCharAlt3 rest
    else none
  | [] => none

/-- Matcher for `string_literal = "string_char*"` (rule
`t_STRING_LITERAL`). -/
def matchStringLitRule : List Char → Option Nat
  | q :: rest =>
    if q = '"' then
      let k := scRun rest
      match rest.drop k with
      | '"' :: _ => some (1 + k + 1)
      | _ => none
    else none
  | [] => none

/-- Matcher for `wstring_literal = L string_literal` (rule
`t_WSTRING_LITERAL`). -/
def matchWStringRule : List Char → Option Nat
  | c :: rest => if c = 'L' then (matchStringLitRule rest).map (1 + ·) else none
  | [] => none

/-- Matcher for `bad_string_literal =
`"string_char* bad_escape string_char*"` (rule `t_BAD_STRING_LITERAL`).
The maximal first run stops exactly at an invalid escape (a valid escape
is itself a `string_char`), so the decomposition is deterministic. -/
def matchBadStringRule : List Char → Option Nat
  | q :: rest =>
    if q = '"' then
      let k := scRun rest
      match rest.drop k with
      | '\\' :: c :: r2 =>
        if isBadEscChar c then
          let k2 := scRun r2
          match r2.drop k2 with
          | '"' :: _ => some (1 + k + 2 + k2 + 1)
          | _ => none
        else none
      | _ => none
    else none
  | [] => none

/-- Token kinds of `AbaqusLexer.tokens` (plus `INT_CONST_OCT` and
`INT_CONST_HEX`, which have rules in the lexer source — these two are
absent from the declared `tokens` tuple, so no grammar production can use
them; here they are ordinary token kinds the parser rejects, which has the
same success/failure behaviour as PLY's runtime rejection). -/
inductive TokType where
  | KEYWORD
  | ID
  | PARAM
  | INT_CONST_DEC
  | FLOAT_CONST
  | INT_CONST_OCT
  | INT_CONST_HEX
  | CHAR_CONST
  | WCHAR_CONST
  | STRING_LITERAL
  | WSTRING_LITERAL
  | EQUALS
  | COMMA
  | PERIOD
  | LASTTOKENONLINE
deriving DecidableEq, Repr

/-- A produced token: kind, raw text, the lexer's `lineno` at creation
time, and the start offset `lexpos`. -/
structure Tok where
  ttype : TokType
  value : List Char
  lineno : Nat
  lexpos : Nat
deriving DecidableEq, Repr

/-- Kinds of lexical diagnostics reported through `AbaqusLexer._error`
(spec taxonomy names; the source messages are `Invalid octal constant`,
`Unmatched '`, `Invalid char constant ...`,
`String contains invalid escape code`, `Illegal character ...` and
`invalid keyword`). -/
inductive DiagKind where
  | invalidOctal
  | unmatchedQuote
  | invalidCharConst
  | invalidEscapeInString
  | illegalChar
  | invalidKeyword
deriving DecidableEq, Repr

/-- A reported diagnostic: kind plus the `(line, column)` passed to the
error sink. -/
structure Diag where
  kind : DiagKind
  line : Nat
  col : Nat
deriving DecidableEq, Repr

/-- Scanner states: `INITIAL` plus the two declared inclusive states. -/
inductive Mode where
  | initial
  | keywordstate
  | datalinestate
deriving DecidableEq, Repr

/-- The backward scan of `AbaqusLexer._find_tok_column`: starting at
index `i`, step down while `i > 0` and `lexdata[i]` is not a newline;
the loop exits at the newline index it finds, or at 0.  (The source
assumes in-bounds access; `getD` supplies a non-newline default.) -/
def lastNlScan (lexdata : List Char) : Nat → Nat
  | 0 => 0
  | i + 1 => if lexdata.getD (i + 1) ' ' = '\n' then i + 1 else lastNlScan lexdata i

/-- `AbaqusLexer._find_tok_column`: `(token.lexpos - i) + 1` where `i` is
the index where the backward scan from `token.lexpos` stopped. -/
def findTokColumn (lexdata : List Char) (lexpos : Nat) : Nat :=
  lexpos - lastNlScan lexdata lexpos + 1

/-- Outcome of the first matching rule at the current position: match
length, emitted token kind/value (if the rule returns a token), the
diagnostic kind for the `bad`-construct rules (which report via `_error`
and then skip one extra character), the `lineno` increment performed by
the rule body, and the state manipulations of `t_KEYWORD`
(`push_state('keywordstate')`) and `t_keywordstate_NEWLINE`
(`pop_state()` then `push_state('datalinestate')`, whose net effect is
`current := datalinestate` with the stored stack unchanged). -/
structure Hit where
  len : Nat
  out : Option (TokType × List Char)
  bad : Option DiagKind
  nlcnt : Nat
  doPush : Bool
  doSwap : Bool
deriving Repr

/-- The INITIAL-state rule list, tried in PLY's order: function rules in
source order (`t_KEYWORD`, `t_COMMENT`, `t_NEWLINEALONE`, `t_FLOAT_CONST`,
`t_INT_CONST_HEX`, `t_BAD_CONST_OCT`, `t_INT_CONST_OCT`,
`t_INT_CONST_DEC`, `t_CHAR_CONST`, `t_WCHAR_CONST`, `t_UNMATCHED_QUOTE`,
`t_BAD_CHAR_CONST`, `t_WSTRING_LITERAL`, `t_BAD_STRING_LITERAL`, `t_ID`),
then string rules by decreasing pattern length (`t_STRING_LITERAL`,
`t_PERIOD`, `t_EQUALS`, `t_COMMA`). -/
def initialHit (rest : List Char) : Option Hit :=
  match matchKeywordRule rest with
  | some n => some ⟨n, some (.KEYWORD, (rest.take n).drop 1), none, 0, true, false⟩
  | none =>
  match matchCommentRule rest with
  | some n => some ⟨n, none, none, 0, false, false⟩
  | none =>
  match matchNewlineRun rest with
  | some n => some ⟨n, none, none, n, false, false⟩
  | none =>
  match matchFloatRule rest with
  | some n => some ⟨n, some (.FLOAT_CONST, rest.take n), none, 0, false, false⟩
  | none =>
  match matchHexRule rest with
  | some n => some ⟨n, some (.INT_CONST_HEX, rest.take n), none, 0, false, false⟩
  | none =>
  match matchBadOctal rest with
  | some n => some ⟨n, none, some .invalidOctal, 0, false, false⟩
  | none =>
  match matchOctal rest with
  | some n => some ⟨n, some (.INT_CONST_OCT, rest.take n), none, 0, false, false⟩
  | none =>
  match matchDecimal rest with
  | some n => some ⟨n, some (.INT_CONST_DEC, rest.take n), none, 0, false, false⟩
  | none =>
  match matchCharConstRule rest with
  | some n => some ⟨n, some (.CHAR_CONST, rest.take n), none, 0, false, false⟩
  | none =>
  match matchWCharRule rest with
  | some n => some ⟨n, some (.WCHAR_CONST, rest.take n), none, 0, false, false⟩
  | none =>
  match matchUnmatchedQuoteRule rest with
  | some n => some ⟨n, none, some .unmatchedQuote, 0, false, false⟩
  | none =>
  match matchBadCharRule rest with
  | some n => some ⟨n, none, some .invalidCharConst, 0, false, false⟩
  | none =>
  match matchWStringRule rest with
  | some n => some ⟨n, some (.WSTRING_LITERAL, rest.take n), none, 0, false, false⟩
  | none =>
  match matchBadStringRule rest with
  | some n => some ⟨n, none, some .invalidEscapeInString, 0, false, false⟩
  | none =>
  match matchIdentifier rest with
  | some n => some ⟨n, some (.ID, rest.take n), none, 0, false, false⟩
  | none =>
  match matchStringLitRule rest with
  | some n => some ⟨n, some (.STRING_LITERAL, rest.take n), none, 0, false, false⟩
  | none =>
  match rest with
  | '.' :: _ => some ⟨1, some (.PERIOD, ['.']), none, 0, false, false⟩
  | '=' :: _ => some ⟨1, some (.EQUALS, ['=']), none, 0, false, false⟩
  | ',' :: _ => some ⟨1, some (.COMMA, [',']), none, 0, false, false⟩
  | _ => none

/-- Rule dispatch per scanner state.  Inclusive states try their own
function rules first (in source order), then the whole INITIAL list:
`keywordstate` has `t_keywordstate_PARAM`, `t_keywordstate_CONTINUE`
(which retypes the match as a `COMMA` with value `,`),
`t_keywordstate_NEWLINE`; `datalinestate` has
`t_datalinestate_LASTTOKENONLINE`. -/
def ruleHit : Mode → List Char → Option Hit
  | .initial, rest => initialHit rest
  | .keywordstate, rest =>
    (match matchIdentifier rest with
     | some n => some ⟨n, some (.PARAM, rest.take n), none, 0, false, false⟩
     | none =>
       match matchContinueRule rest with
       | some n => some ⟨n, some (.COMMA, [',']), none, 0, false, false⟩
       | none =>
         match matchNewlineOne rest with
         | some n => some ⟨n, none, none, 1, false, true⟩
         | none => initialHit rest)
  | .datalinestate, rest =>
    (match matchNewlineRun rest with
     | some n => some ⟨n, some (.LASTTOKENONLINE, rest.take n), none, n, false, false⟩
     | none => initialHit rest)

/-- Result of a scan: the diagnostics reported to the error sink in
order, the tokens in order, and the final state (current mode and the
PLY state stack, which `ply.lex.Lexer.input` does not reset). -/
structure LexOut where
  diags : List Diag
  toks : List Tok
  cur : Mode
  stk : List Mode
deriving DecidableEq, Repr

/-- The scanner loop (PLY `Lexer.token` iterated to end of input) over
`seen.reverse ++ rest` with `seen` the reversed consumed prefix (so the
current `lexpos` is `seen.length`).  Ignored characters (space/tab in all
three states) are skipped; otherwise the first matching rule fires; if no
rule matches, the state's error rule reports via `_error` (message
`invalid keyword` in `keywordstate`, `Illegal character ...` otherwise)
and `skip(1)` advances one character.  For the `bad`-construct rules PLY
has already advanced past the match before the rule body calls `_error`,
whose `skip(1)` then consumes one further character.  Token `lineno` is
recorded before the rule body's increment.  (`h.len` is always positive;
the `h.len - 1` on the tail `rs` equals dropping `h.len` from `rest` and
keeps the recursion structurally decreasing.) -/
def runLexF : Nat → List Char → List Char → Mode → List Mode → Nat → LexOut
  | _, _, [], cur, stk, _ => ⟨[], [], cur, stk⟩
  | 0, _, _ :: _, cur, stk, _ => ⟨[], [], cur, stk⟩
  | f + 1, seen, c :: rs, cur, stk, ln =>
    if c = ' ' || c = '\t' then runLexF f (c :: seen) rs cur stk ln
    else
      match ruleHit cur (c :: rs) with
      | some h =>
        match h.bad with
        | some k =>
          let d : Diag := ⟨k, ln, findTokColumn (seen.reverse ++ c :: rs) seen.length⟩
          let o := runLexF f (((c :: rs).take (h.len + 1)).reverse ++ seen)
                     (rs.drop h.len) cur stk (ln + h.nlcnt)
          ⟨d :: o.diags, o.toks, o.cur, o.stk⟩
        | none =>
          let cur2 := if h.doPush then Mode.keywordstate
                      else if h.doSwap then Mode.datalinestate else cur
          let stk2 := if h.doPush then cur :: stk else stk
          let tks := match h.out with
                     | some (tt, v) => [⟨tt, v, ln, seen.length⟩]
                     | none => ([] : List Tok)
          let o := runLexF f (((c :: rs).take h.len).reverse ++ seen)
                     (rs.drop (h.len - 1)) cur2 stk2 (ln + h.nlcnt)
          ⟨o.diags, tks ++ o.toks, o.cur, o.stk⟩
      | none =>
        let k := if cur = Mode.keywordstate then DiagKind.invalidKeyword
                 else DiagKind.illegalChar
        let d : Diag := ⟨k, ln, findTokColumn (seen.reverse ++ c :: rs) seen.length⟩
        let o := runLexF f (c :: seen) rs cur stk ln
        ⟨d :: o.diags, o.toks, o.cur, o.stk⟩

/-- The scanner loop at its canonical fuel.  Every rule consumes at least
one character, so `rest.length` steps always reach the end of input; the
fuel-exhaustion branch of `runLexF` is unreachable from here
(`runLexF_fuel` below), and `rs.drop (h.len - 1)` equals
`(c :: rs).drop h.len` since `h.len ≥ 1`. -/
def runLex (seen rest : List Char) (cur : Mode) (stk : List Mode) (ln : Nat) : LexOut :=
  runLexF rest.length seen rest cur stk ln

theorem runLexF_fuel : ∀ (f : Nat) (seen rest : List Char) (cur : Mode)
    (stk : List Mode) (ln : Nat), rest.length ≤ f →
    runLexF f seen rest cur stk ln = runLex seen rest cur stk ln := by
  intro f
  induction f using Nat.strong_induction_on with
  | _ f ih =>
    intro seen rest cur stk ln hle
    match rest with
    | [] =>
      cases f <;> rfl
    | c :: rs =>
      simp only [List.length_cons] at hle
      obtain ⟨g, rfl⟩ : ∃ g, f = g + 1 := ⟨f - 1, by omega⟩
      have hg : rs.length ≤ g := by omega
      have hlt : g < g + 1 := Nat.lt_succ_self g
      have hlen : rs.length < g + 1 := by omega
      show runLexF (g + 1) seen (c :: rs) cur stk ln =
        runLexF (rs.length + 1) seen (c :: rs) cur stk ln
      simp only [runLexF]
      split
      · rw [ih g hlt _ _ _ _ _ hg, ih rs.length hlen _ _ _ _ _ (le_refl _)]
      · cases hr : ruleHit cur (c :: rs) with
        | some h =>
          cases hb : h.bad with
          | some k =>
            have h1 := ih g hlt (((c :: rs).take (h.len + 1)).reverse ++ seen)
              (rs.drop h.len) cur stk (ln + h.nlcnt) (by simp; omega)
            have h2 := ih rs.length hlen (((c :: rs).take (h.len + 1)).reverse ++ seen)
              (rs.drop h.len) cur stk (ln + h.nlcnt) (by simp)
            simp only [hb, h1, h2]
          | none =>
            have h1 := ih g hlt (((c :: rs).take h.len).reverse ++ seen)
              (rs.drop (h.len - 1))
              (if h.doPush then Mode.keywordstate
               else if h.doSwap then Mode.datalinestate else cur)
              (if h.doPush then cur :: stk else stk) (ln + h.nlcnt) (by simp; omega)
            have h2 := ih rs.length hlen (((c :: rs).take h.len).reverse ++ seen)
              (rs.drop (h.len - 1))
              (if h.doPush then Mode.keywordstate
               else if h.doSwap then Mode.datalinestate else cur)
              (if h.doPush then cur :: stk else stk) (ln + h.nlcnt) (by simp)
            simp only [hb, h1, h2]
        | none =>
          rw [ih g hlt _ _ _ _ _ hg, ih rs.length hlen _ _ _ _ _ (le_refl _)]

/-- Step equation of the scanner on a nonempty input, phrased in terms of
`runLex` itself (the shape of `runLexF`'s recursive case). -/
theorem runLex_cons (seen : List Char) (c : Char) (rs : List Char) (cur : Mode)
    (stk : List Mode) (ln : Nat) :
    runLex seen (c :: rs) cur stk ln =
      if c = ' ' || c = '\t' then runLex (c :: seen) rs cur stk ln
      else
        match ruleHit cur (c :: rs) with
        | some h =>
          match h.bad with
          | some k =>
            let d : Diag := ⟨k, ln, findTokColumn (seen.reverse ++ c :: rs) seen.length⟩
            let o := runLex (((c :: rs).take (h.len + 1)).reverse ++ seen)
                       (rs.drop h.len) cur stk (ln + h.nlcnt)
            ⟨d :: o.diags, o.toks, o.cur, o.stk⟩
          | none =>
            let cur2 := if h.doPush then Mode.keywordstate
                        else if h.doSwap then Mode.datalinestate else cur
            let stk2 := if h.doPush then cur :: stk else stk
            let tks := match h.out with
                       | some (tt, v) => [⟨tt, v, ln, seen.length⟩]
                       | none => ([] : List Tok)
            let o := runLex (((c :: rs).take h.len).reverse ++ seen)
                       (rs.drop (h.len - 1)) cur2 stk2 (ln + h.nlcnt)
            ⟨o.diags, tks ++ o.toks, o.cur, o.stk⟩
        | none =>
          let k := if cur = Mode.keywordstate then DiagKind.invalidKeyword
                   else DiagKind.illegalChar
          let d : Diag := ⟨k, ln, findTokColumn (seen.reverse ++ c :: rs) seen.length⟩
          let o := runLex (c :: seen) rs cur stk ln
          ⟨d :: o.diags, o.toks, o.cur, o.stk⟩ := by
  show runLexF (rs.length + 1) seen (c :: rs) cur stk ln = _
  simp only [runLexF]
  split
  · rw [runLexF_fuel rs.length _ _ _ _ _ (le_refl _)]
  · cases hr : ruleHit cur (c :: rs) with
    | some h =>
      cases hb : h.bad with
      | some k =>
        have h1 := runLexF_fuel rs.length (((c :: rs).take (h.len + 1)).reverse ++ seen)
          (rs.drop h.len) cur stk (ln + h.nlcnt) (by simp)
        simp only [hb, h1]
      | none =>
        have h1 := runLexF_fuel rs.length (((c :: rs).take h.len).reverse ++ seen)
          (rs.drop (h.len - 1))
          (if h.doPush then Mode.keywordstate
           else if h.doSwap then Mode.datalinestate else cur)
          (if h.doPush then cur :: stk else stk) (ln + h.nlcnt) (by simp)
        simp only [hb, h1]
    | none =>
      rw [runLexF_fuel rs.length _ _ _ _ _ (le_refl _)]

/-- Scan a whole buffer from a given starting state (the lexer object's
surviving mode), with `lexpos = 0` and `lineno = 1` as set by
`Lexer.input` and `reset_lineno`. -/
def runFrom (cur : Mode) (stk : List Mode) (s : List Char) : LexOut :=
  runLex [] s cur stk 1

/-- Scan a whole buffer with a freshly built lexer (state `INITIAL`,
empty state stack). -/
def lexAll (s : List Char) : LexOut :=
  runFrom Mode.initial [] s

/-- A `Parameter` node (abaqus_parser.py): name and optional raw value. -/
structure Parameter where
  name : List Char
  value : Option (List Char)
deriving DecidableEq, Repr

/-- A `Keyword` node (abaqus_parser.py): directive name (marker already
stripped by the lexer), parameters (`None` when the directive had no
parameter list), and data lines (`None` when it had none); each data line
is the list of its raw fields. -/
structure Keyword where
  keyword : List Char
  params : Option (List Parameter)
  data : Option (List (List (List Char)))
deriving DecidableEq, Repr

/-- What the LALR automaton sees of a token: its type and its value
(yacc reads `p[i]` values and token types only). -/
abbrev PTok := TokType × List Char

/-- Token types accepted by the production `data : ID | INT_CONST_DEC |
FLOAT_CONST`. -/
def isDataTok : TokType → Bool
  | .ID | .INT_CONST_DEC | .FLOAT_CONST => true
  | _ => false

/-- Token types accepted as the right-hand side of `PARAM EQUALS value`
in `p_single_param`. -/
def isValueTok : TokType → Bool
  | .PARAM | .FLOAT_CONST | .INT_CONST_DEC => true
  | _ => false

/-- Production `param : PARAM | PARAM EQUALS (PARAM|FLOAT_CONST|
INT_CONST_DEC)` (`p_single_param`); an `EQUALS` after the name is
shifted, anything else leaves a bare parameter. -/
def parseParam : List PTok → Except String (Parameter × List PTok)
  | (.PARAM, n) :: (.EQUALS, _) :: (tt, v) :: rest2 =>
    if isValueTok tt then .ok (⟨n, some v⟩, rest2) else .error "syntax error"
  | (.PARAM, _) :: (.EQUALS, _) :: [] => .error "syntax error"
  | (.PARAM, n) :: rest => .ok (⟨n, none⟩, rest)
  | _ => .error "syntax error"

theorem parseParam_length {ts : List PTok} {p : Parameter} {r : List PTok}
    (h : parseParam ts = .ok (p, r)) : r.length < ts.length := by
  unfold parseParam at h
  split at h
  · split at h
    · simp only [Except.ok.injEq, Prod.mk.injEq] at h
      obtain ⟨-, rfl⟩ := h
      simp only [List.length_cons]
      omega
    · simp at h
  · simp at h
  · simp only [Except.ok.injEq, Prod.mk.injEq] at h
    obtain ⟨-, rfl⟩ := h
    simp only [List.length_cons]
    omega
  · simp at h

/-- Loop of `param_list : param_list COMMA param | param`
(`p_param_list`): in the LALR automaton a `COMMA` after a parameter list
is always shifted towards another `param` (no other production continues
with `COMMA` there); any other lookahead ends the list.  Fuel-indexed;
each iteration consumes the comma plus at least one token, so
`ts.length` fuel suffices (`parseParamListAuxF_fuel`) and the fuel-0
return value on a nonempty list is unreachable from `parseParamListAux`. -/
def parseParamListAuxF : Nat → List Parameter → List PTok →
    Except String (List Parameter × List PTok)
  | 0, acc, ts => .ok (acc, ts)
  | f + 1, acc, ts =>
    match ts with
    | (.COMMA, _) :: rest =>
      (match parseParam rest with
       | .ok (p, rest2) => parseParamListAuxF f (acc ++ [p]) rest2
       | .error e => .error e)
    | _ => .ok (acc, ts)

/-- The parameter-list loop at its canonical fuel. -/
def parseParamListAux (acc : List Parameter) (ts : List PTok) :
    Except String (List Parameter × List PTok) :=
  parseParamListAuxF ts.length acc ts

theorem parseParamListAuxF_fuel : ∀ (f : Nat) (acc : List Parameter) (ts : List PTok),
    ts.length ≤ f → parseParamListAuxF f acc ts = parseParamListAux acc ts := by
  intro f
  induction f using Nat.strong_induction_on with
  | _ f ih =>
    intro acc ts hle
    match ts with
    | [] => cases f <;> rfl
    | (tt, v) :: rest =>
      simp only [List.length_cons] at hle
      obtain ⟨g, rfl⟩ : ∃ g, f = g + 1 := ⟨f - 1, by omega⟩
      cases tt with
      | COMMA =>
        show parseParamListAuxF (g + 1) acc ((TokType.COMMA, v) :: rest) =
          parseParamListAuxF (rest.length + 1) acc ((TokType.COMMA, v) :: rest)
        simp only [parseParamListAuxF]
        cases hp : parseParam rest with
        | ok pr =>
          obtain ⟨p, r2⟩ := pr
          have hlen := parseParam_length hp
          dsimp only
          rw [ih g (by omega) (acc ++ [p]) r2 (by omega),
            ih rest.length (by omega) (acc ++ [p]) r2 (by omega)]
        | error e => rfl
      | KEYWORD => rfl
      | ID => rfl
      | PARAM => rfl
      | INT_CONST_DEC => rfl
      | FLOAT_CONST => rfl
      | INT_CONST_OCT => rfl
      | INT_CONST_HEX => rfl
      | CHAR_CONST => rfl
      | WCHAR_CONST => rfl
      | STRING_LITERAL => rfl
      | WSTRING_LITERAL => rfl
      | EQUALS => rfl
      | PERIOD => rfl
      | LASTTOKENONLINE => rfl

theorem parseParamListAux_comma (acc : List Parameter) (v : List Char)
    (rest : List PTok) :
    parseParamListAux acc ((TokType.COMMA, v) :: rest) =
      match parseParam rest with
      | .ok (p, rest2) => parseParamListAux (acc ++ [p]) rest2
      | .error e => .error e := by
  show parseParamListAuxF (rest.length + 1) acc _ = _
  simp only [parseParamListAuxF]
  cases hp : parseParam rest with
  | ok pr =>
    obtain ⟨p, r2⟩ := pr
    have := parseParam_length hp
    dsimp only
    rw [parseParamListAuxF_fuel rest.length (acc ++ [p]) r2 (by omega)]
  | error e => rfl

/-- Entry of `param_list`: one `param` then the comma loop. -/
def parseParamList (ts : List PTok) : Except String (List Parameter × List PTok) :=
  match parseParam ts with
  | .ok (p, r) => parseParamListAux [p] r
  | .error e => .error e

theorem parseParamListAuxF_length {ps : List Parameter} {r : List PTok} :
    ∀ {f : Nat} {acc : List Parameter} {ts : List PTok},
    parseParamListAuxF f acc ts = .ok (ps, r) → r.length ≤ ts.length := by
  intro f
  induction f with
  | zero =>
    intro acc ts h
    simp only [parseParamListAuxF, Except.ok.injEq, Prod.mk.injEq] at h
    obtain ⟨-, rfl⟩ := h
    omega
  | succ g ih =>
    intro acc ts h
    match ts with
    | [] =>
      simp only [parseParamListAuxF, Except.ok.injEq, Prod.mk.injEq] at h
      obtain ⟨-, rfl⟩ := h
      omega
    | (tt, v) :: rest =>
      cases tt <;>
        first
        | (simp only [parseParamListAuxF, Except.ok.injEq, Prod.mk.injEq] at h
           obtain ⟨-, rfl⟩ := h
           omega)
        | (simp only [parseParamListAuxF] at h
           cases hp : parseParam rest with
           | ok pr =>
             obtain ⟨p, r2⟩ := pr
             rw [hp] at h
             have h1 := parseParam_length hp
             have h2 := ih h
             simp only [List.length_cons]
             omega
           | error e =>
             rw [hp] at h
             cases h)

theorem parseParamListAux_length {ps : List Parameter} {r : List PTok}
    {acc : List Parameter} {ts : List PTok}
    (h : parseParamListAux acc ts = .ok (ps, r)) : r.length ≤ ts.length :=
  parseParamListAuxF_length h

theorem parseParamList_length {ts : List PTok} {ps : List Parameter} {r : List PTok}
    (h : parseParamList ts = .ok (ps, r)) : r.length < ts.length := by
  unfold parseParamList at h
  split at h
  · next p r1 hp =>
    have := parseParam_length hp
    have := parseParamListAux_length h
    omega
  · cases h

/-- Production `data : ID | INT_CONST_DEC | FLOAT_CONST`
(`p_single_data`). -/
def parseData : List PTok → Except String (List Char × List PTok)
  | (tt, v) :: rest =>
    if isDataTok tt then .ok (v, rest) else .error "syntax error"
  | [] => .error "syntax error"

theorem parseData_length {ts : List PTok} {d : List Char} {r : List PTok}
    (h : parseData ts = .ok (d, r)) : r.length < ts.length := by
  unfold parseData at h
  split at h
  · split at h
    · simp only [Except.ok.injEq, Prod.mk.injEq] at h
      obtain ⟨-, rfl⟩ := h
      simp
    · cases h
  · cases h

/-- Loop of `data_list : data_list COMMA data | data_list data | data`
(`p_data_list`, `p_data`): a `COMMA` is shifted and must be followed by a
`data` token; a `data` token directly following is also shifted (the
comma-less juxtaposition production); anything else ends the list.
Fuel-indexed with canonical fuel `ts.length` (`parseDataListAuxF_fuel`). -/
def parseDataListAuxF : Nat → List (List Char) → List PTok →
    Except String (List (List Char) × List PTok)
  | 0, acc, ts => .ok (acc, ts)
  | f + 1, acc, ts =>
    match ts with
    | (.COMMA, _) :: rest =>
      (match parseData rest with
       | .ok (d, r2) => parseDataListAuxF f (acc ++ [d]) r2
       | .error e => .error e)
    | (tt, v) :: rest =>
      if isDataTok tt then parseDataListAuxF f (acc ++ [v]) rest
      else .ok (acc, (tt, v) :: rest)
    | [] => .ok (acc, [])

/-- The data-list loop at its canonical fuel. -/
def parseDataListAux (acc : List (List Char)) (ts : List PTok) :
    Except String (List (List Char) × List PTok) :=
  parseDataListAuxF ts.length acc ts

theorem parseDataListAuxF_fuel : ∀ (f : Nat) (acc : List (List Char)) (ts : List PTok),
    ts.length ≤ f → parseDataListAuxF f acc ts = parseDataListAux acc ts := by
  intro f
  induction f using Nat.strong_induction_on with
  | _ f ih =>
    intro acc ts hle
    match ts with
    | [] => cases f <;> rfl
    | (tt, v) :: rest =>
      simp only [List.length_cons] at hle
      obtain ⟨g, rfl⟩ : ∃ g, f = g + 1 := ⟨f - 1, by omega⟩
      have hstep : ∀ w, parseDataListAuxF (g + 1) acc ((tt, w) :: rest) =
          parseDataListAuxF (rest.length + 1) acc ((tt, w) :: rest) := by
        intro w
        cases tt with
        | COMMA =>
          simp only [parseDataListAuxF]
          cases hp : parseData rest with
          | ok pr =>
            obtain ⟨d, r2⟩ := pr
            have hlen := parseData_length hp
            dsimp only
            rw [ih g (by omega) (acc ++ [d]) r2 (by omega),
              ih rest.length (by omega) (acc ++ [d]) r2 (by omega)]
          | error e => rfl
        | ID =>
          simp only [parseDataListAuxF, isDataTok, if_true]
          rw [ih g (by omega) (acc ++ [w]) rest (by omega),
            ih rest.length (by omega) (acc ++ [w]) rest (by omega)]
        | INT_CONST_DEC =>
          simp only [parseDataListAuxF, isDataTok, if_true]
          rw [ih g (by omega) (acc ++ [w]) rest (by omega),
            ih rest.length (by omega) (acc ++ [w]) rest (by omega)]
        | FLOAT_CONST =>
          simp only [parseDataListAuxF, isDataTok, if_true]
          rw [ih g (by omega) (acc ++ [w]) rest (by omega),
            ih rest.length (by omega) (acc ++ [w]) rest (by omega)]
        | KEYWORD => rfl
        | PARAM => rfl
        | INT_CONST_OCT => rfl
        | INT_CONST_HEX => rfl
        | CHAR_CONST => rfl
        | WCHAR_CONST => rfl
        | STRING_LITERAL => rfl
        | WSTRING_LITERAL => rfl
        | EQUALS => rfl
        | PERIOD => rfl
        | LASTTOKENONLINE => rfl
      exact hstep v

theorem parseDataListAux_comma (acc : List (List Char)) (v : List Char)
    (rest : List PTok) :
    parseDataListAux acc ((TokType.COMMA, v) :: rest) =
      match parseData rest with
      | .ok (d, r2) => parseDataListAux (acc ++ [d]) r2
      | .error e => .error e := by
  show parseDataListAuxF (rest.length + 1) acc _ = _
  simp only [parseDataListAuxF]
  cases hp : parseData rest with
  | ok pr =>
    obtain ⟨d, r2⟩ := pr
    have := parseData_length hp
    dsimp only
    rw [parseDataListAuxF_fuel rest.length (acc ++ [d]) r2 (by omega)]
  | error e => rfl

theorem parseDataListAux_data (acc : List (List Char)) (tt : TokType)
    (v : List Char) (rest : List PTok) (htt : tt ≠ TokType.COMMA)
    (hd : isDataTok tt = true) :
    parseDataListAux acc ((tt, v) :: rest) = parseDataListAux (acc ++ [v]) rest := by
  show parseDataListAuxF (rest.length + 1) acc _ = _
  cases tt with
  | ID =>
    simp only [parseDataListAuxF, isDataTok, if_true]
    rw [parseDataListAuxF_fuel rest.length (acc ++ [v]) rest (by omega)]
  | INT_CONST_DEC =>
    simp only [parseDataListAuxF, isDataTok, if_true]
    rw [parseDataListAuxF_fuel rest.length (acc ++ [v]) rest (by omega)]
  | FLOAT_CONST =>
    simp only [parseDataListAuxF, isDataTok, if_true]
    rw [parseDataListAuxF_fuel rest.length (acc ++ [v]) rest (by omega)]
  | COMMA => exact absurd rfl htt
  | KEYWORD => simp [isDataTok] at hd
  | PARAM => simp [isDataTok] at hd
  | INT_CONST_OCT => simp [isDataTok] at hd
  | INT_CONST_HEX => simp [isDataTok] at hd
  | CHAR_CONST => simp [isDataTok] at hd
  | WCHAR_CONST => simp [isDataTok] at hd
  | STRING_LITERAL => simp [isDataTok] at hd
  | WSTRING_LITERAL => simp [isDataTok] at hd
  | EQUALS => simp [isDataTok] at hd
  | PERIOD => simp [isDataTok] at hd
  | LASTTOKENONLINE => simp [isDataTok] at hd

/-- Entry of `data_list`: one `data` then the loop. -/
def parseDataList (ts : List PTok) : Except String (List (List Char) × List PTok) :=
  match parseData ts with
  | .ok (d, r) => parseDataListAux [d] r
  | .error e => .error e

theorem parseDataListAuxF_length {xs : List (List Char)} {r : List PTok} :
    ∀ {f : Nat} {acc : List (List Char)} {ts : List PTok},
    parseDataListAuxF f acc ts = .ok (xs, r) → r.length ≤ ts.length := by
  intro f
  induction f with
  | zero =>
    intro acc ts h
    simp only [parseDataListAuxF, Except.ok.injEq, Prod.mk.injEq] at h
    obtain ⟨-, rfl⟩ := h
    omega
  | succ g ih =>
    intro acc ts h
    match ts with
    | [] =>
      simp only [parseDataListAuxF, Except.ok.injEq, Prod.mk.injEq] at h
      obtain ⟨-, rfl⟩ := h
      omega
    | (tt, v) :: rest =>
      cases tt <;>
        first
        | (simp only [parseDataListAuxF] at h
           cases hp : parseData rest with
           | ok pr =>
             obtain ⟨d, r2⟩ := pr
             rw [hp] at h
             have h1 := parseData_length hp
             have h2 := ih h
             simp only [List.length_cons]
             omega
           | error e =>
             rw [hp] at h
             cases h)
        | (simp only [parseDataListAuxF, isDataTok, if_true] at h
           have h2 := ih h
           simp only [List.length_cons]
           omega)
        | (simp only [parseDataListAuxF, isDataTok, Bool.false_eq_true, if_false,
             Except.ok.injEq, Prod.mk.injEq] at h
           obtain ⟨-, rfl⟩ := h
           omega)

theorem parseDataListAux_length {xs : List (List Char)} {r : List PTok}
    {acc : List (List Char)} {ts : List PTok}
    (h : parseDataListAux acc ts = .ok (xs, r)) : r.length ≤ ts.length :=
  parseDataListAuxF_length h

theorem parseDataList_length {ts : List PTok} {xs : List (List Char)} {r : List PTok}
    (h : parseDataList ts = .ok (xs, r)) : r.length < ts.length := by
  unfold parseDataList at h
  split at h
  · next d r1 hp =>
    have := parseData_length hp
    have := parseDataListAux_length h
    omega
  · cases h

/-- Production `data_line : data_list LASTTOKENONLINE` (`p_data_line`). -/
def parseDataLine (ts : List PTok) : Except String (List (List Char) × List PTok) :=
  match parseDataList ts with
  | .ok (xs, (.LASTTOKENONLINE, _) :: rest) => .ok (xs, rest)
  | .ok _ => .error "syntax error"
  | .error e => .error e

theorem parseDataLine_length {ts : List PTok} {xs : List (List Char)} {r : List PTok}
    (h : parseDataLine ts = .ok (xs, r)) : r.length < ts.length := by
  unfold parseDataLine at h
  split at h
  · next ys v rest hp =>
    have := parseDataList_length hp
    simp only [Except.ok.injEq, Prod.mk.injEq] at h
    obtain ⟨-, rfl⟩ := h
    simp only [List.length_cons] at this
    omega
  · cases h
  · cases h

/-- Does the next token start a `data` production? -/
def headIsData : List PTok → Bool
  | (tt, _) :: _ => isDataTok tt
  | [] => false

/-- Loop of `data_lines : data_lines data_line | data_line`
(`p_data_lines_list`, `p_data_lines`): another line starts exactly when
the lookahead is a `data` token.  Fuel-indexed with canonical fuel
`ts.length` (`parseDataLinesAuxF_fuel`). -/
def parseDataLinesAuxF : Nat → List (List (List Char)) → List PTok →
    Except String (List (List (List Char)) × List PTok)
  | 0, acc, ts => .ok (acc, ts)
  | f + 1, acc, ts =>
    if headIsData ts then
      match parseDataLine ts with
      | .ok (l, r) => parseDataLinesAuxF f (acc ++ [l]) r
      | .error e => .error e
    else .ok (acc, ts)

/-- The data-lines loop at its canonical fuel. -/
def parseDataLinesAux (acc : List (List (List Char))) (ts : List PTok) :
    Except String (List (List (List Char)) × List PTok) :=
  parseDataLinesAuxF ts.length acc ts

theorem parseDataLinesAuxF_fuel : ∀ (f : Nat) (acc : List (List (List Char)))
    (ts : List PTok), ts.length ≤ f →
    parseDataLinesAuxF f acc ts = parseDataLinesAux acc ts := by
  intro f
  induction f using Nat.strong_induction_on with
  | _ f ih =>
    intro acc ts hle
    match ts with
    | [] =>
      cases f with
      | zero => rfl
      | succ g => simp [parseDataLinesAuxF, parseDataLinesAux, headIsData]
    | t :: rest =>
      simp only [List.length_cons] at hle
      obtain ⟨g, rfl⟩ : ∃ g, f = g + 1 := ⟨f - 1, by omega⟩
      show parseDataLinesAuxF (g + 1) acc (t :: rest) =
        parseDataLinesAuxF (rest.length + 1) acc (t :: rest)
      simp only [parseDataLinesAuxF]
      split
      · cases hp : parseDataLine (t :: rest) with
        | ok pr =>
          obtain ⟨l, r⟩ := pr
          have hlen := parseDataLine_length hp
          simp only [List.length_cons] at hlen
          dsimp only
          rw [ih g (by omega) (acc ++ [l]) r (by omega),
            ih rest.length (by omega) (acc ++ [l]) r (by omega)]
        | error e => rfl
      · rfl

theorem parseDataLinesAux_step (acc : List (List (List Char))) (ts : List PTok)
    (hd : headIsData ts = true) :
    parseDataLinesAux acc ts =
      match parseDataLine ts with
      | .ok (l, r) => parseDataLinesAux (acc ++ [l]) r
      | .error e => .error e := by
  match ts with
  | t :: rest =>
    show parseDataLinesAuxF (rest.length + 1) acc _ = _
    simp only [parseDataLinesAuxF, hd, if_true]
    cases hp : parseDataLine (t :: rest) with
    | ok pr =>
      obtain ⟨l, r⟩ := pr
      have hlen := parseDataLine_length hp
      simp only [List.length_cons] at hlen
      dsimp only
      rw [parseDataLinesAuxF_fuel rest.length (acc ++ [l]) r (by omega)]
    | error e => rfl
  | [] => simp [headIsData] at hd

/-- Entry of `data_lines`: one `data_line` then the loop. -/
def parseDataLines (ts : List PTok) :
    Except String (List (List (List Char)) × List PTok) :=
  match parseDataLine ts with
  | .ok (l, r) => parseDataLinesAux [l] r
  | .error e => .error e

theorem parseDataLinesAuxF_length {ls : List (List (List Char))} {r : List PTok} :
    ∀ {f : Nat} {acc : List (List (List Char))} {ts : List PTok},
    parseDataLinesAuxF f acc ts = .ok (ls, r) → r.length ≤ ts.length := by
  intro f
  induction f with
  | zero =>
    intro acc ts h
    simp only [parseDataLinesAuxF, Except.ok.injEq, Prod.mk.injEq] at h
    obtain ⟨-, rfl⟩ := h
    omega
  | succ g ih =>
    intro acc ts h
    rw [parseDataLinesAuxF] at h
    split at h
    · cases hp : parseDataLine ts with
      | ok pr =>
        obtain ⟨l, r2⟩ := pr
        rw [hp] at h
        have h1 := parseDataLine_length hp
        have h2 := ih h
        omega
      | error e =>
        rw [hp] at h
        cases h
    · simp only [Except.ok.injEq, Prod.mk.injEq] at h
      obtain ⟨-, rfl⟩ := h
      omega

theorem parseDataLinesAux_length {ls : List (List (List Char))} {r : List PTok}
    {acc : List (List (List Char))} {ts : List PTok}
    (h : parseDataLinesAux acc ts = .ok (ls, r)) : r.length ≤ ts.length :=
  parseDataLinesAuxF_length h

theorem parseDataLines_length {ts : List PTok} {ls : List (List (List Char))}
    {r : List PTok} (h : parseDataLines ts = .ok (ls, r)) : r.length < ts.length := by
  unfold parseDataLines at h
  split at h
  · next l r1 hp =>
    have := parseDataLine_length hp
    have := parseDataLinesAux_length h
    omega
  · cases h

/-- Production `keyword : KEYWORD | KEYWORD data_lines |
KEYWORD COMMA param_list | KEYWORD COMMA param_list data_lines`
(`p_single_keyword`), following the LALR automaton's decisions: after the
`KEYWORD` a `COMMA` is shifted into the parameter list; a data token
starts `data_lines`; a following `KEYWORD` or the end of input reduces
the bare forms; any other lookahead (for example a `PARAM` directly after
the `KEYWORD`, or a `LASTTOKENONLINE`) is a syntax error. -/
def parseKeyword : List PTok → Except String (Keyword × List PTok)
  | (.KEYWORD, name) :: rest =>
    (match rest with
     | (.COMMA, _) :: r2 =>
       (match parseParamList r2 with
        | .ok (ps, r3) =>
          if headIsData r3 then
            match parseDataLines r3 with
            | .ok (ds, r4) => .ok (⟨name, some ps, some ds⟩, r4)
            | .error e => .error e
          else
            match r3 with
            | [] => .ok (⟨name, some ps, none⟩, [])
            | (.KEYWORD, v) :: r4 => .ok (⟨name, some ps, none⟩, (.KEYWORD, v) :: r4)
            | _ => .error "syntax error"
        | .error e => .error e)
     | _ =>
       if headIsData rest then
         match parseDataLines rest with
         | .ok (ds, r4) => .ok (⟨name, none, some ds⟩, r4)
         | .error e => .error e
       else
         match rest with
         | [] => .ok (⟨name, none, none⟩, [])
         | (.KEYWORD, v) :: r4 => .ok (⟨name, none, none⟩, (.KEYWORD, v) :: r4)
         | _ => .error "syntax error")
  | _ => .error "syntax error"

theorem parseKeyword_length {ts : List PTok} {k : Keyword} {r : List PTok}
    (h : parseKeyword ts = .ok (k, r)) : r.length < ts.length := by
  unfold parseKeyword at h
  split at h
  · next name rest =>
    split at h
    · next v r2 =>
      split at h
      · next ps r3 hps =>
        have h3 := parseParamList_length hps
        split at h
        · split at h
          · next ds r4 hds =>
            have h4 := parseDataLines_length hds
            simp only [Except.ok.injEq, Prod.mk.injEq] at h
            obtain ⟨-, rfl⟩ := h
            simp only [List.length_cons]
            omega
          · cases h
        · split at h
          · simp only [Except.ok.injEq, Prod.mk.injEq] at h
            obtain ⟨-, rfl⟩ := h
            simp
          · next v2 r4 =>
            simp only [Except.ok.injEq, Prod.mk.injEq] at h
            obtain ⟨-, rfl⟩ := h
            simp only [List.length_cons] at h3 ⊢
            omega
          · cases h
      · cases h
    · split at h
      · split at h
        · next ds r4 hds =>
          have h4 := parseDataLines_length hds
          simp only [Except.ok.injEq, Prod.mk.injEq] at h
          obtain ⟨-, rfl⟩ := h
          simp only [List.length_cons]
          omega
        · cases h
      · split at h
        · simp only [Except.ok.injEq, Prod.mk.injEq] at h
          obtain ⟨-, rfl⟩ := h
          simp
        · next v2 r4 =>
          simp only [Except.ok.injEq, Prod.mk.injEq] at h
          obtain ⟨-, rfl⟩ := h
          simp
        · cases h
  · cases h

/-- Loop of `keyword_list : keyword_list keyword | keyword`
(`p_keyword_list`, `p_keyword`): after a reduced keyword, a `KEYWORD`
lookahead shifts into another keyword, the end of input accepts, and any
other lookahead is a syntax error.  Fuel-indexed with canonical fuel
`ts.length` (`parseDocAuxF_fuel`). -/
def parseDocAuxF : Nat → List Keyword → List PTok → Except String (List Keyword)
  | _, acc, [] => .ok acc
  | 0, _, _ :: _ => .error "syntax error"
  | f + 1, acc, (.KEYWORD, v) :: rest =>
    (match parseKeyword ((.KEYWORD, v) :: rest) with
     | .ok (k, r) => parseDocAuxF f (acc ++ [k]) r
     | .error e => .error e)
  | _ + 1, _, _ :: _ => .error "syntax error"

/-- The keyword-list loop at its canonical fuel. -/
def parseDocAux (acc : List Keyword) (ts : List PTok) : Except String (List Keyword) :=
  parseDocAuxF ts.length acc ts

theorem parseDocAuxF_fuel : ∀ (f : Nat) (acc : List Keyword) (ts : List PTok),
    ts.length ≤ f → parseDocAuxF f acc ts = parseDocAux acc ts := by
  intro f
  induction f using Nat.strong_induction_on with
  | _ f ih =>
    intro acc ts hle
    match ts with
    | [] => cases f <;> rfl
    | (tt, v) :: rest =>
      simp only [List.length_cons] at hle
      obtain ⟨g, rfl⟩ : ∃ g, f = g + 1 := ⟨f - 1, by omega⟩
      cases tt with
      | KEYWORD =>
        show parseDocAuxF (g + 1) acc ((TokType.KEYWORD, v) :: rest) =
          parseDocAuxF (rest.length + 1) acc ((TokType.KEYWORD, v) :: rest)
        simp only [parseDocAuxF]
        cases hp : parseKeyword ((TokType.KEYWORD, v) :: rest) with
        | ok pr =>
          obtain ⟨k, r⟩ := pr
          have hlen := parseKeyword_length hp
          simp only [List.length_cons] at hlen
          dsimp only
          rw [ih g (by omega) (acc ++ [k]) r (by omega),
            ih rest.length (by omega) (acc ++ [k]) r (by omega)]
        | error e => rfl
      | ID => rfl
      | PARAM => rfl
      | INT_CONST_DEC => rfl
      | FLOAT_CONST => rfl
      | INT_CONST_OCT => rfl
      | INT_CONST_HEX => rfl
      | CHAR_CONST => rfl
      | WCHAR_CONST => rfl
      | STRING_LITERAL => rfl
      | WSTRING_LITERAL => rfl
      | EQUALS => rfl
      | COMMA => rfl
      | PERIOD => rfl
      | LASTTOKENONLINE => rfl

theorem parseDocAux_kw (acc : List Keyword) (v : List Char) (rest : List PTok) :
    parseDocAux acc ((TokType.KEYWORD, v) :: rest) =
      match parseKeyword ((TokType.KEYWORD, v) :: rest) with
      | .ok (k, r) => parseDocAux (acc ++ [k]) r
      | .error e => .error e := by
  show parseDocAuxF (rest.length + 1) acc _ = _
  simp only [parseDocAuxF]
  cases hp : parseKeyword ((TokType.KEYWORD, v) :: rest) with
  | ok pr =>
    obtain ⟨k, r⟩ := pr
    have hlen := parseKeyword_length hp
    simp only [List.length_cons] at hlen
    dsimp only
    rw [parseDocAuxF_fuel rest.length (acc ++ [k]) r (by omega)]
  | error e => rfl

/-- Start symbol `keyword_list`: at least one keyword, then the loop;
an empty token stream hits `p_error` (`At end of input`). -/
def parseToks (ts : List PTok) : Except String (List Keyword) :=
  match ts with
  | [] => .error "syntax error"
  | _ =>
    match parseKeyword ts with
    | .ok (k, r) => parseDocAux [k] r
    | .error e => .error e

/-- Projection of a produced token to what the parser consumes. -/
def projTok (t : Tok) : PTok :=
  (t.ttype, t.value)

/-- One `AbaqusParser.parse` call on a parser object whose lexer is
currently in mode `cur` with state stack `stk`: `input` resets the
buffer and `lexpos`, `reset_lineno` resets `lineno` to 1, but the mode
and stack survive from the previous call.  Lexical errors reach
`_lex_error_func`, which raises `ParseError` (modelled as `Except.error`:
no Document is produced), as does `p_error` on a syntax error.  Returns
the parse outcome together with the lexer state left behind. -/
def parseOn (cur : Mode) (stk : List Mode) (s : List Char) :
    Except String (List Keyword) × (Mode × List Mode) :=
  let o := runFrom cur stk s
  (if o.diags = [] then parseToks (o.toks.map projTok) else .error "lexical error",
   (o.cur, o.stk))

/-- `AbaqusParser().parse(text)` on a freshly constructed parser:
lexer built by `ply.lex.lex` starts in `INITIAL` with an empty state
stack. -/
def parseString (s : List Char) : Except String (List Keyword) :=
  (parseOn Mode.initial [] s).1

/-- Scenario A input of the spec: `*elset,elset=foo\n1,\n2,\n3,\n`. -/
def scenarioA : List Char := "*elset,elset=foo\n1,\n2,\n3,\n".toList

/-- Scenario B input of the spec: two consecutive `*solid section`
blocks. -/
def scenarioB : List Char :=
  "*solid section,elset=box,material=T95\n1.0\n*solid section,elset=pin,material=T95\n1.0\n".toList

/-- C1: the spec and the repository's own test (`test_snippets.test_2`)
require scenario B to parse into a two-keyword Document with keyword name
`solid section` and two parameters each.  The code instead fails: the
keyword regex `\*[a-zA-Z][0-9a-zA-Z_]*` cannot cross the space, so the
header lexes as `KEYWORD solid` followed by `PARAM section`, a token pair
for which `p_single_keyword` has no production, and the parse raises.
This theorem evaluates the embedded code at the failing input. -/
theorem c1_scenarioB_fails :
    parseString scenarioB = Except.error "syntax error" ∧
    ((lexAll scenarioB).toks.map projTok).take 2 =
      [(TokType.KEYWORD, "solid".toList), (TokType.PARAM, "section".toList)] :=
  ⟨rfl, rfl⟩

/-- C2: the spec and the repository's own test (`test_snippets.test_1`)
require scenario A to parse into one keyword with three one-field data
lines.  The code instead fails: each data line `1,` ends with a `COMMA`
token directly followed by `LASTTOKENONLINE`, and the grammar
(`p_data_list`/`p_data_line`) has no trailing-comma production, so the
parse raises.  This theorem evaluates the embedded code at the failing
input and exhibits the offending token pair. -/
theorem c2_scenarioA_fails :
    parseString scenarioA = Except.error "syntax error" ∧
    ((lexAll scenarioA).toks.map projTok).take 8 =
      [(TokType.KEYWORD, "elset".toList), (TokType.COMMA, [',']),
       (TokType.PARAM, "elset".toList), (TokType.EQUALS, ['=']),
       (TokType.PARAM, "foo".toList), (TokType.INT_CONST_DEC, ['1']),
       (TokType.COMMA, [',']), (TokType.LASTTOKENONLINE, ['\n'])] :=
  ⟨rfl, rfl⟩

/-- C7 counterexample: the claim says that for every text, two successive
`parse` calls on the same `AbaqusParser` instance return equal Documents.
On `"\n*a\n"` the first call succeeds but leaves the scanner in
`datalinestate` (PLY's `input()` resets position and `reset_lineno` the
line counter, but not the state stack), so the second call lexes the
leading newline as `LASTTOKENONLINE` and fails: the two results differ. -/
theorem c7_counterexample :
    (parseOn Mode.initial [] "\n*a\n".toList).1 ≠
      (parseOn (parseOn Mode.initial [] "\n*a\n".toList).2.1
        (parseOn Mode.initial [] "\n*a\n".toList).2.2 "\n*a\n".toList).1 :=
  fun h => Except.noConfusion h

/-- C7 amended: each `parse` call rescans from offset 0 and line 1, but
the scanner's mode and state stack survive across calls on the same
instance; consequently repeated parses of the same text may disagree.
Concretely, on `"\n*a\n"` the first call returns the one-keyword Document
and leaves the scanner in `datalinestate` with `INITIAL` stacked, and a
second call started in that surviving mode fails with a syntax error. -/
theorem c7_amended :
    parseOn Mode.initial [] "\n*a\n".toList =
      (Except.ok [⟨['a'], none, none⟩], (Mode.datalinestate, [Mode.initial])) ∧
    (parseOn Mode.datalinestate [Mode.initial] "\n*a\n".toList).1 =
      Except.error "syntax error" :=
  ⟨rfl, rfl⟩

/-- Modelled from the spec's words for claim C8: the greatest index `j`
strictly below `i` at which the buffer holds a line break. -/
def lastNlBefore (lexdata : List Char) : Nat → Option Nat
  | 0 => none
  | i + 1 => if lexdata.getD i ' ' = '\n' then some i else lastNlBefore lexdata i

/-- Modelled from the spec's words for claim C8 (`Column computation:
distance (1-based) from a token's start offset back to the nearest
preceding line break, or to buffer start`): a token starting right after
a line break gets column 1, and a token at offset `k` with no preceding
break gets column `k + 1`. -/
def claimedColumn (lexdata : List Char) (lexpos : Nat) : Nat :=
  match lastNlBefore lexdata lexpos with
  | some j => lexpos - j
  | none => lexpos + 1

/-- C8 counterexample: in the buffer `a\nb`, the token starting at
offset 2 (the `b`, immediately after the line break) should have column 1
under the claim, but `_find_tok_column` stops its backward scan at the
newline index itself and reports `lexpos - i + 1 = 2`. -/
theorem c8_counterexample :
    findTokColumn "a\nb".toList 2 = 2 ∧ claimedColumn "a\nb".toList 2 = 1 ∧
    findTokColumn "a\nb".toList 2 ≠ claimedColumn "a\nb".toList 2 :=
  ⟨rfl, rfl, by decide⟩

/-- The greatest index `j ≤ i` at which the buffer holds a line break
(the point where `_find_tok_column`'s backward scan stops, except that
the scan never tests index 0). -/
def nearestNlAtOrBefore (lexdata : List Char) : Nat → Option Nat
  | 0 => if lexdata.getD 0 ' ' = '\n' then some 0 else none
  | i + 1 =>
    if lexdata.getD (i + 1) ' ' = '\n' then some (i + 1)
    else nearestNlAtOrBefore lexdata i

theorem lastNlScan_eq_nearest (lexdata : List Char) :
    ∀ p : Nat, lastNlScan lexdata p = (nearestNlAtOrBefore lexdata p).getD 0 := by
  intro p
  induction p with
  | zero =>
    simp only [lastNlScan, nearestNlAtOrBefore]
    split <;> rfl
  | succ i ih =>
    simp only [lastNlScan, nearestNlAtOrBefore]
    split <;> simp [ih]

/-- C8 amended: the column reported by `_find_tok_column` is
`p - j + 1` where `j` is the greatest offset at or before the token's
start offset `p` holding a line break (so a token starting immediately
after a line break reports column 2, and a token whose own first
character is the line break reports column 1), and `p + 1` when no line
break occurs at or before `p` — in particular `k + 1` for a token at
offset `k` on the first line, as the claim states.  (When the only line
break is at offset 0 the scan stops at 0 without testing it, and both
readings give `p + 1`.) -/
theorem c8_amended (lexdata : List Char) (p : Nat) :
    findTokColumn lexdata p =
      match nearestNlAtOrBefore lexdata p with
      | some j => p - j + 1
      | none => p + 1 := by
  unfold findTokColumn
  rw [lastNlScan_eq_nearest]
  cases h : nearestNlAtOrBefore lexdata p <;> simp

theorem takeWhile_append_stop {α : Type} (p : α → Bool) :
    ∀ (xs : List α) (d : α) (r : List α), (∀ c ∈ xs, p c = true) → p d = false →
    (xs ++ d :: r).takeWhile p = xs := by
  intro xs d r hall hd
  induction xs with
  | nil => simp [List.takeWhile_cons, hd]
  | cons x xs ih =>
    have hx := hall x (by simp)
    simp only [List.cons_append, List.takeWhile_cons, hx]
    rw [ih (fun c hc => hall c (by simp [hc]))]
    simp

/-- The first matching rule at a comment line is `t_COMMENT` in every
scanner state (the leading `[ \t]*` of its pattern matching empty here):
`t_KEYWORD` needs a letter after the marker, the `keywordstate` and
`datalinestate` rules need an identifier character, a comma or a newline,
and nothing before `t_COMMENT` in the INITIAL list matches `*`. -/
theorem ruleHit_comment (cur : Mode) (body rest : List Char) (hbody : '\n' ∉ body) :
    ruleHit cur ('*' :: '*' :: (body ++ '\n' :: rest)) =
      some ⟨0 + 2 + body.length + 1, none, none, 0, false, false⟩ := by
  have hkw : matchKeywordRule ('*' :: '*' :: (body ++ '\n' :: rest)) = none := by
    simp [matchKeywordRule, isLetter]
  have hcm : matchCommentRule ('*' :: '*' :: (body ++ '\n' :: rest)) =
      some (0 + 2 + body.length + 1) := by
    unfold matchCommentRule
    have hw : ('*' :: '*' :: (body ++ '\n' :: rest)).takeWhile
        (fun c => c = ' ' || c = '\t') = [] := by
      simp [List.takeWhile_cons]
    rw [hw]
    simp only [List.length_nil, List.drop_zero]
    have hb : (body ++ '\n' :: rest).takeWhile (fun c => c ≠ '\n') = body := by
      refine takeWhile_append_stop _ body '\n' rest (fun c hc => ?_) (by simp)
      simp only [decide_eq_true_eq]
      intro hcn
      exact hbody (hcn ▸ hc)
    rw [hb]
    rw [List.drop_left]
    rfl
  cases cur with
  | initial =>
    simp only [ruleHit, initialHit, hkw, hcm]
  | keywordstate =>
    have hid : matchIdentifier ('*' :: '*' :: (body ++ '\n' :: rest)) = none := by
      simp [matchIdentifier, isLetter]
    simp only [ruleHit, initialHit, hkw, hcm, hid]
    rfl
  | datalinestate =>
    simp only [ruleHit, initialHit, hkw, hcm]
    rfl

/-- C5: a full line that (after optional spaces and tabs) begins with the
double marker `**` and runs to its newline is a comment: scanning it
yields no tokens and no diagnostics, the scanner's mode and state stack
after it equal those before it, and scanning simply resumes after the
line's newline (in every scanner state, hence for every position in every
input buffer). -/
theorem c5_comment_line : ∀ (ws : List Char) (body seen rest : List Char) (cur : Mode)
    (stk : List Mode) (ln : Nat),
    (∀ c ∈ ws, c = ' ' ∨ c = '\t') → '\n' ∉ body →
    runLex seen (ws ++ '*' :: '*' :: (body ++ '\n' :: rest)) cur stk ln =
      runLex ((ws ++ '*' :: '*' :: (body ++ ['\n'])).reverse ++ seen) rest cur stk ln := by
  intro ws
  induction ws with
  | nil =>
    intro body seen rest cur stk ln hws hbody
    simp only [List.nil_append]
    rw [runLex_cons]
    rw [if_neg (by decide)]
    rw [ruleHit_comment cur body rest hbody]
    simp only [List.reverse_cons, List.reverse_append]
    have hdrop : ('*' :: (body ++ '\n' :: rest)).drop (0 + 2 + body.length + 1 - 1) =
        rest := by
      have : 0 + 2 + body.length + 1 - 1 = (body.length + 1) + 1 := by omega
      rw [this]
      simp only [List.drop_succ_cons]
      have h2 : body.length + 1 = (body ++ ['\n']).length := by simp
      rw [h2, show body ++ '\n' :: rest = (body ++ ['\n']) ++ rest by simp,
        List.drop_left]
    have htake : ('*' :: '*' :: (body ++ '\n' :: rest)).take (0 + 2 + body.length + 1) =
        '*' :: '*' :: (body ++ ['\n']) := by
      have : 0 + 2 + body.length + 1 = 2 + (body ++ ['\n']).length := by simp; omega
      rw [this]
      simp only [List.take_succ_cons, show (2 : Nat) + (body ++ ['\n']).length =
        ((body ++ ['\n']).length + 1) + 1 from by omega]
      congr 1
      congr 1
      rw [show body ++ '\n' :: rest = (body ++ ['\n']) ++ rest by simp, List.take_left]
    rw [hdrop, htake]
    simp [List.reverse_cons, List.reverse_append]
  | cons w ws ih =>
    intro body seen rest cur stk ln hws hbody
    have hw : w = ' ' ∨ w = '\t' := hws w (by simp)
    simp only [List.cons_append]
    rw [runLex_cons]
    rw [if_pos (by rcases hw with h | h <;> simp [h])]
    rw [ih body (w :: seen) rest cur stk ln (fun c hc => hws c (by simp [hc])) hbody]
    simp [List.reverse_cons, List.append_assoc]

/-- C5 witness: a concrete comment line ` **x` inside a data region is
skipped whole, leaving mode and stack unchanged. -/
theorem c5_comment_witness :
    runLex [] (" **x\n1\n".toList) Mode.datalinestate [Mode.initial] 1 =
      runLex (" **x\n".toList.reverse) ("1\n".toList) Mode.datalinestate
        [Mode.initial] 1 := by
  have h := c5_comment_line [' '] ['x'] [] ("1\n".toList) Mode.datalinestate
    [Mode.initial] 1 (by decide) (by decide)
  exact h

/-- Diagnostic content up to the column (which depends on the absolute
position of the scan). -/
def projDiag (d : Diag) : DiagKind × Nat := (d.kind, d.line)

/-- Token content up to the start offset. -/
def projTok3 (t : Tok) : TokType × List Char × Nat := (t.ttype, t.value, t.lineno)

/-- Scan output up to absolute positions: diagnostic kinds and lines,
token kinds, values and lines, and the final mode and stack. -/
def projOut (o : LexOut) :
    List (DiagKind × Nat) × List (TokType × List Char × Nat) × Mode × List Mode :=
  (o.diags.map projDiag, o.toks.map projTok3, o.cur, o.stk)

/-- Parse of the token stream produced by resuming the scan at an
arbitrary point: what `AbaqusParser.parse` computes when the scan of the
whole buffer passes through that point (lexical diagnostics abort with no
Document). -/
def resumeParse (seen rest : List Char) (cur : Mode) (stk : List Mode) (ln : Nat) :
    Except String (List Keyword) :=
  let o := runLex seen rest cur stk ln
  if o.diags = [] then parseToks (o.toks.map projTok) else .error "lexical error"

/-- Everything the scanner produces except columns and start offsets
depends only on the remaining input, not on the consumed prefix. -/
theorem runLex_seen_proj : ∀ (n : Nat) (rest : List Char), rest.length ≤ n →
    ∀ (seen1 seen2 : List Char) (cur : Mode) (stk : List Mode) (ln : Nat),
    projOut (runLex seen1 rest cur stk ln) = projOut (runLex seen2 rest cur stk ln) := by
  intro n
  induction n using Nat.strong_induction_on with
  | _ n ih =>
    intro rest hle seen1 seen2 cur stk ln
    match rest with
    | [] => rfl
    | c :: rs =>
      simp only [List.length_cons] at hle
      rw [runLex_cons seen1, runLex_cons seen2]
      by_cases hc : (decide (c = ' ') || decide (c = '\t')) = true
      · rw [if_pos hc, if_pos hc]
        exact ih rs.length (by omega) rs (le_refl _) _ _ cur stk ln
      · rw [if_neg hc, if_neg hc]
        cases hr : ruleHit cur (c :: rs) with
        | some h =>
          cases hb : h.bad with
          | some k =>
            have hrec := ih rs.length (by omega) (rs.drop h.len) (by simp)
              (((c :: rs).take (h.len + 1)).reverse ++ seen1)
              (((c :: rs).take (h.len + 1)).reverse ++ seen2) cur stk (ln + h.nlcnt)
            simp only [projOut, Prod.mk.injEq] at hrec
            obtain ⟨e1, e2, e3, e4⟩ := hrec
            simp only [hb, projOut, List.map_cons, projDiag, Prod.mk.injEq,
              List.cons.injEq]
            exact ⟨⟨trivial, e1⟩, e2, e3, e4⟩
          | none =>
            have hrec := ih rs.length (by omega) (rs.drop (h.len - 1)) (by simp)
              (((c :: rs).take h.len).reverse ++ seen1)
              (((c :: rs).take h.len).reverse ++ seen2)
              (if h.doPush then Mode.keywordstate
               else if h.doSwap then Mode.datalinestate else cur)
              (if h.doPush then cur :: stk else stk) (ln + h.nlcnt)
            simp only [projOut, Prod.mk.injEq] at hrec
            obtain ⟨e1, e2, e3, e4⟩ := hrec
            cases ho : h.out with
            | some tv =>
              obtain ⟨tt, v⟩ := tv
              simp only [hb, ho, projOut, List.map_append, List.map_cons, List.map_nil,
                projTok3, Prod.mk.injEq]
              exact ⟨e1, by rw [e2], e3, e4⟩
            | none =>
              simp only [hb, ho, projOut, List.nil_append, Prod.mk.injEq]
              exact ⟨e1, e2, e3, e4⟩
        | none =>
          have hrec := ih rs.length (by omega) rs (le_refl _) (c :: seen1) (c :: seen2)
            cur stk ln
          simp only [projOut, Prod.mk.injEq] at hrec
          obtain ⟨e1, e2, e3, e4⟩ := hrec
          simp only [projOut, List.map_cons, projDiag, Prod.mk.injEq, List.cons.injEq]
          exact ⟨⟨trivial, e1⟩, e2, e3, e4⟩

/-- In `keywordstate`, a comma immediately followed by a newline fires
`t_keywordstate_CONTINUE`: the two characters collapse into one `COMMA`
token with value `,`, no line-number change, and no state change. -/
theorem ruleHit_kw_continue (rest : List Char) :
    ruleHit Mode.keywordstate (',' :: '\n' :: rest) =
      some ⟨2, some (TokType.COMMA, [',']), none, 0, false, false⟩ := by
  simp [ruleHit, matchIdentifier, isLetter, matchContinueRule]

/-- In `keywordstate`, a comma not followed by a newline falls through
the state rules and the INITIAL function rules to the string rule
`t_COMMA`: one `COMMA` token of length one, no state change. -/
theorem ruleHit_kw_comma (rest : List Char) (hhead : rest.head? ≠ some '\n') :
    ruleHit Mode.keywordstate (',' :: rest) =
      some ⟨1, some (TokType.COMMA, [',']), none, 0, false, false⟩ := by
  have hcont : matchContinueRule (',' :: rest) = none := by
    match rest with
    | [] => rfl
    | r0 :: rr =>
      have : r0 ≠ '\n' := by
        intro he
        exact hhead (by simp [he])
      simp [matchContinueRule, this]
  match rest with
  | [] => rfl
  | r0 :: rr =>
    simp only [ruleHit, initialHit, hcont]
    rfl

/-- C3: a parameter list split across a physical line break placed
immediately after a comma parses identically to the same list written on
one line.  At any point of any scan that is in header mode (`cur =
keywordstate`), the pair `,\n` produces exactly the single `COMMA` token
that the `,` alone produces, with no end-of-record token, no mode or
stack change, and no line-number change, and the scans then continue
identically on the common remainder; consequently the token stream (up
to absolute offsets/columns) and the parse result computed from it are
the same for the split and unsplit forms. -/
theorem c3_continuation_collapse (seen1 seen2 rest : List Char) (stk : List Mode)
    (ln : Nat) (hhead : rest.head? ≠ some '\n') :
    projOut (runLex seen1 (',' :: '\n' :: rest) Mode.keywordstate stk ln) =
      projOut (runLex seen2 (',' :: rest) Mode.keywordstate stk ln) ∧
    resumeParse seen1 (',' :: '\n' :: rest) Mode.keywordstate stk ln =
      resumeParse seen2 (',' :: rest) Mode.keywordstate stk ln := by
  have hstep1 : runLex seen1 (',' :: '\n' :: rest) Mode.keywordstate stk ln =
      (let o := runLex (((',' :: '\n' :: rest).take 2).reverse ++ seen1) rest
        Mode.keywordstate stk ln
       ⟨o.diags, ⟨TokType.COMMA, [','], ln, seen1.length⟩ :: o.toks, o.cur, o.stk⟩) := by
    rw [runLex_cons, if_neg (by decide), ruleHit_kw_continue]
    rfl
  have hstep2 : runLex seen2 (',' :: rest) Mode.keywordstate stk ln =
      (let o := runLex (((',' :: rest).take 1).reverse ++ seen2) rest
        Mode.keywordstate stk ln
       ⟨o.diags, ⟨TokType.COMMA, [','], ln, seen2.length⟩ :: o.toks, o.cur, o.stk⟩) := by
    rw [runLex_cons, if_neg (by decide), ruleHit_kw_comma rest hhead]
    rfl
  have hproj := runLex_seen_proj rest.length rest (le_refl _)
    (((',' :: '\n' :: rest).take 2).reverse ++ seen1)
    (((',' :: rest).take 1).reverse ++ seen2) Mode.keywordstate stk ln
  constructor
  · rw [hstep1, hstep2]
    simp only [projOut, Prod.mk.injEq] at hproj ⊢
    obtain ⟨e1, e2, e3, e4⟩ := hproj
    simp only [List.map_cons, projTok3]
    exact ⟨e1, by rw [e2], e3, e4⟩
  · unfold resumeParse
    rw [hstep1, hstep2]
    simp only [projOut, Prod.mk.injEq] at hproj
    obtain ⟨e1, e2, e3, e4⟩ := hproj
    have hde : (runLex (((',' :: '\n' :: rest).take 2).reverse ++ seen1) rest
        Mode.keywordstate stk ln).diags = [] ↔
        (runLex (((',' :: rest).take 1).reverse ++ seen2) rest
          Mode.keywordstate stk ln).diags = [] := by
      constructor <;> intro hnil
      · have := e1
        rw [hnil] at this
        simpa using this.symm
      · have := e1
        rw [hnil] at this
        simpa using this
    have htv : (runLex (((',' :: '\n' :: rest).take 2).reverse ++ seen1) rest
        Mode.keywordstate stk ln).toks.map projTok =
        (runLex (((',' :: rest).take 1).reverse ++ seen2) rest
          Mode.keywordstate stk ln).toks.map projTok := by
      have h1 : ∀ (ts : List Tok), ts.map projTok =
          (ts.map projTok3).map (fun x => (x.1, x.2.1)) := by
        intro ts
        simp [projTok, projTok3, Function.comp]
      rw [h1, h1, e2]
    dsimp only
    by_cases hnil : (runLex (((',' :: '\n' :: rest).take 2).reverse ++ seen1) rest
        Mode.keywordstate stk ln).diags = []
    · rw [if_pos hnil, if_pos (hde.mp hnil)]
      simp only [List.map_cons, projTok]
      rw [htv]
    · rw [if_neg hnil, if_neg (fun hc => hnil (hde.mpr hc))]

/-- C3 witness: the split header fragment `,\nb` and the unsplit `,b`
scan and parse identically from a concrete header position. -/
theorem c3_continuation_witness :
    projOut (runLex ['a', '*'] (",\nb\n1\n".toList) Mode.keywordstate [Mode.initial] 1) =
      projOut (runLex ['a', '*'] (",b\n1\n".toList) Mode.keywordstate [Mode.initial] 1) ∧
    resumeParse ['a', '*'] (",\nb\n1\n".toList) Mode.keywordstate [Mode.initial] 1 =
      resumeParse ['a', '*'] (",b\n1\n".toList) Mode.keywordstate [Mode.initial] 1 :=
  c3_continuation_collapse ['a', '*'] ['a', '*'] ("b\n1\n".toList) [Mode.initial] 1
    (by decide)

/-- C4 counterexample: on the buffer `08,1\n` the scanner reports one
invalid-octal diagnostic for the matched construct `08`, but then
`_error`'s `skip(1)` consumes the following comma as well (PLY has
already advanced past the match when the rule body runs), so the comma
yields no token and the output is just the token for `1`.  Advancing
past exactly one offending character, as claimed, would instead resume
at offset 1 and produce the tokens of `8,1\n` — which include a `COMMA`. -/
theorem c4_counterexample :
    (lexAll "08,1\n".toList).diags.map (fun d => d.kind) = [DiagKind.invalidOctal] ∧
    (lexAll "08,1\n".toList).toks.map projTok = [(TokType.INT_CONST_DEC, ['1'])] ∧
    (lexAll "8,1\n".toList).toks.map projTok =
      [(TokType.INT_CONST_DEC, ['8']), (TokType.COMMA, [',']),
       (TokType.INT_CONST_DEC, ['1'])] :=
  ⟨rfl, rfl, rfl⟩

/-- At a bad octal constant (here with the minimal matched construct
`08`; the regex `0[0-7]*[89]` matches just these two characters when the
following character is not an octal digit), `t_BAD_CONST_OCT` fires in
every scanner state once `t_FLOAT_CONST` fails. -/
theorem ruleHit_badoct (cur : Mode) (rest : List Char)
    (hfl : matchFloatRule ('0' :: '8' :: rest) = none) :
    ruleHit cur ('0' :: '8' :: rest) =
      some ⟨2, none, some DiagKind.invalidOctal, 0, false, false⟩ := by
  cases cur with
  | initial =>
    simp only [ruleHit, initialHit, hfl]
    rfl
  | keywordstate =>
    simp only [ruleHit, initialHit, hfl]
    rfl
  | datalinestate =>
    simp only [ruleHit, initialHit, hfl]
    rfl

/-- C4 amended: at a lexical anomaly the scanner reports kind, line and
column to the error sink and continues scanning to end of input — one
diagnostic per anomaly, never aborting — but after a rule-matched bad
construct it advances past the whole matched construct plus one further
character (`skip(1)` runs after PLY has already advanced past the
match), not past exactly one offending character.  Shown here for the
bad octal construct `08` in any scanner state and at any position: one
diagnostic is emitted and the scan resumes three characters later
(construct `08` plus one).  For `089` the extra skipped character is the
`9`, so exactly the literal `089` is consumed and scenario D behaves as
the spec describes. -/
theorem c4_amended (seen rest : List Char) (cur : Mode) (stk : List Mode) (ln : Nat)
    (hfl : matchFloatRule ('0' :: '8' :: rest) = none) :
    runLex seen ('0' :: '8' :: rest) cur stk ln =
      (let o := runLex ((('0' :: '8' :: rest).take 3).reverse ++ seen) (rest.drop 1)
         cur stk ln
       ⟨⟨DiagKind.invalidOctal, ln,
          findTokColumn (seen.reverse ++ '0' :: '8' :: rest) seen.length⟩ :: o.diags,
        o.toks, o.cur, o.stk⟩) := by
  rw [runLex_cons, if_neg (by decide), ruleHit_badoct cur rest hfl]
  rfl

/-- C4 witness: scenario D — the data line `089` produces exactly one
invalid-octal diagnostic and scanning continues right after the literal
(the matched `08` plus the skipped `9`). -/
theorem c4_amended_witness :
    runLex [] ("089\n1\n".toList) Mode.datalinestate [Mode.initial] 1 =
      (let o := runLex (("089".toList).reverse) ("\n1\n".toList) Mode.datalinestate
         [Mode.initial] 1
       ⟨⟨DiagKind.invalidOctal, 1, 1⟩ :: o.diags, o.toks, o.cur, o.stk⟩) :=
  c4_amended [] ("9\n1\n".toList) Mode.datalinestate [Mode.initial] 1 rfl

/-- Values of the `KEYWORD` tokens of a token stream, in order. -/
def kwVals (ts : List PTok) : List (List Char) :=
  (ts.filter (fun t => t.1 = TokType.KEYWORD)).map (fun t => t.2)

theorem kwVals_nil : kwVals [] = [] := rfl

theorem kwVals_kw (v : List Char) (ts : List PTok) :
    kwVals ((TokType.KEYWORD, v) :: ts) = v :: kwVals ts := by
  simp [kwVals]

theorem kwVals_not_kw {tt : TokType} (v : List Char) (ts : List PTok)
    (h : tt ≠ TokType.KEYWORD) : kwVals ((tt, v) :: ts) = kwVals ts := by
  simp [kwVals, h]

theorem isValueTok_ne_kw {tt : TokType} (h : isValueTok tt = true) :
    tt ≠ TokType.KEYWORD := by
  cases tt <;> simp_all [isValueTok]

theorem isDataTok_ne_kw {tt : TokType} (h : isDataTok tt = true) :
    tt ≠ TokType.KEYWORD := by
  cases tt <;> simp_all [isDataTok]

theorem parseParam_kwVals {ts : List PTok} {p : Parameter} {r : List PTok}
    (h : parseParam ts = .ok (p, r)) : kwVals ts = kwVals r := by
  unfold parseParam at h
  split at h
  · next n w tt v rest2 =>
    split at h
    · next hval =>
      simp only [Except.ok.injEq, Prod.mk.injEq] at h
      obtain ⟨-, rfl⟩ := h
      rw [kwVals_not_kw _ _ (by simp), kwVals_not_kw _ _ (by simp),
        kwVals_not_kw _ _ (isValueTok_ne_kw hval)]
    · simp at h
  · simp at h
  · next n rest hg1 hg2 =>
    simp only [Except.ok.injEq, Prod.mk.injEq] at h
    obtain ⟨-, rfl⟩ := h
    rw [kwVals_not_kw _ _ (by simp)]
  · simp at h

theorem parseParamListAuxF_kwVals {ps : List Parameter} {r : List PTok} :
    ∀ {f : Nat} {acc : List Parameter} {ts : List PTok},
    parseParamListAuxF f acc ts = .ok (ps, r) → kwVals ts = kwVals r := by
  intro f
  induction f with
  | zero =>
    intro acc ts h
    simp only [parseParamListAuxF, Except.ok.injEq, Prod.mk.injEq] at h
    rw [h.2]
  | succ g ih =>
    intro acc ts h
    match ts with
    | [] =>
      simp only [parseParamListAuxF, Except.ok.injEq, Prod.mk.injEq] at h
      rw [h.2]
    | (tt, v) :: rest =>
      cases htt : decide (tt = TokType.COMMA) with
      | true =>
        simp only [decide_eq_true_eq] at htt
        subst htt
        simp only [parseParamListAuxF] at h
        cases hp : parseParam rest with
        | ok pr =>
          obtain ⟨p, r2⟩ := pr
          rw [hp] at h
          rw [kwVals_not_kw _ _ (by simp), parseParam_kwVals hp]
          exact ih h
        | error e =>
          rw [hp] at h
          cases h
      | false =>
        simp only [decide_eq_false_iff_not] at htt
        have hts : parseParamListAuxF (g + 1) acc ((tt, v) :: rest) =
            .ok (acc, (tt, v) :: rest) := by
          cases tt <;> first | exact absurd rfl htt | rfl
        rw [hts] at h
        simp only [Except.ok.injEq, Prod.mk.injEq] at h
        rw [h.2]

theorem parseParamList_kwVals {ts : List PTok} {ps : List Parameter} {r : List PTok}
    (h : parseParamList ts = .ok (ps, r)) : kwVals ts = kwVals r := by
  unfold parseParamList at h
  split at h
  · next p r1 hp =>
    rw [parseParam_kwVals hp]
    exact parseParamListAuxF_kwVals h
  · cases h

theorem parseData_kwVals {ts : List PTok} {d : List Char} {r : List PTok}
    (h : parseData ts = .ok (d, r)) : kwVals ts = kwVals r := by
  unfold parseData at h
  split at h
  · next tt v rest =>
    split at h
    · next hd =>
      simp only [Except.ok.injEq, Prod.mk.injEq] at h
      obtain ⟨-, rfl⟩ := h
      exact kwVals_not_kw _ _ (isDataTok_ne_kw hd)
    · cases h
  · cases h

theorem parseDataListAuxF_kwVals {xs : List (List Char)} {r : List PTok} :
    ∀ {f : Nat} {acc : List (List Char)} {ts : List PTok},
    parseDataListAuxF f acc ts = .ok (xs, r) → kwVals ts = kwVals r := by
  intro f
  induction f with
  | zero =>
    intro acc ts h
    simp only [parseDataListAuxF, Except.ok.injEq, Prod.mk.injEq] at h
    rw [h.2]
  | succ g ih =>
    intro acc ts h
    match ts with
    | [] =>
      simp only [parseDataListAuxF, Except.ok.injEq, Prod.mk.injEq] at h
      rw [h.2]
    | (tt, v) :: rest =>
      cases htt : decide (tt = TokType.COMMA) with
      | true =>
        simp only [decide_eq_true_eq] at htt
        subst htt
        simp only [parseDataListAuxF] at h
        cases hp : parseData rest with
        | ok pr =>
          obtain ⟨dd, r2⟩ := pr
          rw [hp] at h
          rw [kwVals_not_kw _ _ (by simp), parseData_kwVals hp]
          exact ih h
        | error e =>
          rw [hp] at h
          cases h
      | false =>
        simp only [decide_eq_false_iff_not] at htt
        have hne : parseDataListAuxF (g + 1) acc ((tt, v) :: rest) =
            (if isDataTok tt then parseDataListAuxF g (acc ++ [v]) rest
             else .ok (acc, (tt, v) :: rest)) := by
          cases tt <;> first | exact absurd rfl htt | rfl
        rw [hne] at h
        by_cases hd : isDataTok tt = true
        · rw [if_pos hd] at h
          rw [kwVals_not_kw _ _ (isDataTok_ne_kw hd)]
          exact ih h
        · rw [if_neg hd] at h
          simp only [Except.ok.injEq, Prod.mk.injEq] at h
          rw [h.2]

theorem parseDataList_kwVals {ts : List PTok} {xs : List (List Char)} {r : List PTok}
    (h : parseDataList ts = .ok (xs, r)) : kwVals ts = kwVals r := by
  unfold parseDataList at h
  split at h
  · next d r1 hp =>
    rw [parseData_kwVals hp]
    exact parseDataListAuxF_kwVals h
  · cases h

theorem parseDataLine_kwVals {ts : List PTok} {xs : List (List Char)} {r : List PTok}
    (h : parseDataLine ts = .ok (xs, r)) : kwVals ts = kwVals r := by
  unfold parseDataLine at h
  split at h
  · next ys v rest hp =>
    simp only [Except.ok.injEq, Prod.mk.injEq] at h
    obtain ⟨-, rfl⟩ := h
    rw [parseDataList_kwVals hp, kwVals_not_kw _ _ (by simp)]
  · cases h
  · cases h

theorem parseDataLinesAuxF_kwVals {ls : List (List (List Char))} {r : List PTok} :
    ∀ {f : Nat} {acc : List (List (List Char))} {ts : List PTok},
    parseDataLinesAuxF f acc ts = .ok (ls, r) → kwVals ts = kwVals r := by
  intro f
  induction f with
  | zero =>
    intro acc ts h
    simp only [parseDataLinesAuxF, Except.ok.injEq, Prod.mk.injEq] at h
    rw [h.2]
  | succ g ih =>
    intro acc ts h
    rw [parseDataLinesAuxF] at h
    split at h
    · cases hp : parseDataLine ts with
      | ok pr =>
        obtain ⟨l, r2⟩ := pr
        rw [hp] at h
        rw [parseDataLine_kwVals hp]
        exact ih h
      | error e =>
        rw [hp] at h
        cases h
    · simp only [Except.ok.injEq, Prod.mk.injEq] at h
      rw [h.2]

theorem parseDataLines_kwVals {ts : List PTok} {ls : List (List (List Char))}
    {r : List PTok} (h : parseDataLines ts = .ok (ls, r)) : kwVals ts = kwVals r := by
  unfold parseDataLines at h
  split at h
  · next l r1 hp =>
    rw [parseDataLine_kwVals hp]
    exact parseDataLinesAuxF_kwVals h
  · cases h

theorem parseKeyword_kwVals {ts : List PTok} {k : Keyword} {r : List PTok}
    (h : parseKeyword ts = .ok (k, r)) : kwVals ts = k.keyword :: kwVals r := by
  unfold parseKeyword at h
  split at h
  · next name rest =>
    have hhd : kwVals ((TokType.KEYWORD, name) :: rest) = name :: kwVals rest :=
      kwVals_kw name rest
    split at h
    · next v r2 =>
      split at h
      · next ps r3 hps =>
        have h3 := parseParamList_kwVals hps
        split at h
        · split at h
          · next ds r4 hds =>
            have h4 := parseDataLines_kwVals hds
            simp only [Except.ok.injEq, Prod.mk.injEq] at h
            obtain ⟨rfl, rfl⟩ := h
            rw [hhd, kwVals_not_kw _ _ (by simp), h3, h4]
          · cases h
        · split at h
          · simp only [Except.ok.injEq, Prod.mk.injEq] at h
            obtain ⟨rfl, rfl⟩ := h
            rw [hhd, kwVals_not_kw _ _ (by simp), h3, kwVals_nil]
          · next v2 r4 =>
            simp only [Except.ok.injEq, Prod.mk.injEq] at h
            obtain ⟨rfl, rfl⟩ := h
            rw [hhd, kwVals_not_kw _ _ (by simp), h3]
          · cases h
      · cases h
    · split at h
      · split at h
        · next ds r4 hds =>
          have h4 := parseDataLines_kwVals hds
          simp only [Except.ok.injEq, Prod.mk.injEq] at h
          obtain ⟨rfl, rfl⟩ := h
          rw [hhd, h4]
        · cases h
      · split at h
        · simp only [Except.ok.injEq, Prod.mk.injEq] at h
          obtain ⟨rfl, rfl⟩ := h
          rw [hhd, kwVals_nil]
        · next v2 r4 =>
          simp only [Except.ok.injEq, Prod.mk.injEq] at h
          obtain ⟨rfl, rfl⟩ := h
          rw [hhd]
        · cases h
  · cases h

theorem parseDocAuxF_kwVals {doc : List Keyword} :
    ∀ {f : Nat} {acc : List Keyword} {ts : List PTok},
    parseDocAuxF f acc ts = .ok doc →
    doc.map (fun k => k.keyword) = acc.map (fun k => k.keyword) ++ kwVals ts := by
  intro f
  induction f with
  | zero =>
    intro acc ts h
    match ts with
    | [] =>
      simp only [parseDocAuxF, Except.ok.injEq] at h
      rw [h, kwVals_nil, List.append_nil]
    | t :: rest => simp [parseDocAuxF] at h
  | succ g ih =>
    intro acc ts h
    match ts with
    | [] =>
      simp only [parseDocAuxF, Except.ok.injEq] at h
      rw [h, kwVals_nil, List.append_nil]
    | (tt, v) :: rest =>
      cases htt : decide (tt = TokType.KEYWORD) with
      | true =>
        simp only [decide_eq_true_eq] at htt
        subst htt
        simp only [parseDocAuxF] at h
        cases hp : parseKeyword ((TokType.KEYWORD, v) :: rest) with
        | ok pr =>
          obtain ⟨k, r⟩ := pr
          rw [hp] at h
          have hk := parseKeyword_kwVals hp
          rw [ih h, hk]
          simp
        | error e =>
          rw [hp] at h
          cases h
      | false =>
        simp only [decide_eq_false_iff_not] at htt
        have : parseDocAuxF (g + 1) acc ((tt, v) :: rest) = .error "syntax error" := by
          cases tt <;> first | exact absurd rfl htt | rfl
        rw [this] at h
        cases h

theorem parseToks_kwVals {ts : List PTok} {doc : List Keyword}
    (h : parseToks ts = .ok doc) : doc.map (fun k => k.keyword) = kwVals ts := by
  unfold parseToks at h
  split at h
  · cases h
  · split at h
    · next k r hp =>
      rw [parseDocAuxF_kwVals h, parseKeyword_kwVals hp]
      simp
    · cases h

theorem kwVals_map_projTok (l : List Tok) :
    kwVals (l.map projTok) =
      (l.filter (fun t => t.ttype = TokType.KEYWORD)).map (fun t => t.value) := by
  induction l with
  | nil => rfl
  | cons t l ih =>
    by_cases ht : t.ttype = TokType.KEYWORD
    · simp only [List.map_cons, projTok, List.filter_cons]
      rw [show kwVals ((t.ttype, t.value) :: l.map projTok) =
        t.value :: kwVals (l.map projTok) from ht ▸ kwVals_kw t.value _]
      simp [ht, ih]
    · simp only [List.map_cons, projTok, List.filter_cons]
      rw [kwVals_not_kw _ _ ht]
      simp [ht, ih]

/-- C6: whenever the parse of a buffer succeeds, the resulting Document
is exactly the sequence of directive headers the scanner recognised, in
source order: its keywords' names are, in order, the values of the
`KEYWORD` tokens of the scan — each being a header's directive identifier
with the leading `*` stripped by `t_KEYWORD` (comment lines yield no
tokens at all and continuation lines yield no `KEYWORD` token, so neither
contributes). -/
theorem c6_document_is_headers (s : List Char) (doc : List Keyword)
    (h : parseString s = .ok doc) :
    doc.map (fun k => k.keyword) =
      ((lexAll s).toks.filter (fun t => t.ttype = TokType.KEYWORD)).map
        (fun t => t.value) := by
  unfold parseString parseOn at h
  simp only at h
  split at h
  · rw [← kwVals_map_projTok]
    exact parseToks_kwVals h
  · cases h

theorem parseParamListAuxF_ne_nil {ps : List Parameter} {r : List PTok} :
    ∀ {f : Nat} {acc : List Parameter} {ts : List PTok}, acc ≠ [] →
    parseParamListAuxF f acc ts = .ok (ps, r) → ps ≠ [] := by
  intro f
  induction f with
  | zero =>
    intro acc ts hacc h
    simp only [parseParamListAuxF, Except.ok.injEq, Prod.mk.injEq] at h
    exact h.1 ▸ hacc
  | succ g ih =>
    intro acc ts hacc h
    match ts with
    | [] =>
      simp only [parseParamListAuxF, Except.ok.injEq, Prod.mk.injEq] at h
      exact h.1 ▸ hacc
    | (tt, v) :: rest =>
      cases htt : decide (tt = TokType.COMMA) with
      | true =>
        simp only [decide_eq_true_eq] at htt
        subst htt
        simp only [parseParamListAuxF] at h
        cases hp : parseParam rest with
        | ok pr =>
          obtain ⟨p, r2⟩ := pr
          rw [hp] at h
          exact ih (by simp) h
        | error e =>
          rw [hp] at h
          cases h
      | false =>
        simp only [decide_eq_false_iff_not] at htt
        have hts : parseParamListAuxF (g + 1) acc ((tt, v) :: rest) =
            .ok (acc, (tt, v) :: rest) := by
          cases tt <;> first | exact absurd rfl htt | rfl
        rw [hts] at h
        simp only [Except.ok.injEq, Prod.mk.injEq] at h
        exact h.1 ▸ hacc

theorem parseParamList_ne_nil {ts : List PTok} {ps : List Parameter} {r : List PTok}
    (h : parseParamList ts = .ok (ps, r)) : ps ≠ [] := by
  unfold parseParamList at h
  split at h
  · exact parseParamListAuxF_ne_nil (by simp) h
  · cases h

theorem parseDataLinesAuxF_ne_nil {ls : List (List (List Char))} {r : List PTok} :
    ∀ {f : Nat} {acc : List (List (List Char))} {ts : List PTok}, acc ≠ [] →
    parseDataLinesAuxF f acc ts = .ok (ls, r) → ls ≠ [] := by
  intro f
  induction f with
  | zero =>
    intro acc ts hacc h
    simp only [parseDataLinesAuxF, Except.ok.injEq, Prod.mk.injEq] at h
    exact h.1 ▸ hacc
  | succ g ih =>
    intro acc ts hacc h
    rw [parseDataLinesAuxF] at h
    split at h
    · cases hp : parseDataLine ts with
      | ok pr =>
        obtain ⟨l, r2⟩ := pr
        rw [hp] at h
        exact ih (by simp) h
      | error e =>
        rw [hp] at h
        cases h
    · simp only [Except.ok.injEq, Prod.mk.injEq] at h
      exact h.1 ▸ hacc

theorem parseDataLines_ne_nil {ts : List PTok} {ls : List (List (List Char))}
    {r : List PTok} (h : parseDataLines ts = .ok (ls, r)) : ls ≠ [] := by
  unfold parseDataLines at h
  split at h
  · exact parseDataLinesAuxF_ne_nil (by simp) h
  · cases h

theorem parseKeyword_fields {ts : List PTok} {k : Keyword} {r : List PTok}
    (h : parseKeyword ts = .ok (k, r)) :
    k.params ≠ some [] ∧ k.data ≠ some [] := by
  unfold parseKeyword at h
  split at h
  · next name rest =>
    split at h
    · next v r2 =>
      split at h
      · next ps r3 hps =>
        have hps0 : ps ≠ [] := parseParamList_ne_nil hps
        split at h
        · split at h
          · next ds r4 hds =>
            have hds0 : ds ≠ [] := parseDataLines_ne_nil hds
            simp only [Except.ok.injEq, Prod.mk.injEq] at h
            obtain ⟨rfl, -⟩ := h
            exact ⟨by simpa using hps0, by simpa using hds0⟩
          · cases h
        · split at h
          · simp only [Except.ok.injEq, Prod.mk.injEq] at h
            obtain ⟨rfl, -⟩ := h
            exact ⟨by simpa using hps0, by simp⟩
          · next v2 r4 =>
            simp only [Except.ok.injEq, Prod.mk.injEq] at h
            obtain ⟨rfl, -⟩ := h
            exact ⟨by simpa using hps0, by simp⟩
          · cases h
      · cases h
    · split at h
      · split at h
        · next ds r4 hds =>
          have hds0 : ds ≠ [] := parseDataLines_ne_nil hds
          simp only [Except.ok.injEq, Prod.mk.injEq] at h
          obtain ⟨rfl, -⟩ := h
          exact ⟨by simp, by simpa using hds0⟩
        · cases h
      · split at h
        · simp only [Except.ok.injEq, Prod.mk.injEq] at h
          obtain ⟨rfl, -⟩ := h
          exact ⟨by simp, by simp⟩
        · next v2 r4 =>
          simp only [Except.ok.injEq, Prod.mk.injEq] at h
          obtain ⟨rfl, -⟩ := h
          exact ⟨by simp, by simp⟩
        · cases h
  · cases h

theorem parseDocAuxF_mem {doc : List Keyword} {k : Keyword} :
    ∀ {f : Nat} {acc : List Keyword} {ts : List PTok},
    parseDocAuxF f acc ts = .ok doc → k ∈ doc →
    k ∈ acc ∨ ∃ ts2 r, parseKeyword ts2 = .ok (k, r) := by
  intro f
  induction f with
  | zero =>
    intro acc ts h hk
    match ts with
    | [] =>
      simp only [parseDocAuxF, Except.ok.injEq] at h
      exact Or.inl (h ▸ hk)
    | t :: rest => simp [parseDocAuxF] at h
  | succ g ih =>
    intro acc ts h hk
    match ts with
    | [] =>
      simp only [parseDocAuxF, Except.ok.injEq] at h
      exact Or.inl (h ▸ hk)
    | (tt, v) :: rest =>
      cases htt : decide (tt = TokType.KEYWORD) with
      | true =>
        simp only [decide_eq_true_eq] at htt
        subst htt
        simp only [parseDocAuxF] at h
        cases hp : parseKeyword ((TokType.KEYWORD, v) :: rest) with
        | ok pr =>
          obtain ⟨k2, r⟩ := pr
          rw [hp] at h
          rcases ih h hk with hacc | hrest
          · rw [List.mem_append, List.mem_singleton] at hacc
            rcases hacc with hacc | rfl
            · exact Or.inl hacc
            · exact Or.inr ⟨_, _, hp⟩
          · exact Or.inr hrest
        | error e =>
          rw [hp] at h
          cases h
      | false =>
        simp only [decide_eq_false_iff_not] at htt
        have : parseDocAuxF (g + 1) acc ((tt, v) :: rest) = .error "syntax error" := by
          cases tt <;> first | exact absurd rfl htt | rfl
        rw [this] at h
        cases h

/-- C10: every Keyword of a successfully parsed Document carries `None`
rather than an empty list when the directive had no parameter list or no
data lines: its `params` field is never `Some []` and its `data` field is
never `Some []` — only directives that actually carry parameters (resp.
data) get a list, which is then nonempty. -/
theorem c10_none_not_empty (s : List Char) (doc : List Keyword) (k : Keyword)
    (h : parseString s = .ok doc) (hk : k ∈ doc) :
    k.params ≠ some [] ∧ k.data ≠ some [] := by
  unfold parseString parseOn at h
  simp only at h
  split at h
  · unfold parseToks at h
    split at h
    · cases h
    · split at h
      · next k0 r hp =>
        rcases parseDocAuxF_mem h hk with hacc | ⟨ts2, r2, hp2⟩
        · rw [List.mem_singleton] at hacc
          subst hacc
          exact parseKeyword_fields hp
        · exact parseKeyword_fields hp2
      · cases h
  · cases h

/-- C10 witness: a two-keyword parse where the bare directive gets `none`
in both fields and neither optional list is `some []`. -/
theorem c10_witness :
    parseString "*a,b=c\n1\n*end\n".toList =
      Except.ok [⟨['a'], some [⟨['b'], some ['c']⟩], some [[['1']]]⟩,
        ⟨['e', 'n', 'd'], none, none⟩] ∧
    ((⟨['e', 'n', 'd'], none, none⟩ : Keyword).params ≠ some [] ∧
     (⟨['e', 'n', 'd'], none, none⟩ : Keyword).data ≠ some []) :=
  ⟨rfl, c10_none_not_empty "*a,b=c\n1\n*end\n".toList
    [⟨['a'], some [⟨['b'], some ['c']⟩], some [[['1']]]⟩,
      ⟨['e', 'n', 'd'], none, none⟩]
    ⟨['e', 'n', 'd'], none, none⟩ rfl (by simp)⟩

theorem takeWhile_append_headFails {p : Char → Bool} :
    ∀ (a b : List Char), (∀ c ∈ a, p c = true) →
    (∀ c, b.head? = some c → p c = false) → (a ++ b).takeWhile p = a := by
  intro a b ha hb
  induction a with
  | nil =>
    cases b with
    | nil => rfl
    | cons c t => simp [List.takeWhile_cons, hb c rfl]
  | cons x xs ih =>
    have hx := ha x (by simp)
    simp only [List.cons_append, List.takeWhile_cons, hx]
    rw [ih (fun c hc => ha c (by simp [hc]))]
    simp

theorem takeWhile_take_self {p : Char → Bool} :
    ∀ (xs : List Char), xs.take ((xs.takeWhile p).length) = xs.takeWhile p := by
  intro xs
  induction xs with
  | nil => rfl
  | cons x xs ih =>
    by_cases hx : p x = true
    · simp only [List.takeWhile_cons, hx, if_pos, List.length_cons,
        List.take_succ_cons, ih]
    · simp only [List.takeWhile_cons, hx]
      simp [Bool.not_eq_true] at hx
      simp [hx]

theorem mem_takeWhile_pred {p : Char → Bool} :
    ∀ (xs : List Char) (c : Char), c ∈ xs.takeWhile p → p c = true := by
  intro xs
  induction xs with
  | nil => intro c hc; simp [List.takeWhile] at hc
  | cons x xs ih =>
    intro c hc
    by_cases hx : p x = true
    · rw [List.takeWhile_cons, if_pos hx] at hc
      rcases List.mem_cons.mp hc with rfl | hc2
      · exact hx
      · exact ih c hc2
    · simp [Bool.not_eq_true] at hx
      rw [List.takeWhile_cons] at hc
      simp [hx] at hc

theorem takeWhile_drop_headFails {p : Char → Bool} :
    ∀ (xs : List Char) (c : Char),
    (xs.drop ((xs.takeWhile p).length)).head? = some c → p c = false := by
  intro xs
  induction xs with
  | nil => intro c hc; simp at hc
  | cons x xs ih =>
    intro c hc
    by_cases hx : p x = true
    · rw [List.takeWhile_cons, if_pos hx, List.length_cons, List.drop_succ_cons] at hc
      exact ih c hc
    · simp only [Bool.not_eq_true] at hx
      rw [List.takeWhile_cons, hx] at hc
      simp at hc
      rw [← hc]
      exact hx

theorem takeWhile_decomp {p : Char → Bool} (xs : List Char) :
    xs = xs.takeWhile p ++ xs.drop ((xs.takeWhile p).length) := by
  conv_lhs => rw [← List.take_append_drop ((xs.takeWhile p).length) xs]
  rw [takeWhile_take_self]

theorem takeWhile_len_le {p : Char → Bool} :
    ∀ (xs : List Char), (xs.takeWhile p).length ≤ xs.length := by
  intro xs
  induction xs with
  | nil => simp
  | cons x xs ih =>
    rw [List.takeWhile_cons]
    by_cases hx : p x = true
    · simp only [hx, if_pos, List.length_cons]
      omega
    · simp [Bool.not_eq_true] at hx
      simp [hx]

theorem take_append_add {α : Type} (a b : List α) (k : Nat) :
    (a ++ b).take (a.length + k) = a ++ b.take k := by
  induction a with
  | nil => simp
  | cons x xs ih => simp [List.take_succ_cons, Nat.succ_add, ih]

/-- Shape of `identifier` matches: `[a-zA-Z_][0-9a-zA-Z_]*`. -/
def identShape : List Char → Bool
  | c :: rest => (isLetter c || c = '_') && rest.all isIdentChar
  | [] => false

/-- Shape of a `KEYWORD` token's stored value (the match of
`abaqus_keyword` with the leading `*` stripped): `[a-zA-Z][0-9a-zA-Z_]*`. -/
def kwNameShape : List Char → Bool
  | c :: rest => isLetter c && rest.all isIdentChar
  | [] => false

/-- Shape of an `INT_CONST_DEC` token's value: a full match of
`decimal_constant` whose first character is a nonzero digit (the rule is
reached only when `t_INT_CONST_OCT` has failed, which matches every `0`). -/
def decShape (v : List Char) : Bool :=
  (match v with
   | c :: _ => '1' ≤ c && c ≤ '9'
   | [] => false) && decide (matchDecimal v = some v.length)

/-- Shape of a `FLOAT_CONST` token's value: a full match of
`floating_constant`. -/
def floatShape (v : List Char) : Bool :=
  decide (matchFloatRule v = some v.length)

/-- Shape of every value the grammar accepts as a parameter value or data
field: the `PARAM`/`ID`, `INT_CONST_DEC` and `FLOAT_CONST` shapes. -/
def valShapeOK (v : List Char) : Bool :=
  identShape v || decShape v || floatShape v

/-- The sixteen nonempty matches of `integer_suffix_opt`, plus the empty
match. -/
def suffixStrings : List (List Char) :=
  [[], ['u'], ['U'], ['l'], ['L'],
   ['u', 'l'], ['u', 'L'], ['U', 'l'], ['U', 'L'],
   ['l', 'u'], ['l', 'U'], ['L', 'u'], ['L', 'U'],
   ['l', 'l'], ['L', 'L'], ['u', 'l', 'l'], ['U', 'L', 'L']]

theorem not_ident_facts (c : Char) (hc : isIdentChar c = false) :
    isLetter c = false ∧ isDigitC c = false ∧ c ≠ '_' := by
  simp only [isIdentChar, Bool.or_eq_false_iff, decide_eq_false_iff_not] at hc
  exact ⟨hc.1.1, hc.1.2, hc.2⟩

theorem not_letter_ne (c : Char) (hc : isLetter c = false) (k : Char)
    (hk : isLetter k = true) : c ≠ k := by
  intro he
  rw [he, hk] at hc
  cases hc

theorem not_digit_ne (c : Char) (hc : isDigitC c = false) (k : Char)
    (hk : isDigitC k = true) : c ≠ k := by
  intro he
  rw [he, hk] at hc
  cases hc

theorem matchSuffix_le : ∀ y : List Char, matchSuffix y ≤ y.length := by
  intro y
  rcases y with _ | ⟨c1, _ | ⟨c2, _ | ⟨c3, t⟩⟩⟩ <;>
    simp only [matchSuffix] <;> (try split_ifs) <;> simp

theorem matchSuffix_take_mem : ∀ y : List Char,
    y.take (matchSuffix y) ∈ suffixStrings := by
  intro y
  rcases y with _ | ⟨c1, _ | ⟨c2, _ | ⟨c3, t⟩⟩⟩ <;>
    simp only [matchSuffix] <;> (try split_ifs) <;>
      simp_all [suffixStrings, List.take_succ_cons] <;> tauto

theorem matchSuffix_full_mem {y : List Char} (h : matchSuffix y = y.length) :
    y ∈ suffixStrings := by
  have := matchSuffix_take_mem y
  rwa [h, List.take_length] at this

theorem matchSuffix_concrete : ∀ s ∈ suffixStrings, ∀ (z : List Char),
    (∀ c, z.head? = some c → isIdentChar c = false) →
    matchSuffix (s ++ z) = s.length := by
  intro s hs
  fin_cases hs <;> intro z hz <;>
    cases z with
    | nil => simp [matchSuffix]
    | cons c r =>
      obtain ⟨hl, hd, _⟩ := not_ident_facts c (hz c rfl)
      have h1 : c ≠ 'u' := not_letter_ne c hl 'u' (by decide)
      have h2 : c ≠ 'U' := not_letter_ne c hl 'U' (by decide)
      have h3 : c ≠ 'l' := not_letter_ne c hl 'l' (by decide)
      have h4 : c ≠ 'L' := not_letter_ne c hl 'L' (by decide)
      simp [matchSuffix, h1, h2, h3, h4]

theorem matchSuffix_stable {y : List Char} (h : matchSuffix y = y.length)
    (z : List Char) (hz : ∀ c, z.head? = some c → isIdentChar c = false) :
    matchSuffix (y ++ z) = y.length :=
  matchSuffix_concrete y (matchSuffix_full_mem h) z hz

theorem matchSuffix_take_stable (y z : List Char)
    (hz : ∀ c, z.head? = some c → isIdentChar c = false) :
    matchSuffix (y.take (matchSuffix y) ++ z) = matchSuffix y := by
  have hmem := matchSuffix_take_mem y
  have hlen : (y.take (matchSuffix y)).length = matchSuffix y := by
    rw [List.length_take]
    exact Nat.min_eq_left (matchSuffix_le y)
  rw [matchSuffix_concrete _ hmem z hz, hlen]

theorem takeWhile_all {p : Char → Bool} (xs : List Char) :
    (xs.takeWhile p).all p = true := by
  rw [List.all_eq_true]
  intro c hc
  exact mem_takeWhile_pred xs c hc

theorem takeWhile_take_add {p : Char → Bool} : ∀ (xs : List Char) (k : Nat),
    xs.take ((xs.takeWhile p).length + k) =
      xs.takeWhile p ++ (xs.drop ((xs.takeWhile p).length)).take k := by
  intro xs
  induction xs with
  | nil => intro k; simp
  | cons x t ih =>
    intro k
    by_cases hx : p x = true
    · simp only [List.takeWhile_cons, hx, if_true, List.length_cons]
      rw [Nat.succ_add, List.take_succ_cons, List.drop_succ_cons, ih]
      simp
    · simp only [Bool.not_eq_true] at hx
      simp [List.takeWhile_cons, hx]

theorem takeWhile_drop_add {p : Char → Bool} (xs : List Char) (k : Nat) :
    xs.drop ((xs.takeWhile p).length + k) =
      (xs.drop ((xs.takeWhile p).length)).drop k := by
  rw [List.drop_drop, Nat.add_comm]

theorem suffix_head_mem : ∀ s ∈ suffixStrings, ∀ c : Char,
    s.head? = some c → c = 'u' ∨ c = 'U' ∨ c = 'l' ∨ c = 'L' := by
  intro s hs
  fin_cases hs <;> intro c hc <;>
    simp only [List.head?_cons, List.head?_nil, Option.some.injEq,
      reduceCtorEq] at hc <;>
    (first
      | exact hc.elim
      | (subst hc; simp))

theorem sfxz_head_not_digit (Y z : List Char)
    (hz : ∀ c, z.head? = some c → isIdentChar c = false) :
    ∀ c, ((Y.take (matchSuffix Y)) ++ z).head? = some c → isDigitC c = false := by
  intro c hc
  cases hY : Y.take (matchSuffix Y) with
  | nil =>
    rw [hY] at hc
    simp only [List.nil_append] at hc
    exact (not_ident_facts c (hz c hc)).2.1
  | cons a t =>
    have hmem : (a :: t) ∈ suffixStrings := hY ▸ matchSuffix_take_mem Y
    rw [hY] at hc
    simp only [List.cons_append, List.head?_cons, Option.some.injEq] at hc
    rw [← hc]
    rcases suffix_head_mem _ hmem a rfl with rfl | rfl | rfl | rfl <;> decide

theorem identShape_matches {w : List Char} (hw : identShape w = true)
    (z : List Char) (hz : ∀ c, z.head? = some c → isIdentChar c = false) :
    matchIdentifier (w ++ z) = some w.length := by
  match w with
  | [] => simp [identShape] at hw
  | c :: t =>
    simp only [identShape, Bool.and_eq_true] at hw
    obtain ⟨hc, ht⟩ := hw
    show matchIdentifier (c :: (t ++ z)) = _
    simp only [matchIdentifier]
    rw [if_pos hc, takeWhile_append_headFails t z (List.all_eq_true.mp ht) hz]
    exact congrArg some (by simp only [List.length_cons]; omega)

theorem matchIdentifier_shape {cs : List Char} {n : Nat}
    (h : matchIdentifier cs = some n) :
    n ≤ cs.length ∧ 1 ≤ n ∧ identShape (cs.take n) = true := by
  match cs with
  | [] => simp [matchIdentifier] at h
  | c :: t =>
    simp only [matchIdentifier] at h
    by_cases hc : (isLetter c || c = '_') = true
    · rw [if_pos hc] at h
      simp only [Option.some.injEq] at h
      subst h
      have hlen := takeWhile_len_le (p := isIdentChar) t
      refine ⟨by simp only [List.length_cons]; omega, by omega, ?_⟩
      rw [show (1 + (t.takeWhile isIdentChar).length) =
          ((t.takeWhile isIdentChar).length) + 1 from Nat.add_comm 1 _]
      rw [List.take_succ_cons, takeWhile_take_self]
      simp only [identShape, Bool.and_eq_true]
      exact ⟨hc, takeWhile_all t⟩
    · rw [if_neg hc] at h
      cases h

theorem kwNameShape_matches {w : List Char} (hw : kwNameShape w = true)
    (z : List Char) (hz : ∀ c, z.head? = some c → isIdentChar c = false) :
    matchKeywordRule ('*' :: w ++ z) = some (w.length + 1) := by
  match w with
  | [] => simp [kwNameShape] at hw
  | c :: t =>
    simp only [kwNameShape, Bool.and_eq_true] at hw
    obtain ⟨hc, ht⟩ := hw
    show matchKeywordRule ('*' :: c :: (t ++ z)) = _
    simp only [matchKeywordRule]
    rw [if_pos trivial, if_pos hc,
      takeWhile_append_headFails t z (List.all_eq_true.mp ht) hz]
    exact congrArg some (by simp only [List.length_cons]; omega)

theorem matchKeywordRule_shape {cs : List Char} {n : Nat}
    (h : matchKeywordRule cs = some n) :
    n ≤ cs.length ∧ 2 ≤ n ∧ kwNameShape ((cs.take n).drop 1) = true := by
  match cs with
  | [] => simp [matchKeywordRule] at h
  | [m] => simp [matchKeywordRule] at h
  | m :: c :: t =>
    simp only [matchKeywordRule] at h
    by_cases hm : m = '*'
    · rw [if_pos hm] at h
      by_cases hc : isLetter c = true
      · rw [if_pos hc] at h
        simp only [Option.some.injEq] at h
        subst h
        have hlen := takeWhile_len_le (p := isIdentChar) t
        refine ⟨by simp only [List.length_cons]; omega, by omega, ?_⟩
        rw [show (2 + (t.takeWhile isIdentChar).length) =
            (((t.takeWhile isIdentChar).length) + 1) + 1 from by omega]
        rw [List.take_succ_cons, List.take_succ_cons, takeWhile_take_self]
        simp only [List.drop_succ_cons, List.drop_zero]
        simp only [kwNameShape, Bool.and_eq_true]
        exact ⟨hc, takeWhile_all t⟩
      · rw [if_neg hc] at h
        cases h
    · rw [if_neg hm] at h
      cases h

theorem matchDecimal_stable {cs : List Char} {n : Nat}
    (h : matchDecimal cs = some n) (z : List Char)
    (hz : ∀ c, z.head? = some c → isIdentChar c = false) :
    n ≤ cs.length ∧ matchDecimal (cs.take n ++ z) = some n := by
  match cs with
  | [] => simp [matchDecimal] at h
  | c :: rest =>
    simp only [matchDecimal] at h
    by_cases hc0 : c = '0'
    · rw [if_pos hc0] at h
      simp only [Option.some.injEq] at h
      subst h
      have hsle := matchSuffix_le rest
      refine ⟨by simp only [List.length_cons]; omega, ?_⟩
      rw [show (1 + matchSuffix rest) = (matchSuffix rest) + 1 from Nat.add_comm 1 _,
        List.take_succ_cons]
      show matchDecimal (c :: (rest.take (matchSuffix rest) ++ z)) = _
      simp only [matchDecimal]
      rw [if_pos hc0, matchSuffix_take_stable rest z hz]
      exact congrArg some (by omega)
    · rw [if_neg hc0] at h
      by_cases h19 : ('1' ≤ c && c ≤ '9') = true
      · rw [if_pos h19] at h
        have h' : 1 + (rest.takeWhile isDigitC).length +
            matchSuffix (rest.drop ((rest.takeWhile isDigitC).length)) = n :=
          Option.some.inj h
        have hDle := takeWhile_len_le (p := isDigitC) rest
        have hsle := matchSuffix_le (rest.drop ((rest.takeWhile isDigitC).length))
        rw [List.length_drop] at hsle
        refine ⟨by simp only [List.length_cons]; omega, ?_⟩
        rw [show n = ((rest.takeWhile isDigitC).length +
            matchSuffix (rest.drop ((rest.takeWhile isDigitC).length))) + 1 from by
              omega,
          List.take_succ_cons, takeWhile_take_add]
        show matchDecimal (c :: ((rest.takeWhile isDigitC ++
          (rest.drop ((rest.takeWhile isDigitC).length)).take
            (matchSuffix (rest.drop ((rest.takeWhile isDigitC).length)))) ++ z)) = _
        simp only [matchDecimal]
        rw [if_neg hc0, if_pos h19, List.append_assoc,
          takeWhile_append_headFails _ _ (List.all_eq_true.mp (takeWhile_all rest))
            (sfxz_head_not_digit _ z hz),
          List.drop_left, matchSuffix_take_stable _ z hz]
        exact congrArg some (by omega)
      · rw [if_neg h19] at h
        cases h

theorem decShape_matches {w : List Char} (hw : decShape w = true) (z : List Char)
    (hz : ∀ c, z.head? = some c → isIdentChar c = false) :
    matchDecimal (w ++ z) = some w.length := by
  have h2 : matchDecimal w = some w.length := by
    simp only [decShape, Bool.and_eq_true, decide_eq_true_eq] at hw
    exact hw.2
  have := (matchDecimal_stable h2 z hz).2
  rwa [List.take_length] at this

theorem matchDecimal_shape {cs : List Char} {n : Nat}
    (h : matchDecimal cs = some n) (hoct : matchOctal cs = none) :
    n ≤ cs.length ∧ 1 ≤ n ∧ decShape (cs.take n) = true := by
  obtain ⟨hle, hst⟩ := matchDecimal_stable h [] (by intro c hc; simp at hc)
  rw [List.append_nil] at hst
  have hlen : (cs.take n).length = n := by rw [List.length_take]; omega
  match cs with
  | [] => simp [matchDecimal] at h
  | c :: rest =>
    have hc0 : ¬(c = '0') := by
      intro he
      simp only [matchOctal] at hoct
      rw [if_pos he] at hoct
      cases hoct
    simp only [matchDecimal] at h
    rw [if_neg hc0] at h
    by_cases h19 : ('1' ≤ c && c ≤ '9') = true
    · rw [if_pos h19] at h
      have hn1 : 1 ≤ n := by
        have := Option.some.inj h
        omega
      refine ⟨hle, hn1, ?_⟩
      simp only [decShape, Bool.and_eq_true, decide_eq_true_eq]
      obtain ⟨m, rfl⟩ : ∃ m, n = m + 1 := ⟨n - 1, by omega⟩
      rw [List.take_succ_cons]
      refine ⟨by simpa using h19, ?_⟩
      rw [← List.take_succ_cons, hlen]
      exact hst
    · rw [if_neg h19] at h
      cases h

theorem matchExpPart_head {cs : List Char} {e : Nat} (h : matchExpPart cs = some e) :
    ∃ c t, cs = c :: t ∧ (c = 'e' ∨ c = 'E') := by
  match cs with
  | [] => simp [matchExpPart] at h
  | c :: t =>
    refine ⟨c, t, rfl, ?_⟩
    simp only [matchExpPart] at h
    by_cases hc : (c = 'e' || c = 'E') = true
    · simpa using hc
    · rw [if_neg hc] at h
      cases h

theorem matchExpPart_le {cs : List Char} {e : Nat} (h : matchExpPart cs = some e) :
    1 ≤ e ∧ e ≤ cs.length := by
  match cs with
  | [] => simp [matchExpPart] at h
  | c :: rest =>
    simp only [matchExpPart] at h
    by_cases hc : (c = 'e' || c = 'E') = true
    · rw [if_pos hc] at h
      match rest with
      | [] =>
        dsimp only at h
        cases h
      | s :: r2 =>
        dsimp only at h
        by_cases hs : (s = '+' || s = '-') = true
        · rw [if_pos hs] at h
          by_cases hd : (r2.takeWhile isDigitC).length = 0
          · rw [if_pos hd] at h
            cases h
          · rw [if_neg hd] at h
            simp only [Option.some.injEq] at h
            have := takeWhile_len_le (p := isDigitC) r2
            subst h
            simp only [List.length_cons]
            omega
        · rw [if_neg hs] at h
          by_cases hd : ((s :: r2).takeWhile isDigitC).length = 0
          · rw [if_pos hd] at h
            cases h
          · rw [if_neg hd] at h
            simp only [Option.some.injEq] at h
            have := takeWhile_len_le (p := isDigitC) (s :: r2)
            subst h
            simp only [List.length_cons] at *
            omega
    · rw [if_neg hc] at h
      cases h

theorem matchExpPart_stable {cs : List Char} {e : Nat} (h : matchExpPart cs = some e)
    (z : List Char) (hz : ∀ c, z.head? = some c → isDigitC c = false) :
    matchExpPart (cs.take e ++ z) = some e := by
  match cs with
  | [] => simp [matchExpPart] at h
  | c :: rest =>
    simp only [matchExpPart] at h
    by_cases hc : (c = 'e' || c = 'E') = true
    · rw [if_pos hc] at h
      match rest with
      | [] =>
        dsimp only at h
        cases h
      | s :: r2 =>
        dsimp only at h
        by_cases hs : (s = '+' || s = '-') = true
        · rw [if_pos hs] at h
          by_cases hd : (r2.takeWhile isDigitC).length = 0
          · rw [if_pos hd] at h
            cases h
          · rw [if_neg hd] at h
            simp only [Option.some.injEq] at h
            subst h
            rw [show (1 + 1 + (r2.takeWhile isDigitC).length) =
                ((r2.takeWhile isDigitC).length + 1) + 1 from by omega,
              List.take_succ_cons, List.take_succ_cons, takeWhile_take_self]
            show matchExpPart (c :: s :: (r2.takeWhile isDigitC ++ z)) = _
            simp only [matchExpPart]
            rw [if_pos hc, if_pos hs,
              takeWhile_append_headFails _ z
                (List.all_eq_true.mp (takeWhile_all r2)) hz,
              if_neg hd]
            exact congrArg some (by omega)
        · rw [if_neg hs] at h
          by_cases hd : ((s :: r2).takeWhile isDigitC).length = 0
          · rw [if_pos hd] at h
            cases h
          · rw [if_neg hd] at h
            simp only [Option.some.injEq] at h
            subst h
            have hsd : isDigitC s = true := by
              by_contra hcon
              simp only [Bool.not_eq_true] at hcon
              rw [List.takeWhile_cons, hcon] at hd
              simp at hd
            have hT : (s :: r2).takeWhile isDigitC = s :: r2.takeWhile isDigitC := by
              rw [List.takeWhile_cons, hsd]
              simp
            rw [show (1 + ((s :: r2).takeWhile isDigitC).length) =
                (((s :: r2).takeWhile isDigitC).length) + 1 from by omega,
              List.take_succ_cons, takeWhile_take_self, hT]
            show matchExpPart (c :: s :: (r2.takeWhile isDigitC ++ z)) = _
            simp only [matchExpPart]
            have hs' : (s = '+' || s = '-') = false := by
              simp only [Bool.or_eq_false_iff, decide_eq_false_iff_not]
              constructor
              · intro he
                rw [he] at hsd
                exact absurd hsd (by decide)
              · intro he
                rw [he] at hsd
                exact absurd hsd (by decide)
            rw [if_pos hc, hs']
            simp only [Bool.false_eq_true, if_false]
            have htw : (s :: (r2.takeWhile isDigitC ++ z)).takeWhile isDigitC =
                s :: r2.takeWhile isDigitC := by
              rw [List.takeWhile_cons, hsd]
              simp only [if_true]
              rw [takeWhile_append_headFails _ z
                (List.all_eq_true.mp (takeWhile_all r2)) hz]
            rw [htw, ← hT, if_neg hd]
            exact congrArg some (by omega)
    · rw [if_neg hc] at h
      cases h

theorem matchExpPart_none_head {cs : List Char}
    (hb : ∀ c, cs.head? = some c → (c = 'e' || c = 'E') = false) :
    matchExpPart cs = none := by
  match cs with
  | [] => rfl
  | c :: rest =>
    simp only [matchExpPart]
    rw [hb c rfl]
    simp

theorem matchFloatSfx_le (y : List Char) : matchFloatSfx y ≤ y.length := by
  match y with
  | [] => simp [matchFloatSfx]
  | c :: t =>
    simp only [matchFloatSfx]
    split_ifs <;> simp

theorem matchFloatSfx_cases (y : List Char) :
    matchFloatSfx y = 0 ∨ (∃ c t, y = c :: t ∧ (c = 'F' ∨ c = 'f' ∨ c = 'L' ∨ c = 'l') ∧
      matchFloatSfx y = 1) := by
  match y with
  | [] => left; rfl
  | c :: t =>
    by_cases hc : (c = 'F' || c = 'f' || c = 'L' || c = 'l') = true
    · right
      refine ⟨c, t, rfl, by simp at hc; tauto, ?_⟩
      simp only [matchFloatSfx]
      rw [if_pos hc]
    · left
      simp only [matchFloatSfx]
      rw [if_neg hc]

theorem matchFloatSfx_take_stable (y z : List Char)
    (hz : ∀ c, z.head? = some c → isIdentChar c = false) :
    matchFloatSfx (y.take (matchFloatSfx y) ++ z) = matchFloatSfx y := by
  rcases matchFloatSfx_cases y with h0 | ⟨c, t, rfl, hc, h1⟩
  · rw [h0]
    simp only [List.take_zero, List.nil_append]
    match z with
    | [] => rfl
    | d :: r =>
      have hd := not_ident_facts d (hz d rfl)
      have n1 := not_letter_ne d hd.1 'F' (by decide)
      have n2 := not_letter_ne d hd.1 'f' (by decide)
      have n3 := not_letter_ne d hd.1 'L' (by decide)
      have n4 := not_letter_ne d hd.1 'l' (by decide)
      simp [matchFloatSfx, n1, n2, n3, n4]
  · rw [h1]
    simp only [List.take_succ_cons, List.take_zero, List.cons_append]
    simp only [matchFloatSfx]
    rcases hc with rfl | rfl | rfl | rfl <;> rfl

theorem expSfx_stable (t z : List Char) (e s : Nat)
    (he : (matchExpPart t).getD 0 = e) (hs : matchFloatSfx (t.drop e) = s)
    (hz : ∀ c, z.head? = some c → isIdentChar c = false) :
    (∀ c, (t.take (e + s) ++ z).head? = some c → isDigitC c = false) ∧
    (matchExpPart (t.take (e + s) ++ z)).getD 0 = e ∧
    matchFloatSfx ((t.take (e + s) ++ z).drop e) = s ∧
    e + s ≤ t.length := by
  cases hexp : matchExpPart t with
  | some e0 =>
    rw [hexp] at he
    simp only [Option.getD_some] at he
    subst he
    obtain ⟨he1, he2⟩ := matchExpPart_le hexp
    obtain ⟨c, t', rfl, hce⟩ := matchExpPart_head hexp
    have hsle := matchFloatSfx_le ((c :: t').drop e0)
    have htake : (c :: t').take (e0 + s) =
        (c :: t').take e0 ++ ((c :: t').drop e0).take s := by
      rw [List.take_add]
    have hzd : ∀ d, (((c :: t').drop e0).take s ++ z).head? = some d →
        isDigitC d = false := by
      intro d hd
      rw [← hs] at hd
      rcases matchFloatSfx_cases ((c :: t').drop e0) with h0 | ⟨a, b, hab, ha, h1⟩
      · rw [h0] at hd
        simp only [List.take_zero, List.nil_append] at hd
        exact (not_ident_facts d (hz d hd)).2.1
      · rw [h1, hab] at hd
        simp only [List.take_succ_cons, List.take_zero, List.cons_append,
          List.head?_cons, Option.some.injEq] at hd
        rw [← hd]
        rcases ha with rfl | rfl | rfl | rfl <;> decide
    have hstable := matchExpPart_stable hexp (((c :: t').drop e0).take s ++ z) hzd
    have hlen_take : ((c :: t').take e0).length = e0 := by
      rw [List.length_take]
      omega
    refine ⟨?_, ?_, ?_, ?_⟩
    · intro d hd
      obtain ⟨m, rfl⟩ : ∃ m, e0 = m + 1 := ⟨e0 - 1, by omega⟩
      rw [show m + 1 + s = (m + s) + 1 from by omega, List.take_succ_cons] at hd
      simp only [List.cons_append, List.head?_cons, Option.some.injEq] at hd
      rw [← hd]
      rcases hce with rfl | rfl <;> decide
    · rw [htake, List.append_assoc, hstable]
      simp
    · rw [htake, List.append_assoc, List.drop_left' hlen_take]
      rw [← hs]
      exact matchFloatSfx_take_stable _ z hz
    · rw [hs, List.length_drop] at hsle
      omega
  | none =>
    rw [hexp] at he
    simp only [Option.getD_none] at he
    subst he
    simp only [Nat.zero_add, List.drop_zero] at hs ⊢
    have hsle := matchFloatSfx_le t
    have hzd : ∀ d, (t.take s ++ z).head? = some d →
        (d = 'e' ∨ d = 'E') → False := by
      intro d hd hde
      rw [← hs] at hd
      rcases matchFloatSfx_cases t with h0 | ⟨a, b, hab, ha, h1⟩
      · rw [h0] at hd
        simp only [List.take_zero, List.nil_append] at hd
        have := (not_ident_facts d (hz d hd)).1
        rcases hde with rfl | rfl <;> exact absurd this (by decide)
      · rw [h1, hab] at hd
        simp only [List.take_succ_cons, List.take_zero, List.cons_append,
          List.head?_cons, Option.some.injEq] at hd
        rw [hd] at ha
        rcases ha with rfl | rfl | rfl | rfl <;> rcases hde with he' | he' <;>
          exact absurd he' (by decide)
    refine ⟨?_, ?_, ?_, by omega⟩
    · intro d hd
      have hne := hzd d hd
      rw [← hs] at hd
      rcases matchFloatSfx_cases t with h0 | ⟨a, b, hab, ha, h1⟩
      · rw [h0] at hd
        simp only [List.take_zero, List.nil_append] at hd
        exact (not_ident_facts d (hz d hd)).2.1
      · rw [h1, hab] at hd
        simp only [List.take_succ_cons, List.take_zero, List.cons_append,
          List.head?_cons, Option.some.injEq] at hd
        rw [← hd]
        rcases ha with rfl | rfl | rfl | rfl <;> decide
    · rw [matchExpPart_none_head (fun d hd => by
        have := hzd d hd
        simp only [Bool.or_eq_false_iff, decide_eq_false_iff_not]
        exact ⟨fun he' => this (Or.inl he'), fun he' => this (Or.inr he')⟩)]
      rfl
    · rw [← hs]
      exact matchFloatSfx_take_stable t z hz

theorem drop_append_add {α : Type} (a b : List α) (k : Nat) :
    (a ++ b).drop (a.length + k) = b.drop k := by
  induction a with
  | nil => simp
  | cons x t ih => simp [Nat.succ_add, ih]

theorem matchFloatRule_build_frac (D1 d2 W : List Char)
    (hD1 : ∀ c ∈ D1, isDigitC c = true) (hd2 : ∀ c ∈ d2, isDigitC c = true)
    (hWd : ∀ c, W.head? = some c → isDigitC c = false)
    (hne : ¬(d2.length = 0 ∧ D1.length = 0)) :
    matchFloatRule (D1 ++ '.' :: (d2 ++ W)) =
      some (D1.length + 1 + d2.length + (matchExpPart W).getD 0 +
        matchFloatSfx (W.drop ((matchExpPart W).getD 0))) := by
  simp only [matchFloatRule]
  rw [takeWhile_append_headFails D1 ('.' :: (d2 ++ W)) hD1
    (fun c hc => by simp only [List.head?_cons, Option.some.injEq] at hc; rw [← hc]; decide)]
  rw [List.drop_left]
  rw [if_pos (show ('.' :: (d2 ++ W)).head? = some '.' from rfl)]
  simp only [List.tail_cons]
  simp only [takeWhile_append_headFails d2 W hd2 hWd]
  rw [if_neg (by simpa using hne)]
  by_cases h2 : d2.length = 0
  · rw [if_pos h2]
    rw [show D1.length + 1 = D1.length + (d2.length + 1) from by omega]
    rw [drop_append_add, List.drop_succ_cons, List.drop_left]
    exact congrArg some (by omega)
  · rw [if_neg h2]
    rw [show D1.length + 1 + d2.length = D1.length + (d2.length + 1) from by omega]
    rw [drop_append_add, List.drop_succ_cons, List.drop_left]

theorem matchFloatRule_build_exp (D1 W : List Char) {e : Nat}
    (hD1 : ∀ c ∈ D1, isDigitC c = true) (hD1ne : ¬(D1.length = 0))
    (hWd : ∀ c, W.head? = some c → isDigitC c = false)
    (hWdot : W.head? ≠ some '.')
    (hexp : matchExpPart W = some e) :
    matchFloatRule (D1 ++ W) =
      some (D1.length + e + matchFloatSfx (W.drop e)) := by
  simp only [matchFloatRule]
  rw [takeWhile_append_headFails D1 W hD1 hWd]
  rw [List.drop_left]
  rw [if_neg hWdot, if_neg hD1ne, hexp]

theorem matchFloatRule_stable {cs : List Char} {n : Nat}
    (h : matchFloatRule cs = some n) (z : List Char)
    (hz : ∀ c, z.head? = some c → isIdentChar c = false ∧ c ≠ '.') :
    n ≤ cs.length ∧ matchFloatRule (cs.take n ++ z) = some n := by
  have hall1 : ∀ c ∈ cs.takeWhile isDigitC, isDigitC c = true :=
    List.all_eq_true.mp (takeWhile_all cs)
  have hz1 : ∀ c, z.head? = some c → isIdentChar c = false := fun c hc => (hz c hc).1
  simp only [matchFloatRule] at h
  by_cases hA : (cs.drop ((cs.takeWhile isDigitC).length)).head? = some '.'
  · rw [if_pos hA] at h
    cases hR1 : cs.drop ((cs.takeWhile isDigitC).length) with
    | nil =>
      rw [hR1] at hA
      cases hA
    | cons x T =>
      rw [hR1] at hA
      simp only [List.head?_cons, Option.some.injEq] at hA
      subst hA
      rw [hR1] at h
      simp only [List.tail_cons] at h
      by_cases hboth : ((T.takeWhile isDigitC).length = 0 ∧
          (cs.takeWhile isDigitC).length = 0)
      · rw [if_pos (by simp [hboth.1, hboth.2])] at h
        cases h
      · rw [if_neg (by simpa using hboth)] at h
        have hfr : (if (T.takeWhile isDigitC).length = 0
            then (cs.takeWhile isDigitC).length + 1
            else (cs.takeWhile isDigitC).length + 1 + (T.takeWhile isDigitC).length) =
            (cs.takeWhile isDigitC).length + 1 + (T.takeWhile isDigitC).length := by
          by_cases h2 : (T.takeWhile isDigitC).length = 0
          · rw [if_pos h2]
            omega
          · rw [if_neg h2]
        rw [hfr] at h
        have hr3 : cs.drop ((cs.takeWhile isDigitC).length + 1 +
            (T.takeWhile isDigitC).length) =
            T.drop ((T.takeWhile isDigitC).length) := by
          rw [show (cs.takeWhile isDigitC).length + 1 + (T.takeWhile isDigitC).length =
              (cs.takeWhile isDigitC).length + ((T.takeWhile isDigitC).length + 1) from
              by omega]
          rw [takeWhile_drop_add, hR1, List.drop_succ_cons]
        rw [hr3] at h
        simp only [Option.some.injEq] at h
        obtain ⟨E, hE⟩ : ∃ E,
            (matchExpPart (T.drop ((T.takeWhile isDigitC).length))).getD 0 = E :=
          ⟨_, rfl⟩
        rw [hE] at h
        obtain ⟨S, hS⟩ : ∃ S,
            matchFloatSfx ((T.drop ((T.takeWhile isDigitC).length)).drop E) = S :=
          ⟨_, rfl⟩
        rw [hS] at h
        obtain ⟨q1, q2, q3, q4⟩ :=
          expSfx_stable (T.drop ((T.takeWhile isDigitC).length)) z E S hE hS hz1
        have hlen := congrArg List.length (takeWhile_decomp (p := isDigitC) cs)
        rw [List.length_append, hR1, List.length_cons] at hlen
        have hTlen := congrArg List.length (takeWhile_decomp (p := isDigitC) T)
        rw [List.length_append] at hTlen
        have hL2le := takeWhile_len_le (p := isDigitC) T
        refine ⟨by omega, ?_⟩
        have htake : cs.take n = cs.takeWhile isDigitC ++ '.' ::
            (T.takeWhile isDigitC ++
              (T.drop ((T.takeWhile isDigitC).length)).take (E + S)) := by
          rw [show n = (cs.takeWhile isDigitC).length +
              (1 + ((T.takeWhile isDigitC).length + (E + S))) from by omega]
          rw [takeWhile_take_add, hR1]
          rw [show 1 + ((T.takeWhile isDigitC).length + (E + S)) =
              ((T.takeWhile isDigitC).length + (E + S)) + 1 from by omega]
          rw [List.take_succ_cons, takeWhile_take_add]
        rw [htake]
        rw [show (cs.takeWhile isDigitC ++ '.' ::
            (T.takeWhile isDigitC ++
              (T.drop ((T.takeWhile isDigitC).length)).take (E + S))) ++ z =
            cs.takeWhile isDigitC ++ '.' ::
            (T.takeWhile isDigitC ++
              ((T.drop ((T.takeWhile isDigitC).length)).take (E + S) ++ z)) from by
          simp [List.append_assoc]]
        rw [matchFloatRule_build_frac _ _ _ hall1
          (List.all_eq_true.mp (takeWhile_all T)) q1 (by simpa using hboth)]
        rw [q2, q3]
        exact congrArg some (by omega)
  · rw [if_neg hA] at h
    by_cases h10 : (cs.takeWhile isDigitC).length = 0
    · rw [if_pos h10] at h
      cases h
    · rw [if_neg h10] at h
      cases hexp : matchExpPart (cs.drop ((cs.takeWhile isDigitC).length)) with
      | none =>
        rw [hexp] at h
        cases h
      | some e =>
        rw [hexp] at h
        dsimp only at h
        simp only [Option.some.injEq] at h
        obtain ⟨he1, he2⟩ := matchExpPart_le hexp
        obtain ⟨S, hS⟩ : ∃ S,
            matchFloatSfx ((cs.drop ((cs.takeWhile isDigitC).length)).drop e) = S :=
          ⟨_, rfl⟩
        rw [hS] at h
        obtain ⟨q1, q2, q3, q4⟩ :=
          expSfx_stable (cs.drop ((cs.takeWhile isDigitC).length)) z e S
            (by rw [hexp]; rfl) hS hz1
        have hlen := congrArg List.length (takeWhile_decomp (p := isDigitC) cs)
        rw [List.length_append] at hlen
        refine ⟨by omega, ?_⟩
        obtain ⟨ch, T', hR1, hch⟩ := matchExpPart_head hexp
        have hexpW : matchExpPart
            ((cs.drop ((cs.takeWhile isDigitC).length)).take (e + S) ++ z) = some e := by
          cases hW : matchExpPart
              ((cs.drop ((cs.takeWhile isDigitC).length)).take (e + S) ++ z) with
          | none =>
            rw [hW] at q2
            simp only [Option.getD_none] at q2
            omega
          | some e' =>
            rw [hW] at q2
            simp only [Option.getD_some] at q2
            rw [q2]
        have hWdot : ((cs.drop ((cs.takeWhile isDigitC).length)).take (e + S) ++ z).head? ≠
            some '.' := by
          intro hcon
          rw [hR1] at hcon
          rw [show e + S = (e - 1 + S) + 1 from by omega, List.take_succ_cons] at hcon
          simp only [List.cons_append, List.head?_cons, Option.some.injEq] at hcon
          rcases hch with rfl | rfl <;> cases hcon
        have htake : cs.take n = cs.takeWhile isDigitC ++
            (cs.drop ((cs.takeWhile isDigitC).length)).take (e + S) := by
          rw [show n = (cs.takeWhile isDigitC).length + (e + S) from by omega]
          rw [takeWhile_take_add]
        rw [htake, List.append_assoc]
        rw [matchFloatRule_build_exp _ _ hall1 h10 q1 hWdot hexpW]
        rw [q3]
        exact congrArg some (by omega)

theorem floatShape_matches {w : List Char} (hw : floatShape w = true) (z : List Char)
    (hz : ∀ c, z.head? = some c → isIdentChar c = false ∧ c ≠ '.') :
    matchFloatRule (w ++ z) = some w.length := by
  simp only [floatShape, decide_eq_true_eq] at hw
  have := (matchFloatRule_stable hw z hz).2
  rwa [List.take_length] at this

theorem matchFloatRule_float_shape {cs : List Char} {n : Nat}
    (h : matchFloatRule cs = some n) :
    n ≤ cs.length ∧ floatShape (cs.take n) = true := by
  obtain ⟨hle, hst⟩ := matchFloatRule_stable h []
    (by intro c hc; simp at hc)
  rw [List.append_nil] at hst
  refine ⟨hle, ?_⟩
  simp only [floatShape, decide_eq_true_eq]
  rw [List.length_take, Nat.min_eq_left hle]
  exact hst

theorem floatShape_head {v : List Char} (hv : floatShape v = true) :
    ∃ c t, v = c :: t ∧ (isDigitC c = true ∨ c = '.') := by
  match v with
  | [] => simp [floatShape, matchFloatRule, matchExpPart] at hv
  | c :: t =>
    refine ⟨c, t, rfl, ?_⟩
    by_cases hd : isDigitC c = true
    · exact Or.inl hd
    · right
      simp only [floatShape, decide_eq_true_eq] at hv
      simp only [matchFloatRule] at hv
      simp only [Bool.not_eq_true] at hd
      rw [List.takeWhile_cons, hd] at hv
      simp only [Bool.false_eq_true, if_false, List.length_nil, List.drop_zero,
        List.head?_cons] at hv
      by_cases hdot : c = '.'
      · exact hdot
      · rw [if_neg (by simpa using hdot)] at hv
        rw [if_pos trivial] at hv
        cases hv

theorem takeWhile_append_eq {p : Char → Bool} : ∀ (xs z : List Char),
    (∀ c, z.head? = some c → p c = false) →
    (xs ++ z).takeWhile p = xs.takeWhile p := by
  intro xs z hz
  induction xs with
  | nil =>
    cases z with
    | nil => rfl
    | cons c t => simp [List.takeWhile_cons, hz c rfl]
  | cons x t ih =>
    simp only [List.cons_append, List.takeWhile_cons]
    by_cases hx : p x = true
    · simp [hx, ih]
    · have hx' : p x = false := by simpa using hx
      simp [hx']

theorem drop_append_le {α : Type} : ∀ (a b : List α) (k : Nat), k ≤ a.length →
    (a ++ b).drop k = a.drop k ++ b := by
  intro a
  induction a with
  | nil =>
    intro b k hk
    obtain rfl := Nat.le_zero.mp (by simpa using hk)
    simp
  | cons x t ih =>
    intro b k hk
    cases k with
    | zero => simp
    | succ m =>
      simp only [List.cons_append, List.drop_succ_cons]
      exact ih b m (by simpa using hk)

theorem letter_not_digit {c : Char} (h : isLetter c = true) : isDigitC c = false := by
  simp only [isLetter, Bool.or_eq_true, Bool.and_eq_true, decide_eq_true_eq] at h
  by_contra hcon
  simp only [Bool.not_eq_false] at hcon
  simp only [isDigitC, Bool.and_eq_true, decide_eq_true_eq] at hcon
  rcases h with ⟨h1, _⟩ | ⟨h1, _⟩
  · exact absurd (le_trans h1 hcon.2) (by decide)
  · exact absurd (le_trans h1 hcon.2) (by decide)

theorem identStart_facts {c : Char} (h : (isLetter c || c = '_') = true) :
    isDigitC c = false ∧ c ≠ '*' ∧ c ≠ ' ' ∧ c ≠ '\t' ∧ c ≠ '\n' ∧ c ≠ ',' ∧
    c ≠ '.' ∧ c ≠ '\'' ∧ c ≠ '"' ∧ c ≠ '=' ∧ c ≠ '0' ∧
    ('1' ≤ c && c ≤ '9') = false := by
  simp only [Bool.or_eq_true, decide_eq_true_eq] at h
  rcases h with hl | rfl
  · have hd := letter_not_digit hl
    refine ⟨hd, fun he => absurd (he ▸ hl) (by decide),
      fun he => absurd (he ▸ hl) (by decide), fun he => absurd (he ▸ hl) (by decide),
      fun he => absurd (he ▸ hl) (by decide), fun he => absurd (he ▸ hl) (by decide),
      fun he => absurd (he ▸ hl) (by decide), fun he => absurd (he ▸ hl) (by decide),
      fun he => absurd (he ▸ hl) (by decide), fun he => absurd (he ▸ hl) (by decide),
      fun he => absurd (he ▸ hl) (by decide), ?_⟩
    by_contra hcon
    simp only [Bool.not_eq_false, Bool.and_eq_true, decide_eq_true_eq] at hcon
    have hdig : isDigitC c = true := by
      simp only [isDigitC, Bool.and_eq_true, decide_eq_true_eq]
      exact ⟨le_trans (by decide) hcon.1, hcon.2⟩
    rw [hdig] at hd
    cases hd
  · exact ⟨by decide, by decide, by decide, by decide, by decide, by decide,
      by decide, by decide, by decide, by decide, by decide, by decide⟩

theorem decStart_facts {c : Char} (h : ('1' ≤ c && c ≤ '9') = true) :
    isDigitC c = true ∧ c ≠ '0' ∧ c ≠ '*' ∧ (isLetter c || c = '_') = false ∧
    c ≠ ' ' ∧ c ≠ '\t' ∧ c ≠ '\n' ∧ c ≠ ',' ∧ c ≠ '.' ∧ c ≠ '\'' ∧ c ≠ '"' ∧
    c ≠ '=' ∧ c ≠ 'L' := by
  have hdig : isDigitC c = true := by
    simp only [Bool.and_eq_true, decide_eq_true_eq] at h
    simp only [isDigitC, Bool.and_eq_true, decide_eq_true_eq]
    exact ⟨le_trans (by decide) h.1, h.2⟩
  refine ⟨hdig, fun he => absurd (he ▸ h) (by decide),
    fun he => absurd (he ▸ h) (by decide), ?_,
    fun he => absurd (he ▸ h) (by decide), fun he => absurd (he ▸ h) (by decide),
    fun he => absurd (he ▸ h) (by decide), fun he => absurd (he ▸ h) (by decide),
    fun he => absurd (he ▸ h) (by decide), fun he => absurd (he ▸ h) (by decide),
    fun he => absurd (he ▸ h) (by decide), fun he => absurd (he ▸ h) (by decide),
    fun he => absurd (he ▸ h) (by decide)⟩
  simp only [Bool.or_eq_false_iff, decide_eq_false_iff_not]
  constructor
  · by_contra hcon
    simp only [Bool.not_eq_false] at hcon
    rw [letter_not_digit hcon] at hdig
    cases hdig
  · intro he
    exact absurd (he ▸ h) (by decide)

theorem dotdigit_facts {c : Char} (h : isDigitC c = true ∨ c = '.') :
    c ≠ '*' ∧ (isLetter c || c = '_') = false ∧ c ≠ ' ' ∧ c ≠ '\t' ∧ c ≠ '\n' ∧
    c ≠ ',' ∧ c ≠ '\'' ∧ c ≠ '"' ∧ c ≠ '=' ∧ c ≠ 'L' := by
  rcases h with hdig | rfl
  · have hl : (isLetter c || c = '_') = false := by
      simp only [Bool.or_eq_false_iff, decide_eq_false_iff_not]
      constructor
      · by_contra hcon
        simp only [Bool.not_eq_false] at hcon
        rw [letter_not_digit hcon] at hdig
        cases hdig
      · intro he
        rw [he] at hdig
        exact absurd hdig (by decide)
    exact ⟨fun he => absurd (he ▸ hdig) (by decide), hl,
      fun he => absurd (he ▸ hdig) (by decide), fun he => absurd (he ▸ hdig) (by decide),
      fun he => absurd (he ▸ hdig) (by decide), fun he => absurd (he ▸ hdig) (by decide),
      fun he => absurd (he ▸ hdig) (by decide), fun he => absurd (he ▸ hdig) (by decide),
      fun he => absurd (he ▸ hdig) (by decide), fun he => absurd (he ▸ hdig) (by decide)⟩
  · exact ⟨by decide, by decide, by decide, by decide, by decide, by decide,
      by decide, by decide, by decide, by decide⟩

theorem matchKeywordRule_none {c : Char} (hc : c ≠ '*') (rest : List Char) :
    matchKeywordRule (c :: rest) = none := by
  match rest with
  | [] => rfl
  | x :: t =>
    simp only [matchKeywordRule]
    rw [if_neg hc]

theorem matchCommentRule_none {c : Char} (h1 : c ≠ ' ') (h2 : c ≠ '\t')
    (h3 : c ≠ '*') (rest : List Char) : matchCommentRule (c :: rest) = none := by
  simp only [matchCommentRule]
  have hw : (c :: rest).takeWhile (fun c => c = ' ' || c = '\t') = [] := by
    rw [List.takeWhile_cons]
    simp [h1, h2]
  rw [hw]
  simp only [List.length_nil, List.drop_zero]
  match rest with
  | [] => rfl
  | x :: t =>
    dsimp only
    rw [if_neg (fun hcon => h3 hcon.1)]

theorem matchNewlineRun_none {c : Char} (hc : c ≠ '\n') (rest : List Char) :
    matchNewlineRun (c :: rest) = none := by
  simp [matchNewlineRun, hc]

theorem matchNewlineOne_none {c : Char} (hc : c ≠ '\n') (rest : List Char) :
    matchNewlineOne (c :: rest) = none := by
  simp [matchNewlineOne, hc]

theorem matchContinueRule_none {c : Char} (hc : c ≠ ',') (rest : List Char) :
    matchContinueRule (c :: rest) = none := by
  match rest with
  | [] => rfl
  | x :: t => simp [matchContinueRule, hc]

theorem matchHexRule_none {c : Char} (hc : c ≠ '0') (rest : List Char) :
    matchHexRule (c :: rest) = none := by
  match rest with
  | [] => rfl
  | x :: t => simp [matchHexRule, hc]

theorem matchBadOctal_none {c : Char} (hc : c ≠ '0') (rest : List Char) :
    matchBadOctal (c :: rest) = none := by
  simp [matchBadOctal, hc]

theorem matchOctal_none {c : Char} (hc : c ≠ '0') (rest : List Char) :
    matchOctal (c :: rest) = none := by
  simp [matchOctal, hc]

theorem matchDecimal_none {c : Char} (hc0 : c ≠ '0')
    (hc19 : ('1' ≤ c && c ≤ '9') = false) (rest : List Char) :
    matchDecimal (c :: rest) = none := by
  simp [matchDecimal, hc0, hc19]

theorem matchFloatRule_none_head {c : Char} (hcd : isDigitC c = false)
    (hcdot : c ≠ '.') (rest : List Char) : matchFloatRule (c :: rest) = none := by
  simp only [matchFloatRule, List.takeWhile_cons, hcd]
  simp [hcdot]

theorem matchCharConstRule_none {c : Char} (hc : c ≠ '\'') (rest : List Char) :
    matchCharConstRule (c :: rest) = none := by
  rw [matchCharConstRule.eq_def]
  dsimp only
  rw [if_neg hc]

theorem matchWCharRule_none {c : Char} (hc : c ≠ 'L') (rest : List Char) :
    matchWCharRule (c :: rest) = none := by
  simp [matchWCharRule, hc]

theorem matchWCharRule_noquote (rest : List Char)
    (h : matchCharConstRule rest = none) : matchWCharRule ('L' :: rest) = none := by
  simp [matchWCharRule, h]

theorem matchUnmatchedQuoteRule_none {c : Char} (hc : c ≠ '\'') (rest : List Char) :
    matchUnmatchedQuoteRule (c :: rest) = none := by
  simp [matchUnmatchedQuoteRule, hc]

theorem matchBadCharRule_none {c : Char} (hc : c ≠ '\'') (rest : List Char) :
    matchBadCharRule (c :: rest) = none := by
  simp [matchBadCharRule, hc]

theorem matchWStringRule_none {c : Char} (hc : c ≠ 'L') (rest : List Char) :
    matchWStringRule (c :: rest) = none := by
  simp [matchWStringRule, hc]

theorem matchWStringRule_noquote (rest : List Char)
    (h : matchStringLitRule rest = none) : matchWStringRule ('L' :: rest) = none := by
  simp [matchWStringRule, h]

theorem matchStringLitRule_none {c : Char} (hc : c ≠ '"') (rest : List Char) :
    matchStringLitRule (c :: rest) = none := by
  simp [matchStringLitRule, hc]

theorem matchBadStringRule_none {c : Char} (hc : c ≠ '"') (rest : List Char) :
    matchBadStringRule (c :: rest) = none := by
  simp [matchBadStringRule, hc]

theorem matchIdentifier_none {c : Char} (hc : (isLetter c || c = '_') = false)
    (rest : List Char) : matchIdentifier (c :: rest) = none := by
  simp only [matchIdentifier]
  rw [hc]
  simp

theorem matchFloatRule_dec_none {w : List Char} (hw : decShape w = true)
    (z : List Char)
    (hz : ∀ c, z.head? = some c → isIdentChar c = false ∧ c ≠ '.') :
    matchFloatRule (w ++ z) = none := by
  simp only [decShape, Bool.and_eq_true, decide_eq_true_eq] at hw
  obtain ⟨hhead, hfull⟩ := hw
  match w with
  | [] => simp at hhead
  | c :: rest =>
    have hc0 : c ≠ '0' := (decStart_facts hhead).2.1
    have hcd : isDigitC c = true := (decStart_facts hhead).1
    simp only [matchDecimal] at hfull
    rw [if_neg hc0, if_pos hhead] at hfull
    have h' : 1 + (rest.takeWhile isDigitC).length +
        matchSuffix (rest.drop ((rest.takeWhile isDigitC).length)) =
        (c :: rest).length := Option.some.inj hfull
    have hY : matchSuffix (rest.drop ((rest.takeWhile isDigitC).length)) =
        (rest.drop ((rest.takeWhile isDigitC).length)).length := by
      rw [List.length_drop]
      have := takeWhile_len_le (p := isDigitC) rest
      simp only [List.length_cons] at h'
      omega
    have hmem := matchSuffix_full_mem hY
    have hW : ∀ d, (rest.drop ((rest.takeWhile isDigitC).length) ++ z).head? = some d →
        d ≠ '.' ∧ (d = 'e' || d = 'E') = false := by
      intro d hd
      cases hYc : rest.drop ((rest.takeWhile isDigitC).length) with
      | nil =>
        rw [hYc] at hd
        simp only [List.nil_append] at hd
        obtain ⟨hi, hdot⟩ := hz d hd
        obtain ⟨hltr, -, -⟩ := not_ident_facts d hi
        exact ⟨hdot, by
          simp only [Bool.or_eq_false_iff, decide_eq_false_iff_not]
          exact ⟨not_letter_ne d hltr 'e' (by decide),
            not_letter_ne d hltr 'E' (by decide)⟩⟩
      | cons a t =>
        rw [hYc] at hmem hd
        simp only [List.cons_append, List.head?_cons, Option.some.injEq] at hd
        rw [← hd]
        rcases suffix_head_mem _ hmem a rfl with rfl | rfl | rfl | rfl <;>
          exact ⟨by decide, by decide⟩
    show matchFloatRule (c :: (rest ++ z)) = none
    simp only [matchFloatRule]
    have htw2 : (rest ++ z).takeWhile isDigitC = rest.takeWhile isDigitC :=
      takeWhile_append_eq rest z
        (fun d hd => (not_ident_facts d (hz d hd).1).2.1)
    have htw : (c :: (rest ++ z)).takeWhile isDigitC =
        c :: rest.takeWhile isDigitC := by
      rw [List.takeWhile_cons, hcd, htw2]
      simp
    rw [htw]
    have hdrop : (c :: (rest ++ z)).drop ((c :: rest.takeWhile isDigitC).length) =
        rest.drop ((rest.takeWhile isDigitC).length) ++ z := by
      simp only [List.length_cons, List.drop_succ_cons]
      exact drop_append_le rest z _ (takeWhile_len_le rest)
    rw [hdrop]
    rw [if_neg (fun hcon => absurd rfl (hW '.' hcon).1)]
    rw [if_neg (by simp)]
    rw [matchExpPart_none_head (fun d hd => (hW d hd).2)]

/-- Modelled from the spec: re-emit a parameter in `name=value` form when
a value is present, bare `name` otherwise. -/
def emitParam (p : Parameter) : List Char :=
  match p.value with
  | some v => p.name ++ '=' :: v
  | none => p.name

/-- Modelled from the spec: the parameter-list part of a re-emitted
header, each parameter preceded by its separating comma. -/
def emitParams : List Parameter → List Char
  | [] => []
  | p :: ps => ',' :: (emitParam p ++ emitParams ps)

/-- Modelled from the spec: a re-emitted data line's fields separated by
commas. -/
def emitFields : List (List Char) → List Char
  | [] => []
  | [f] => f
  | f :: fs => f ++ ',' :: emitFields fs

/-- Modelled from the spec: the re-emitted data lines, one physical line
per `DataLine`. -/
def emitLines : List (List (List Char)) → List Char
  | [] => []
  | l :: ls => emitFields l ++ '\n' :: emitLines ls

/-- Modelled from the spec: re-emit a whole Keyword — header marker and
name, parameters in order, a line break, then the data lines. -/
def emit (k : Keyword) : List Char :=
  '*' :: (k.keyword ++ emitParams (k.params.getD []) ++ '\n' ::
    emitLines (k.data.getD []))

/-- Token type the scanner assigns to a re-emitted parameter value in
`keywordstate`. -/
def pvalTokType (v : List Char) : TokType :=
  if identShape v then .PARAM
  else if decShape v then .INT_CONST_DEC
  else .FLOAT_CONST

/-- Token type the scanner assigns to a re-emitted data field in
`datalinestate`. -/
def fieldTokType (v : List Char) : TokType :=
  if identShape v then .ID
  else if decShape v then .INT_CONST_DEC
  else .FLOAT_CONST

/-- The tokens of one re-emitted parameter. -/
def paramToks (p : Parameter) : List PTok :=
  (.PARAM, p.name) ::
    (match p.value with
     | some v => [(.EQUALS, ['=']), (pvalTokType v, v)]
     | none => [])

/-- The tokens of the re-emitted parameter list. -/
def paramsToks : List Parameter → List PTok
  | [] => []
  | p :: ps => (.COMMA, [',']) :: (paramToks p ++ paramsToks ps)

/-- The tokens of one re-emitted data line's fields. -/
def fieldsToks : List (List Char) → List PTok
  | [] => []
  | [f] => [(fieldTokType f, f)]
  | f :: fs => (fieldTokType f, f) :: (.COMMA, [',']) :: fieldsToks fs

/-- The tokens of the re-emitted data lines. -/
def linesToks : List (List (List Char)) → List PTok
  | [] => []
  | l :: ls => fieldsToks l ++ (.LASTTOKENONLINE, ['\n']) :: linesToks ls

/-- The full token stream of a re-emitted Keyword. -/
def emitToks (k : Keyword) : List PTok :=
  (.KEYWORD, k.keyword) ::
    (paramsToks (k.params.getD []) ++ linesToks (k.data.getD []))

theorem delim_notExt {rest : List Char}
    (hd : rest.head? = none ∨ rest.head? = some ',' ∨ rest.head? = some '\n') :
    ∀ c, rest.head? = some c → isIdentChar c = false ∧ c ≠ '.' := by
  intro c hc
  rcases hd with h | h | h
  · rw [hc] at h
    cases h
  · rw [hc] at h
    simp only [Option.some.injEq] at h
    subst h
    exact ⟨by decide, by decide⟩
  · rw [hc] at h
    simp only [Option.some.injEq] at h
    subst h
    exact ⟨by decide, by decide⟩

theorem delim_cases {rest : List Char}
    (hd : rest.head? = none ∨ rest.head? = some ',' ∨ rest.head? = some '\n') :
    rest = [] ∨ (∃ r', rest = ',' :: r') ∨ (∃ r', rest = '\n' :: r') := by
  cases rest with
  | nil => exact Or.inl rfl
  | cons c t =>
    rcases hd with h | h | h
    · cases h
    · simp only [List.head?_cons, Option.some.injEq] at h
      subst h
      exact Or.inr (Or.inl ⟨t, rfl⟩)
    · simp only [List.head?_cons, Option.some.injEq] at h
      subst h
      exact Or.inr (Or.inr ⟨t, rfl⟩)

theorem charconst_after_ident_none (t rest : List Char) (ht : t.all isIdentChar = true)
    (hd : rest.head? = none ∨ rest.head? = some ',' ∨ rest.head? = some '\n') :
    matchCharConstRule (t ++ rest) = none ∧ matchStringLitRule (t ++ rest) = none := by
  cases t with
  | nil =>
    simp only [List.nil_append]
    rcases delim_cases hd with rfl | ⟨r', rfl⟩ | ⟨r', rfl⟩
    · exact ⟨rfl, rfl⟩
    · exact ⟨matchCharConstRule_none (by decide) r', matchStringLitRule_none (by decide) r'⟩
    · exact ⟨matchCharConstRule_none (by decide) r', matchStringLitRule_none (by decide) r'⟩
  | cons c2 t' =>
    have hc2 : isIdentChar c2 = true := by
      rw [List.all_eq_true] at ht
      exact ht c2 (by simp)
    have hq : c2 ≠ '\'' := fun he => absurd (he ▸ hc2) (by decide)
    have hq2 : c2 ≠ '"' := fun he => absurd (he ▸ hc2) (by decide)
    exact ⟨matchCharConstRule_none hq _, matchStringLitRule_none hq2 _⟩

theorem initialHit_ident {v : List Char} (hid : identShape v = true) (rest : List Char)
    (hd : rest.head? = none ∨ rest.head? = some ',' ∨ rest.head? = some '\n') :
    initialHit (v ++ rest) =
      some ⟨v.length, some (.ID, v), none, 0, false, false⟩ := by
  match v with
  | [] => simp [identShape] at hid
  | c :: t =>
    have hsh : (isLetter c || c = '_') = true := by
      simp only [identShape, Bool.and_eq_true] at hid
      exact hid.1
    have hall : t.all isIdentChar = true := by
      simp only [identShape, Bool.and_eq_true] at hid
      exact hid.2
    obtain ⟨f1, f2, f3, f4, f5, f6, f7, f8, f9, f10, f11, f12⟩ := identStart_facts hsh
    obtain ⟨hcc, hsl⟩ := charconst_after_ident_none t rest hall hd
    have hid2 := identShape_matches hid rest (fun d hdd => (delim_notExt hd d hdd).1)
    rw [List.cons_append] at hid2
    have hwch : matchWCharRule (c :: (t ++ rest)) = none := by
      by_cases hcL : c = 'L'
      · subst hcL
        exact matchWCharRule_noquote _ hcc
      · exact matchWCharRule_none hcL _
    have hwst : matchWStringRule (c :: (t ++ rest)) = none := by
      by_cases hcL : c = 'L'
      · subst hcL
        exact matchWStringRule_noquote _ hsl
      · exact matchWStringRule_none hcL _
    show initialHit (c :: (t ++ rest)) = _
    simp only [initialHit,
      matchKeywordRule_none f2 _,
      matchCommentRule_none f3 f4 f2 _,
      matchNewlineRun_none f5 _,
      matchFloatRule_none_head f1 f7 _,
      matchHexRule_none f11 _,
      matchBadOctal_none f11 _,
      matchOctal_none f11 _,
      matchDecimal_none f11 f12 _,
      matchCharConstRule_none f8 _,
      hwch,
      matchUnmatchedQuoteRule_none f8 _,
      matchBadCharRule_none f8 _,
      hwst,
      matchBadStringRule_none f9 _,
      hid2]
    rw [show ((c :: (t ++ rest)).take ((c :: t).length)) = c :: t from by
      rw [← List.cons_append, List.take_left]]

theorem initialHit_dec {v : List Char} (hdec : decShape v = true) (rest : List Char)
    (hd : rest.head? = none ∨ rest.head? = some ',' ∨ rest.head? = some '\n') :
    initialHit (v ++ rest) =
      some ⟨v.length, some (.INT_CONST_DEC, v), none, 0, false, false⟩ := by
  have hw := hdec
  simp only [decShape, Bool.and_eq_true, decide_eq_true_eq] at hw
  obtain ⟨hhead, -⟩ := hw
  match v with
  | [] => simp at hhead
  | c :: t =>
    obtain ⟨g1, g2, g3, g4, g5, g6, g7, g8, g9, g10, g11, g12, g13⟩ :=
      decStart_facts hhead
    have hfl := matchFloatRule_dec_none hdec rest (delim_notExt hd)
    rw [List.cons_append] at hfl
    have hdm := decShape_matches hdec rest (fun d hdd => (delim_notExt hd d hdd).1)
    rw [List.cons_append] at hdm
    show initialHit (c :: (t ++ rest)) = _
    simp only [initialHit,
      matchKeywordRule_none g3 _,
      matchCommentRule_none g5 g6 g3 _,
      matchNewlineRun_none g7 _,
      hfl,
      matchHexRule_none g2 _,
      matchBadOctal_none g2 _,
      matchOctal_none g2 _,
      hdm]
    rw [show ((c :: (t ++ rest)).take ((c :: t).length)) = c :: t from by
      rw [← List.cons_append, List.take_left]]

theorem initialHit_float {v : List Char} (hfl : floatShape v = true) (rest : List Char)
    (hd : rest.head? = none ∨ rest.head? = some ',' ∨ rest.head? = some '\n') :
    initialHit (v ++ rest) =
      some ⟨v.length, some (.FLOAT_CONST, v), none, 0, false, false⟩ := by
  obtain ⟨c, t, rfl, hcd⟩ := floatShape_head hfl
  obtain ⟨k1, k2, k3, k4, k5, k6, k7, k8, k9, k10⟩ := dotdigit_facts hcd
  have hfm := floatShape_matches hfl rest (delim_notExt hd)
  rw [List.cons_append] at hfm
  show initialHit (c :: (t ++ rest)) = _
  simp only [initialHit,
    matchKeywordRule_none k1 _,
    matchCommentRule_none k3 k4 k1 _,
    matchNewlineRun_none k5 _,
    hfm]
  rw [show ((c :: (t ++ rest)).take ((c :: t).length)) = c :: t from by
    rw [← List.cons_append, List.take_left]]

theorem initialHit_comma (rest : List Char) :
    initialHit (',' :: rest) =
      some ⟨1, some (.COMMA, [',']), none, 0, false, false⟩ := by
  simp only [initialHit,
    matchKeywordRule_none (c := ',') (by decide) rest,
    matchCommentRule_none (c := ',') (by decide) (by decide) (by decide) rest,
    matchNewlineRun_none (c := ',') (by decide) rest,
    matchFloatRule_none_head (c := ',') (by decide) (by decide) rest,
    matchHexRule_none (c := ',') (by decide) rest,
    matchBadOctal_none (c := ',') (by decide) rest,
    matchOctal_none (c := ',') (by decide) rest,
    matchDecimal_none (c := ',') (by decide) (by decide) rest,
    matchCharConstRule_none (c := ',') (by decide) rest,
    matchWCharRule_none (c := ',') (by decide) rest,
    matchUnmatchedQuoteRule_none (c := ',') (by decide) rest,
    matchBadCharRule_none (c := ',') (by decide) rest,
    matchWStringRule_none (c := ',') (by decide) rest,
    matchBadStringRule_none (c := ',') (by decide) rest,
    matchIdentifier_none (c := ',') (by decide) rest,
    matchStringLitRule_none (c := ',') (by decide) rest]

theorem initialHit_equals (rest : List Char) :
    initialHit ('=' :: rest) =
      some ⟨1, some (.EQUALS, ['=']), none, 0, false, false⟩ := by
  simp only [initialHit,
    matchKeywordRule_none (c := '=') (by decide) rest,
    matchCommentRule_none (c := '=') (by decide) (by decide) (by decide) rest,
    matchNewlineRun_none (c := '=') (by decide) rest,
    matchFloatRule_none_head (c := '=') (by decide) (by decide) rest,
    matchHexRule_none (c := '=') (by decide) rest,
    matchBadOctal_none (c := '=') (by decide) rest,
    matchOctal_none (c := '=') (by decide) rest,
    matchDecimal_none (c := '=') (by decide) (by decide) rest,
    matchCharConstRule_none (c := '=') (by decide) rest,
    matchWCharRule_none (c := '=') (by decide) rest,
    matchUnmatchedQuoteRule_none (c := '=') (by decide) rest,
    matchBadCharRule_none (c := '=') (by decide) rest,
    matchWStringRule_none (c := '=') (by decide) rest,
    matchBadStringRule_none (c := '=') (by decide) rest,
    matchIdentifier_none (c := '=') (by decide) rest,
    matchStringLitRule_none (c := '=') (by decide) rest]

theorem ruleHit_emit_kw {nm : List Char} (hnm : kwNameShape nm = true)
    (rest : List Char)
    (hd : rest.head? = none ∨ rest.head? = some ',' ∨ rest.head? = some '\n') :
    ruleHit Mode.initial ('*' :: nm ++ rest) =
      some ⟨nm.length + 1, some (.KEYWORD, nm), none, 0, true, false⟩ := by
  have hkw := kwNameShape_matches hnm rest (fun c hc => (delim_notExt hd c hc).1)
  have hkw2 : matchKeywordRule ('*' :: (nm ++ rest)) = some (nm.length + 1) := hkw
  rw [List.cons_append]
  simp only [ruleHit, initialHit, hkw2]
  rw [show (('*' :: (nm ++ rest)).take (nm.length + 1)).drop 1 = nm from by
    rw [List.take_succ_cons, List.take_left, List.drop_succ_cons, List.drop_zero]]

theorem ruleHit_kw_param {nm : List Char} (hnm : identShape nm = true)
    (rest : List Char) (hd : ∀ c, rest.head? = some c → isIdentChar c = false) :
    ruleHit Mode.keywordstate (nm ++ rest) =
      some ⟨nm.length, some (.PARAM, nm), none, 0, false, false⟩ := by
  have hid := identShape_matches hnm rest hd
  simp only [ruleHit, hid]
  rw [List.take_left]

theorem ruleHit_kw_value {v : List Char} (hv : valShapeOK v = true) (rest : List Char)
    (hd : rest.head? = none ∨ rest.head? = some ',' ∨ rest.head? = some '\n') :
    ruleHit Mode.keywordstate (v ++ rest) =
      some ⟨v.length, some (pvalTokType v, v), none, 0, false, false⟩ := by
  by_cases hident : identShape v = true
  · rw [show pvalTokType v = .PARAM from by simp [pvalTokType, hident]]
    exact ruleHit_kw_param hident rest (fun c hc => (delim_notExt hd c hc).1)
  · have hident' : identShape v = false := by simpa using hident
    by_cases hdec : decShape v = true
    · rw [show pvalTokType v = .INT_CONST_DEC from by simp [pvalTokType, hident', hdec]]
      have hw := hdec
      simp only [decShape, Bool.and_eq_true, decide_eq_true_eq] at hw
      obtain ⟨hhead, -⟩ := hw
      match v, hhead with
      | c :: t, hhead =>
        obtain ⟨g1, g2, g3, g4, g5, g6, g7, g8, g9, g10, g11, g12, g13⟩ :=
          decStart_facts hhead
        have hih := initialHit_dec hdec rest hd
        rw [List.cons_append] at hih
        show ruleHit Mode.keywordstate (c :: (t ++ rest)) = _
        simp only [ruleHit,
          matchIdentifier_none g4 _,
          matchContinueRule_none g8 _,
          matchNewlineOne_none g7 _,
          hih]
    · have hdec' : decShape v = false := by simpa using hdec
      have hfl : floatShape v = true := by
        simp only [valShapeOK, hident', hdec', Bool.false_or] at hv
        exact hv
      rw [show pvalTokType v = .FLOAT_CONST from by simp [pvalTokType, hident', hdec']]
      obtain ⟨c, t, hvct, hcd⟩ := floatShape_head hfl
      obtain ⟨k1, k2, k3, k4, k5, k6, k7, k8, k9, k10⟩ := dotdigit_facts hcd
      have hih := initialHit_float hfl rest hd
      rw [hvct] at hih ⊢
      rw [List.cons_append] at hih
      show ruleHit Mode.keywordstate (c :: (t ++ rest)) = _
      simp only [ruleHit,
        matchIdentifier_none k2 _,
        matchContinueRule_none k6 _,
        matchNewlineOne_none k5 _,
        hih]

theorem ruleHit_dl_field {v : List Char} (hv : valShapeOK v = true) (rest : List Char)
    (hd : rest.head? = none ∨ rest.head? = some ',' ∨ rest.head? = some '\n') :
    ruleHit Mode.datalinestate (v ++ rest) =
      some ⟨v.length, some (fieldTokType v, v), none, 0, false, false⟩ := by
  by_cases hident : identShape v = true
  · rw [show fieldTokType v = .ID from by simp [fieldTokType, hident]]
    match v, hident with
    | c :: t, hident =>
      have hsh : (isLetter c || c = '_') = true := by
        simp only [identShape, Bool.and_eq_true] at hident
        exact hident.1
      obtain ⟨f1, f2, f3, f4, f5, f6, f7, f8, f9, f10, f11, f12⟩ := identStart_facts hsh
      have hih := initialHit_ident hident rest hd
      rw [List.cons_append] at hih
      show ruleHit Mode.datalinestate (c :: (t ++ rest)) = _
      simp only [ruleHit, matchNewlineRun_none f5 _, hih]
  · have hident' : identShape v = false := by simpa using hident
    by_cases hdec : decShape v = true
    · rw [show fieldTokType v = .INT_CONST_DEC from by simp [fieldTokType, hident', hdec]]
      have hw := hdec
      simp only [decShape, Bool.and_eq_true, decide_eq_true_eq] at hw
      obtain ⟨hhead, -⟩ := hw
      match v, hhead with
      | c :: t, hhead =>
        obtain ⟨g1, g2, g3, g4, g5, g6, g7, g8, g9, g10, g11, g12, g13⟩ :=
          decStart_facts hhead
        have hih := initialHit_dec hdec rest hd
        rw [List.cons_append] at hih
        show ruleHit Mode.datalinestate (c :: (t ++ rest)) = _
        simp only [ruleHit, matchNewlineRun_none g7 _, hih]
    · have hdec' : decShape v = false := by simpa using hdec
      have hfl : floatShape v = true := by
        simp only [valShapeOK, hident', hdec', Bool.false_or] at hv
        exact hv
      rw [show fieldTokType v = .FLOAT_CONST from by simp [fieldTokType, hident', hdec']]
      obtain ⟨c, t, hvct, hcd⟩ := floatShape_head hfl
      obtain ⟨k1, k2, k3, k4, k5, k6, k7, k8, k9, k10⟩ := dotdigit_facts hcd
      have hih := initialHit_float hfl rest hd
      rw [hvct] at hih ⊢
      rw [List.cons_append] at hih
      show ruleHit Mode.datalinestate (c :: (t ++ rest)) = _
      simp only [ruleHit, matchNewlineRun_none k5 _, hih]

theorem ruleHit_dl_comma (rest : List Char) :
    ruleHit Mode.datalinestate (',' :: rest) =
      some ⟨1, some (.COMMA, [',']), none, 0, false, false⟩ := by
  simp only [ruleHit, matchNewlineRun_none (c := ',') (by decide) rest,
    initialHit_comma rest]

theorem ruleHit_kw_equals (rest : List Char) :
    ruleHit Mode.keywordstate ('=' :: rest) =
      some ⟨1, some (.EQUALS, ['=']), none, 0, false, false⟩ := by
  simp only [ruleHit,
    matchIdentifier_none (c := '=') (by decide) rest,
    matchContinueRule_none (c := '=') (by decide) rest,
    matchNewlineOne_none (c := '=') (by decide) rest,
    initialHit_equals rest]

theorem ruleHit_kw_nl (rest : List Char) :
    ruleHit Mode.keywordstate ('\n' :: rest) =
      some ⟨1, none, none, 1, false, true⟩ := by
  have hone : matchNewlineOne ('\n' :: rest) = some 1 := by
    simp [matchNewlineOne]
  simp only [ruleHit,
    matchIdentifier_none (c := '\n') (by decide) rest,
    matchContinueRule_none (c := '\n') (by decide) rest,
    hone]

theorem ruleHit_dl_lasttok (rest : List Char) (hne : rest.head? ≠ some '\n') :
    ruleHit Mode.datalinestate ('\n' :: rest) =
      some ⟨1, some (.LASTTOKENONLINE, ['\n']), none, 1, false, false⟩ := by
  have hrun : matchNewlineRun ('\n' :: rest) = some 1 := by
    have htw : rest.takeWhile (fun c => c = '\n') = [] := by
      cases rest with
      | nil => rfl
      | cons r0 rr =>
        have : r0 ≠ '\n' := by
          intro he
          exact hne (by simp [he])
        simp [List.takeWhile_cons, this]
    simp [matchNewlineRun, htw]
  simp only [ruleHit, hrun]
  rw [show ('\n' :: rest).take 1 = ['\n'] from by simp]

/-- Value-shape invariant of produced tokens: a `KEYWORD` value is a
marker-stripped keyword name, `PARAM` and `ID` values are identifiers,
an `INT_CONST_DEC` value is a full decimal-constant match not starting
with `0`, and a `FLOAT_CONST` value is a full floating-constant match.
Other token types are unconstrained. -/
def ptokOK : PTok → Bool
  | (.KEYWORD, v) => kwNameShape v
  | (.PARAM, v) => identShape v
  | (.ID, v) => identShape v
  | (.INT_CONST_DEC, v) => decShape v
  | (.FLOAT_CONST, v) => floatShape v
  | _ => true

theorem initialHit_out_ok {rest : List Char} {h : Hit}
    (hh : initialHit rest = some h) :
    ∀ tt v, h.out = some (tt, v) → ptokOK (tt, v) = true := by
  intro tt v hout
  unfold initialHit at hh
  cases h1 : matchKeywordRule rest with
  | some n =>
    rw [h1] at hh
    dsimp only at hh
    have he := Option.some.inj hh
    subst he
    dsimp only at hout
    simp only [Option.some.injEq, Prod.mk.injEq] at hout
    obtain ⟨he1, he2⟩ := hout
    subst he1
    subst he2
    simp only [ptokOK]
    exact (matchKeywordRule_shape h1).2.2
  | none =>
  rw [h1] at hh
  dsimp only at hh
  cases h2 : matchCommentRule rest with
  | some n =>
    rw [h2] at hh
    dsimp only at hh
    have he := Option.some.inj hh
    subst he
    dsimp only at hout
    cases hout
  | none =>
  rw [h2] at hh
  dsimp only at hh
  cases h3 : matchNewlineRun rest with
  | some n =>
    rw [h3] at hh
    dsimp only at hh
    have he := Option.some.inj hh
    subst he
    dsimp only at hout
    cases hout
  | none =>
  rw [h3] at hh
  dsimp only at hh
  cases h4 : matchFloatRule rest with
  | some n =>
    rw [h4] at hh
    dsimp only at hh
    have he := Option.some.inj hh
    subst he
    dsimp only at hout
    simp only [Option.some.injEq, Prod.mk.injEq] at hout
    obtain ⟨he1, he2⟩ := hout
    subst he1
    subst he2
    simp only [ptokOK]
    exact (matchFloatRule_float_shape h4).2
  | none =>
  rw [h4] at hh
  dsimp only at hh
  cases h5 : matchHexRule rest with
  | some n =>
    rw [h5] at hh
    dsimp only at hh
    have he := Option.some.inj hh
    subst he
    dsimp only at hout
    simp only [Option.some.injEq, Prod.mk.injEq] at hout
    obtain ⟨he1, he2⟩ := hout
    subst he1
    subst he2
    rfl
  | none =>
  rw [h5] at hh
  dsimp only at hh
  cases h6 : matchBadOctal rest with
  | some n =>
    rw [h6] at hh
    dsimp only at hh
    have he := Option.some.inj hh
    subst he
    dsimp only at hout
    cases hout
  | none =>
  rw [h6] at hh
  dsimp only at hh
  cases h7 : matchOctal rest with
  | some n =>
    rw [h7] at hh
    dsimp only at hh
    have he := Option.some.inj hh
    subst he
    dsimp only at hout
    simp only [Option.some.injEq, Prod.mk.injEq] at hout
    obtain ⟨he1, he2⟩ := hout
    subst he1
    subst he2
    rfl
  | none =>
  rw [h7] at hh
  dsimp only at hh
  cases h8 : matchDecimal rest with
  | some n =>
    rw [h8] at hh
    dsimp only at hh
    have he := Option.some.inj hh
    subst he
    dsimp only at hout
    simp only [Option.some.injEq, Prod.mk.injEq] at hout
    obtain ⟨he1, he2⟩ := hout
    subst he1
    subst he2
    simp only [ptokOK]
    exact (matchDecimal_shape h8 h7).2.2
  | none =>
  rw [h8] at hh
  dsimp only at hh
  cases h9 : matchCharConstRule rest with
  | some n =>
    rw [h9] at hh
    dsimp only at hh
    have he := Option.some.inj hh
    subst he
    dsimp only at hout
    simp only [Option.some.injEq, Prod.mk.injEq] at hout
    obtain ⟨he1, he2⟩ := hout
    subst he1
    subst he2
    rfl
  | none =>
  rw [h9] at hh
  dsimp only at hh
  cases h10 : matchWCharRule rest with
  | some n =>
    rw [h10] at hh
    dsimp only at hh
    have he := Option.some.inj hh
    subst he
    dsimp only at hout
    simp only [Option.some.injEq, Prod.mk.injEq] at hout
    obtain ⟨he1, he2⟩ := hout
    subst he1
    subst he2
    rfl
  | none =>
  rw [h10] at hh
  dsimp only at hh
  cases h11 : matchUnmatchedQuoteRule rest with
  | some n =>
    rw [h11] at hh
    dsimp only at hh
    have he := Option.some.inj hh
    subst he
    dsimp only at hout
    cases hout
  | none =>
  rw [h11] at hh
  dsimp only at hh
  cases h12 : matchBadCharRule rest with
  | some n =>
    rw [h12] at hh
    dsimp only at hh
    have he := Option.some.inj hh
    subst he
    dsimp only at hout
    cases hout
  | none =>
  rw [h12] at hh
  dsimp only at hh
  cases h13 : matchWStringRule rest with
  | some n =>
    rw [h13] at hh
    dsimp only at hh
    have he := Option.some.inj hh
    subst he
    dsimp only at hout
    simp only [Option.some.injEq, Prod.mk.injEq] at hout
    obtain ⟨he1, he2⟩ := hout
    subst he1
    subst he2
    rfl
  | none =>
  rw [h13] at hh
  dsimp only at hh
  cases h14 : matchBadStringRule rest with
  | some n =>
    rw [h14] at hh
    dsimp only at hh
    have he := Option.some.inj hh
    subst he
    dsimp only at hout
    cases hout
  | none =>
  rw [h14] at hh
  dsimp only at hh
  cases h15 : matchIdentifier rest with
  | some n =>
    rw [h15] at hh
    dsimp only at hh
    have he := Option.some.inj hh
    subst he
    dsimp only at hout
    simp only [Option.some.injEq, Prod.mk.injEq] at hout
    obtain ⟨he1, he2⟩ := hout
    subst he1
    subst he2
    simp only [ptokOK]
    exact (matchIdentifier_shape h15).2.2
  | none =>
  rw [h15] at hh
  dsimp only at hh
  cases h16 : matchStringLitRule rest with
  | some n =>
    rw [h16] at hh
    dsimp only at hh
    have he := Option.some.inj hh
    subst he
    dsimp only at hout
    simp only [Option.some.injEq, Prod.mk.injEq] at hout
    obtain ⟨he1, he2⟩ := hout
    subst he1
    subst he2
    rfl
  | none =>
  rw [h16] at hh
  dsimp only at hh
  split at hh
  · have he := Option.some.inj hh
    subst he
    dsimp only at hout
    simp only [Option.some.injEq, Prod.mk.injEq] at hout
    obtain ⟨he1, he2⟩ := hout
    subst he1
    subst he2
    rfl
  · have he := Option.some.inj hh
    subst he
    dsimp only at hout
    simp only [Option.some.injEq, Prod.mk.injEq] at hout
    obtain ⟨he1, he2⟩ := hout
    subst he1
    subst he2
    rfl
  · have he := Option.some.inj hh
    subst he
    dsimp only at hout
    simp only [Option.some.injEq, Prod.mk.injEq] at hout
    obtain ⟨he1, he2⟩ := hout
    subst he1
    subst he2
    rfl
  · cases hh

theorem ruleHit_out_ok {cur : Mode} {rest : List Char} {h : Hit}
    (hh : ruleHit cur rest = some h) :
    ∀ tt v, h.out = some (tt, v) → ptokOK (tt, v) = true := by
  intro tt v hout
  cases cur with
  | initial => exact initialHit_out_ok hh tt v hout
  | keywordstate =>
    unfold ruleHit at hh
    dsimp only at hh
    cases h1 : matchIdentifier rest with
    | some n =>
      rw [h1] at hh
      dsimp only at hh
      have he := Option.some.inj hh
      subst he
      dsimp only at hout
      simp only [Option.some.injEq, Prod.mk.injEq] at hout
      obtain ⟨he1, he2⟩ := hout
      subst he1
      subst he2
      simp only [ptokOK]
      exact (matchIdentifier_shape h1).2.2
    | none =>
      rw [h1] at hh
      dsimp only at hh
      cases h2 : matchContinueRule rest with
      | some n =>
        rw [h2] at hh
        dsimp only at hh
        have he := Option.some.inj hh
        subst he
        dsimp only at hout
        simp only [Option.some.injEq, Prod.mk.injEq] at hout
        obtain ⟨he1, he2⟩ := hout
        subst he1
        subst he2
        rfl
      | none =>
        rw [h2] at hh
        dsimp only at hh
        cases h3 : matchNewlineOne rest with
        | some n =>
          rw [h3] at hh
          dsimp only at hh
          have he := Option.some.inj hh
          subst he
          dsimp only at hout
          cases hout
        | none =>
          rw [h3] at hh
          dsimp only at hh
          exact initialHit_out_ok hh tt v hout
  | datalinestate =>
    unfold ruleHit at hh
    dsimp only at hh
    cases h1 : matchNewlineRun rest with
    | some n =>
      rw [h1] at hh
      dsimp only at hh
      have he := Option.some.inj hh
      subst he
      dsimp only at hout
      simp only [Option.some.injEq, Prod.mk.injEq] at hout
      obtain ⟨he1, he2⟩ := hout
      subst he1
      subst he2
      rfl
    | none =>
      rw [h1] at hh
      dsimp only at hh
      exact initialHit_out_ok hh tt v hout

theorem runLex_toks_ok : ∀ (n : Nat) (rest : List Char), rest.length ≤ n →
    ∀ (seen : List Char) (cur : Mode) (stk : List Mode) (ln : Nat),
    ∀ t ∈ (runLex seen rest cur stk ln).toks, ptokOK (projTok t) = true := by
  intro n
  induction n with
  | zero =>
    intro rest hle seen cur stk ln t ht
    match rest with
    | [] => cases ht
    | c :: rs => simp at hle
  | succ m ih =>
    intro rest hle seen cur stk ln t ht
    match rest with
    | [] => cases ht
    | c :: rs =>
      simp only [List.length_cons] at hle
      rw [runLex_cons] at ht
      by_cases hc : (decide (c = ' ') || decide (c = '\t')) = true
      · rw [if_pos hc] at ht
        exact ih rs (by omega) _ _ _ _ t ht
      · rw [if_neg hc] at ht
        cases hr : ruleHit cur (c :: rs) with
        | some h =>
          rw [hr] at ht
          dsimp only at ht
          cases hb : h.bad with
          | some k =>
            rw [hb] at ht
            dsimp only at ht
            exact ih (rs.drop h.len) (by simp only [List.length_drop]; omega)
              _ _ _ _ t ht
          | none =>
            rw [hb] at ht
            dsimp only at ht
            rw [List.mem_append] at ht
            rcases ht with ht | ht
            · cases ho : h.out with
              | some tv =>
                obtain ⟨tt, v⟩ := tv
                rw [ho] at ht
                dsimp only at ht
                simp only [List.mem_singleton] at ht
                subst ht
                exact ruleHit_out_ok hr tt v ho
              | none =>
                rw [ho] at ht
                cases ht
            · exact ih (rs.drop (h.len - 1)) (by simp only [List.length_drop]; omega)
                _ _ _ _ t ht
        | none =>
          rw [hr] at ht
          dsimp only at ht
          exact ih rs (by omega) _ _ _ _ t ht

/-- Scan output up to what the parse consumes: diagnostic kinds, token
types and values, and the final mode and stack — no columns, offsets or
line numbers. -/
structure KOut where
  dk : List DiagKind
  pt : List PTok
  cur : Mode
  stk : List Mode
deriving DecidableEq, Repr

/-- Project a scan result to its parse-relevant part. -/
def projK (o : LexOut) : KOut :=
  ⟨o.diags.map (fun d => d.kind), o.toks.map projTok, o.cur, o.stk⟩

/-- The parse-relevant part of the scan of `rest`, which depends only on
`rest` and the starting mode and stack (`runLex_projK`). -/
def scanK (rest : List Char) (cur : Mode) (stk : List Mode) : KOut :=
  projK (runLex [] rest cur stk 1)

theorem scanK_nil (cur : Mode) (stk : List Mode) :
    scanK [] cur stk = ⟨[], [], cur, stk⟩ := rfl

theorem runLex_projK : ∀ (n : Nat) (rest : List Char), rest.length ≤ n →
    ∀ (seen : List Char) (cur : Mode) (stk : List Mode) (ln : Nat),
    projK (runLex seen rest cur stk ln) = scanK rest cur stk := by
  intro n
  induction n using Nat.strong_induction_on with
  | _ n ih =>
    intro rest hle seen cur stk ln
    match rest with
    | [] => rfl
    | c :: rs =>
      simp only [List.length_cons] at hle
      show projK (runLex seen (c :: rs) cur stk ln) =
        projK (runLex [] (c :: rs) cur stk 1)
      rw [runLex_cons seen, runLex_cons []]
      by_cases hc : (decide (c = ' ') || decide (c = '\t')) = true
      · rw [if_pos hc, if_pos hc]
        rw [ih rs.length (by omega) rs (le_refl _) (c :: seen) cur stk ln,
          ih rs.length (by omega) rs (le_refl _) [c] cur stk 1]
      · rw [if_neg hc, if_neg hc]
        cases hr : ruleHit cur (c :: rs) with
        | some h =>
          cases hb : h.bad with
          | some k =>
            have e1 := ih rs.length (by omega) (rs.drop h.len) (by simp)
              (((c :: rs).take (h.len + 1)).reverse ++ seen) cur stk (ln + h.nlcnt)
            have e2 := ih rs.length (by omega) (rs.drop h.len) (by simp)
              (((c :: rs).take (h.len + 1)).reverse ++ []) cur stk (1 + h.nlcnt)
            have e := e1.trans e2.symm
            simp only [projK, KOut.mk.injEq] at e
            obtain ⟨q1, q2, q3, q4⟩ := e
            simp only [hb, projK, List.map_cons, KOut.mk.injEq, List.cons.injEq]
            exact ⟨⟨trivial, q1⟩, q2, q3, q4⟩
          | none =>
            have e1 := ih rs.length (by omega) (rs.drop (h.len - 1)) (by simp)
              (((c :: rs).take h.len).reverse ++ seen)
              (if h.doPush then Mode.keywordstate
               else if h.doSwap then Mode.datalinestate else cur)
              (if h.doPush then cur :: stk else stk) (ln + h.nlcnt)
            have e2 := ih rs.length (by omega) (rs.drop (h.len - 1)) (by simp)
              (((c :: rs).take h.len).reverse ++ [])
              (if h.doPush then Mode.keywordstate
               else if h.doSwap then Mode.datalinestate else cur)
              (if h.doPush then cur :: stk else stk) (1 + h.nlcnt)
            have e := e1.trans e2.symm
            simp only [projK, KOut.mk.injEq] at e
            obtain ⟨q1, q2, q3, q4⟩ := e
            cases ho : h.out with
            | some tv =>
              obtain ⟨tt, v⟩ := tv
              simp only [hb, ho, projK, List.map_append, List.map_cons, List.map_nil,
                projTok, KOut.mk.injEq]
              exact ⟨q1, by rw [q2], q3, q4⟩
            | none =>
              simp only [hb, ho, projK, List.nil_append, KOut.mk.injEq]
              exact ⟨q1, q2, q3, q4⟩
        | none =>
          have e1 := ih rs.length (by omega) rs (le_refl _) (c :: seen) cur stk ln
          have e2 := ih rs.length (by omega) rs (le_refl _) (c :: []) cur stk 1
          have e := e1.trans e2.symm
          simp only [projK, KOut.mk.injEq] at e
          obtain ⟨q1, q2, q3, q4⟩ := e
          simp only [projK, List.map_cons, KOut.mk.injEq, List.cons.injEq]
          exact ⟨⟨trivial, q1⟩, q2, q3, q4⟩

/-- Prepend a rule's optional token output to a projected scan result. -/
def konsTok (out : Option PTok) (o : KOut) : KOut :=
  ⟨o.dk, (match out with | some tv => [tv] | none => []) ++ o.pt, o.cur, o.stk⟩

theorem scanK_tok (c : Char) (rs : List Char) (cur : Mode) (stk : List Mode)
    (h : Hit)
    (hc : (decide (c = ' ') || decide (c = '\t')) = false)
    (hr : ruleHit cur (c :: rs) = some h) (hb : h.bad = none) :
    scanK (c :: rs) cur stk =
      konsTok h.out (scanK (rs.drop (h.len - 1))
        (if h.doPush then Mode.keywordstate
         else if h.doSwap then Mode.datalinestate else cur)
        (if h.doPush then cur :: stk else stk)) := by
  have hcp : ¬((decide (c = ' ') || decide (c = '\t')) = true) := by
    rw [hc]
    simp
  show projK (runLex [] (c :: rs) cur stk 1) = _
  rw [runLex_cons, if_neg hcp, hr]
  dsimp only
  rw [hb]
  dsimp only
  have e := runLex_projK (rs.drop (h.len - 1)).length (rs.drop (h.len - 1))
    (le_refl _) (((c :: rs).take h.len).reverse ++ [])
    (if h.doPush then Mode.keywordstate
     else if h.doSwap then Mode.datalinestate else cur)
    (if h.doPush then cur :: stk else stk) (1 + h.nlcnt)
  cases ho : h.out with
  | some tv =>
    obtain ⟨tt, v⟩ := tv
    dsimp only
    rw [← e]
    simp [projK, konsTok, projTok]
  | none =>
    dsimp only
    rw [← e]
    simp [projK, konsTok]

theorem identShape_head {v : List Char} (hv : identShape v = true) :
    ∃ c t, v = c :: t ∧ (isLetter c || c = '_') = true := by
  match v with
  | [] => cases hv
  | c :: t =>
    simp only [identShape, Bool.and_eq_true] at hv
    exact ⟨c, t, rfl, hv.1⟩

theorem kwNameShape_head {v : List Char} (hv : kwNameShape v = true) :
    ∃ c t, v = c :: t ∧ (isLetter c || c = '_') = true := by
  match v with
  | [] => cases hv
  | c :: t =>
    simp only [kwNameShape, Bool.and_eq_true] at hv
    exact ⟨c, t, rfl, by simp [hv.1]⟩

theorem decShape_head {v : List Char} (hv : decShape v = true) :
    ∃ c t, v = c :: t ∧ ('1' ≤ c && c ≤ '9') = true := by
  match v with
  | [] => simp [decShape] at hv
  | c :: t =>
    simp only [decShape, Bool.and_eq_true] at hv
    exact ⟨c, t, rfl, by simp only [Bool.and_eq_true]; exact hv.1⟩

theorem valShapeOK_head {v : List Char} (hv : valShapeOK v = true) :
    ∃ c t, v = c :: t ∧ (decide (c = ' ') || decide (c = '\t')) = false ∧ c ≠ '\n' := by
  simp only [valShapeOK, Bool.or_eq_true] at hv
  rcases hv with (hid | hdec) | hfl
  · obtain ⟨c, t, rfl, hc⟩ := identShape_head hid
    obtain ⟨f1, f2, f3, f4, f5, f6, f7, f8, f9, f10, f11, f12⟩ := identStart_facts hc
    refine ⟨c, t, rfl, ?_, f5⟩
    simp only [Bool.or_eq_false_iff, decide_eq_false_iff_not]
    exact ⟨f3, f4⟩
  · obtain ⟨c, t, rfl, hc⟩ := decShape_head hdec
    obtain ⟨g1, g2, g3, g4, g5, g6, g7, g8, g9, g10, g11, g12, g13⟩ := decStart_facts hc
    refine ⟨c, t, rfl, ?_, g7⟩
    simp only [Bool.or_eq_false_iff, decide_eq_false_iff_not]
    exact ⟨g5, g6⟩
  · obtain ⟨c, t, rfl, hc⟩ := floatShape_head hfl
    obtain ⟨k1, k2, k3, k4, k5, k6, k7, k8, k9, k10⟩ := dotdigit_facts hc
    refine ⟨c, t, rfl, ?_, k5⟩
    simp only [Bool.or_eq_false_iff, decide_eq_false_iff_not]
    exact ⟨k3, k4⟩

/-- Prepend a token list to a projected scan result. -/
def konsList (ts : List PTok) (o : KOut) : KOut :=
  ⟨o.dk, ts ++ o.pt, o.cur, o.stk⟩

theorem konsList_konsList (a b : List PTok) (o : KOut) :
    konsList a (konsList b o) = konsList (a ++ b) o := by
  simp [konsList]

theorem konsTok_some (tv : PTok) (o : KOut) :
    konsTok (some tv) o = konsList [tv] o := rfl

theorem scanK_header (nm rest : List Char) (stk : List Mode)
    (hnm : kwNameShape nm = true)
    (hd : rest.head? = none ∨ rest.head? = some ',' ∨ rest.head? = some '\n') :
    scanK ('*' :: (nm ++ rest)) Mode.initial stk =
      konsList [(.KEYWORD, nm)] (scanK rest Mode.keywordstate (Mode.initial :: stk)) := by
  have hr := ruleHit_emit_kw hnm rest hd
  rw [List.cons_append] at hr
  rw [scanK_tok '*' (nm ++ rest) Mode.initial stk _ (by decide) hr rfl]
  simp [konsTok, konsList, Nat.add_sub_cancel, List.drop_left]

theorem scanK_kw_pname (nm rest : List Char) (stk : List Mode)
    (hnm : identShape nm = true)
    (hd : ∀ c, rest.head? = some c → isIdentChar c = false) :
    scanK (nm ++ rest) Mode.keywordstate stk =
      konsList [(.PARAM, nm)] (scanK rest Mode.keywordstate stk) := by
  obtain ⟨c, t, rfl, hc⟩ := identShape_head hnm
  obtain ⟨f1, f2, f3, f4, f5, f6, f7, f8, f9, f10, f11, f12⟩ := identStart_facts hc
  have hsp : (decide (c = ' ') || decide (c = '\t')) = false := by
    simp only [Bool.or_eq_false_iff, decide_eq_false_iff_not]
    exact ⟨f3, f4⟩
  have hr := ruleHit_kw_param hnm rest hd
  rw [List.cons_append] at hr
  rw [List.cons_append, scanK_tok c (t ++ rest) Mode.keywordstate stk _ hsp hr rfl]
  simp [konsTok, konsList, List.drop_left]

theorem scanK_kw_value (v rest : List Char) (stk : List Mode)
    (hv : valShapeOK v = true)
    (hd : rest.head? = none ∨ rest.head? = some ',' ∨ rest.head? = some '\n') :
    scanK (v ++ rest) Mode.keywordstate stk =
      konsList [(pvalTokType v, v)] (scanK rest Mode.keywordstate stk) := by
  obtain ⟨c, t, hvct, hsp, -⟩ := valShapeOK_head hv
  have hr := ruleHit_kw_value hv rest hd
  rw [hvct] at hr ⊢
  rw [List.cons_append] at hr
  rw [List.cons_append, scanK_tok c (t ++ rest) Mode.keywordstate stk _ hsp hr rfl]
  simp [konsTok, konsList, List.drop_left]

theorem scanK_dl_field (v rest : List Char) (stk : List Mode)
    (hv : valShapeOK v = true)
    (hd : rest.head? = none ∨ rest.head? = some ',' ∨ rest.head? = some '\n') :
    scanK (v ++ rest) Mode.datalinestate stk =
      konsList [(fieldTokType v, v)] (scanK rest Mode.datalinestate stk) := by
  obtain ⟨c, t, hvct, hsp, -⟩ := valShapeOK_head hv
  have hr := ruleHit_dl_field hv rest hd
  rw [hvct] at hr ⊢
  rw [List.cons_append] at hr
  rw [List.cons_append, scanK_tok c (t ++ rest) Mode.datalinestate stk _ hsp hr rfl]
  simp [konsTok, konsList, List.drop_left]

theorem scanK_kw_comma (rest : List Char) (stk : List Mode)
    (hne : rest.head? ≠ some '\n') :
    scanK (',' :: rest) Mode.keywordstate stk =
      konsList [(.COMMA, [','])] (scanK rest Mode.keywordstate stk) := by
  rw [scanK_tok ',' rest Mode.keywordstate stk _ (by decide)
    (ruleHit_kw_comma rest hne) rfl]
  simp [konsTok, konsList]

theorem scanK_kw_equals (rest : List Char) (stk : List Mode) :
    scanK ('=' :: rest) Mode.keywordstate stk =
      konsList [(.EQUALS, ['='])] (scanK rest Mode.keywordstate stk) := by
  rw [scanK_tok '=' rest Mode.keywordstate stk _ (by decide)
    (ruleHit_kw_equals rest) rfl]
  simp [konsTok, konsList]

theorem scanK_kw_nl (rest : List Char) (stk : List Mode) :
    scanK ('\n' :: rest) Mode.keywordstate stk =
      scanK rest Mode.datalinestate stk := by
  rw [scanK_tok '\n' rest Mode.keywordstate stk _ (by decide)
    (ruleHit_kw_nl rest) rfl]
  rfl

theorem scanK_dl_comma (rest : List Char) (stk : List Mode) :
    scanK (',' :: rest) Mode.datalinestate stk =
      konsList [(.COMMA, [','])] (scanK rest Mode.datalinestate stk) := by
  rw [scanK_tok ',' rest Mode.datalinestate stk _ (by decide)
    (ruleHit_dl_comma rest) rfl]
  simp [konsTok, konsList]

theorem scanK_dl_nl (rest : List Char) (stk : List Mode)
    (hne : rest.head? ≠ some '\n') :
    scanK ('\n' :: rest) Mode.datalinestate stk =
      konsList [(.LASTTOKENONLINE, ['\n'])] (scanK rest Mode.datalinestate stk) := by
  rw [scanK_tok '\n' rest Mode.datalinestate stk _ (by decide)
    (ruleHit_dl_lasttok rest hne) rfl]
  simp [konsTok, konsList]

/-- Shape of a parameter a successful parse can produce: an identifier
name and, when present, a value of one of the shapes the scanner attaches
to `PARAM`, `INT_CONST_DEC` and `FLOAT_CONST` tokens. -/
def goodParam (p : Parameter) : Prop :=
  identShape p.name = true ∧ ∀ v, p.value = some v → valShapeOK v = true

/-- Shape of a data line a successful parse can produce: at least one
field, each of a scanner value-token shape. -/
def goodLine (l : List (List Char)) : Prop :=
  l ≠ [] ∧ ∀ f ∈ l, valShapeOK f = true

/-- Shape of a Keyword a successful parse can produce. -/
def goodKw (k : Keyword) : Prop :=
  kwNameShape k.keyword = true ∧
  (∀ ps, k.params = some ps → ps ≠ [] ∧ ∀ p ∈ ps, goodParam p) ∧
  (∀ ds, k.data = some ds → ds ≠ [] ∧ ∀ l ∈ ds, goodLine l)

theorem scanK_emitParam (p : Parameter) (rest : List Char) (stk : List Mode)
    (hg : goodParam p)
    (hd : rest.head? = some ',' ∨ rest.head? = some '\n') :
    scanK (emitParam p ++ rest) Mode.keywordstate stk =
      konsList (paramToks p) (scanK rest Mode.keywordstate stk) := by
  obtain ⟨hgn, hgv⟩ := hg
  have hdrop : ∀ c, rest.head? = some c → isIdentChar c = false := by
    intro c hc
    rcases hd with h | h <;> rw [hc] at h <;>
      simp only [Option.some.injEq] at h <;> subst h <;> decide
  have hddl : rest.head? = none ∨ rest.head? = some ',' ∨ rest.head? = some '\n' :=
    Or.inr hd
  cases hval : p.value with
  | none =>
    simp only [emitParam, hval, paramToks]
    rw [scanK_kw_pname p.name rest stk hgn hdrop]
  | some v =>
    simp only [emitParam, hval, paramToks]
    rw [List.append_assoc, List.cons_append]
    rw [scanK_kw_pname p.name ('=' :: (v ++ rest)) stk hgn (by
      intro c hc
      simp only [List.head?_cons, Option.some.injEq] at hc
      subst hc
      decide)]
    rw [scanK_kw_equals (v ++ rest) stk]
    rw [scanK_kw_value v rest stk (hgv v hval) hddl]
    rw [konsList_konsList, konsList_konsList]
    rfl

theorem emitParam_cons (p : Parameter) (hgn : identShape p.name = true) :
    ∃ c w, emitParam p = c :: w ∧ (isLetter c || c = '_') = true := by
  obtain ⟨c, t, hname, hcl⟩ := identShape_head hgn
  cases hval : p.value with
  | none => exact ⟨c, t, by simp [emitParam, hval, hname], hcl⟩
  | some v => exact ⟨c, t ++ '=' :: v, by simp [emitParam, hval, hname], hcl⟩

theorem scanK_emitParams (ps : List Parameter) (rest : List Char) (stk : List Mode)
    (hg : ∀ p ∈ ps, goodParam p)
    (hd : rest.head? = some '\n') :
    scanK (emitParams ps ++ rest) Mode.keywordstate stk =
      konsList (paramsToks ps) (scanK rest Mode.keywordstate stk) := by
  induction ps with
  | nil =>
    simp only [emitParams, paramsToks, List.nil_append]
    rfl
  | cons p ps ih =>
    have hgp : goodParam p := hg p (by simp)
    have hgps : ∀ q ∈ ps, goodParam q := fun q hq => hg q (by simp [hq])
    obtain ⟨c, w, hpw, hcl⟩ := emitParam_cons p hgp.1
    obtain ⟨f1, f2, f3, f4, f5, f6, f7, f8, f9, f10, f11, f12⟩ := identStart_facts hcl
    simp only [emitParams, paramsToks]
    rw [List.cons_append, List.append_assoc]
    rw [scanK_kw_comma (emitParam p ++ (emitParams ps ++ rest)) stk (by
      rw [hpw]
      simp only [List.cons_append, List.head?_cons]
      intro hcon
      simp only [Option.some.injEq] at hcon
      exact f5 hcon)]
    have hd2 : (emitParams ps ++ rest).head? = some ',' ∨
        (emitParams ps ++ rest).head? = some '\n' := by
      cases ps with
      | nil => right; simpa [emitParams] using hd
      | cons q qs => left; simp [emitParams]
    rw [scanK_emitParam p (emitParams ps ++ rest) stk hgp hd2]
    rw [ih hgps]
    rw [konsList_konsList, konsList_konsList]
    rfl

theorem scanK_emitFields (l : List (List Char)) (rest : List Char) (stk : List Mode)
    (hg : ∀ f ∈ l, valShapeOK f = true)
    (hd : rest.head? = some '\n') :
    scanK (emitFields l ++ rest) Mode.datalinestate stk =
      konsList (fieldsToks l) (scanK rest Mode.datalinestate stk) := by
  induction l with
  | nil =>
    simp only [emitFields, fieldsToks, List.nil_append]
    rfl
  | cons f fs ih =>
    cases fs with
    | nil =>
      simp only [emitFields, fieldsToks]
      exact scanK_dl_field f rest stk (hg f (by simp)) (Or.inr (Or.inr hd))
    | cons f2 fs2 =>
      simp only [emitFields, fieldsToks]
      rw [List.append_assoc, List.cons_append]
      rw [scanK_dl_field f (',' :: (emitFields (f2 :: fs2) ++ rest)) stk
        (hg f (by simp)) (Or.inr (Or.inl (by simp)))]
      rw [scanK_dl_comma (emitFields (f2 :: fs2) ++ rest) stk]
      rw [ih (fun g hgm => hg g (by simp [hgm]))]
      rw [konsList_konsList, konsList_konsList]
      rfl

theorem emitLines_head_ne_nl (ls : List (List (List Char)))
    (hg : ∀ l ∈ ls, goodLine l) :
    (emitLines ls).head? ≠ some '\n' := by
  cases ls with
  | nil => simp [emitLines]
  | cons l ls2 =>
    obtain ⟨hne, hf⟩ := hg l (by simp)
    match l, hne with
    | f :: fs, _ =>
      have hfs := hf f (by simp)
      obtain ⟨c, t, hfc, -, hcnl⟩ := valShapeOK_head hfs
      cases fs with
      | nil =>
        simp only [emitLines, emitFields, hfc, List.cons_append, List.head?_cons]
        simp [hcnl]
      | cons f2 fs2 =>
        simp only [emitLines, emitFields, hfc, List.cons_append, List.append_assoc,
          List.head?_cons]
        simp [hcnl]

theorem scanK_emitLines (ls : List (List (List Char))) (stk : List Mode)
    (hg : ∀ l ∈ ls, goodLine l) :
    scanK (emitLines ls) Mode.datalinestate stk =
      ⟨[], linesToks ls, Mode.datalinestate, stk⟩ := by
  induction ls with
  | nil => rfl
  | cons l ls2 ih =>
    obtain ⟨hne, hf⟩ := hg l (by simp)
    simp only [emitLines, linesToks]
    rw [scanK_emitFields l ('\n' :: emitLines ls2) stk hf (by simp)]
    rw [scanK_dl_nl (emitLines ls2) stk
      (emitLines_head_ne_nl ls2 (fun q hq => hg q (by simp [hq])))]
    rw [ih (fun q hq => hg q (by simp [hq]))]
    rw [konsList_konsList]
    simp [konsList]

theorem scanK_emit (k : Keyword) (hg : goodKw k) :
    scanK (emit k) Mode.initial [] =
      ⟨[], emitToks k, Mode.datalinestate, [Mode.initial]⟩ := by
  obtain ⟨hname, hps, hds⟩ := hg
  obtain ⟨PS, hPS⟩ : ∃ PS, k.params.getD [] = PS := ⟨_, rfl⟩
  obtain ⟨DS, hDS⟩ : ∃ DS, k.data.getD [] = DS := ⟨_, rfl⟩
  have hgps : ∀ p ∈ PS, goodParam p := by
    rw [← hPS]
    cases hp : k.params with
    | none => simp
    | some ps =>
      simp only [Option.getD_some]
      exact (hps ps hp).2
  have hgds : ∀ l ∈ DS, goodLine l := by
    rw [← hDS]
    cases hdt : k.data with
    | none => simp
    | some ds =>
      simp only [Option.getD_some]
      exact (hds ds hdt).2
  show scanK ('*' :: (k.keyword ++ emitParams (k.params.getD []) ++
      '\n' :: emitLines (k.data.getD []))) Mode.initial [] =
    ⟨[], (.KEYWORD, k.keyword) :: (paramsToks (k.params.getD []) ++
      linesToks (k.data.getD [])), Mode.datalinestate, [Mode.initial]⟩
  rw [hPS, hDS, List.append_assoc]
  have hdm : (emitParams PS ++ '\n' :: emitLines DS).head? = none ∨
      (emitParams PS ++ '\n' :: emitLines DS).head? = some ',' ∨
      (emitParams PS ++ '\n' :: emitLines DS).head? = some '\n' := by
    cases PS with
    | nil => right; right; simp [emitParams]
    | cons q qs => right; left; simp [emitParams]
  rw [scanK_header k.keyword (emitParams PS ++ '\n' :: emitLines DS) [] hname hdm]
  rw [scanK_emitParams PS ('\n' :: emitLines DS) [Mode.initial] hgps (by simp)]
  rw [scanK_kw_nl]
  rw [scanK_emitLines DS [Mode.initial] hgds]
  rw [konsList_konsList]
  simp [konsList]

theorem valueTok_shape {tt : TokType} {v : List Char} (hval : isValueTok tt = true)
    (hok : ptokOK (tt, v) = true) : valShapeOK v = true := by
  cases tt <;>
    first
    | exact absurd hval (by decide)
    | (simp only [ptokOK] at hok
       simp [valShapeOK, hok])

theorem dataTok_shape {tt : TokType} {v : List Char} (hval : isDataTok tt = true)
    (hok : ptokOK (tt, v) = true) : valShapeOK v = true := by
  cases tt <;>
    first
    | exact absurd hval (by decide)
    | (simp only [ptokOK] at hok
       simp [valShapeOK, hok])

theorem parseParam_good {ts : List PTok} {p : Parameter} {r : List PTok}
    (h : parseParam ts = .ok (p, r)) (hok : ∀ t ∈ ts, ptokOK t = true) :
    goodParam p ∧ ∀ t ∈ r, ptokOK t = true := by
  unfold parseParam at h
  split at h
  · next n u tt v rest2 =>
    split at h
    · next hval =>
      simp only [Except.ok.injEq, Prod.mk.injEq] at h
      obtain ⟨rfl, rfl⟩ := h
      refine ⟨⟨?_, ?_⟩, fun t ht => hok t (by simp [ht])⟩
      · have := hok (.PARAM, n) (by simp)
        simpa [ptokOK] using this
      · intro w hw
        simp only [Option.some.injEq] at hw
        subst hw
        exact valueTok_shape hval (hok (tt, v) (by simp))
    · cases h
  · cases h
  · next n rest hg1 hg2 =>
    simp only [Except.ok.injEq, Prod.mk.injEq] at h
    obtain ⟨rfl, rfl⟩ := h
    refine ⟨⟨?_, ?_⟩, fun t ht => hok t (by simp [ht])⟩
    · have := hok (.PARAM, n) (by simp)
      simpa [ptokOK] using this
    · intro w hw
      cases hw
  · cases h

theorem parseParamListAuxF_good {ps : List Parameter} {r : List PTok} :
    ∀ {f : Nat} {acc : List Parameter} {ts : List PTok},
    parseParamListAuxF f acc ts = .ok (ps, r) →
    (∀ t ∈ ts, ptokOK t = true) → (∀ p ∈ acc, goodParam p) →
    (∀ p ∈ ps, goodParam p) ∧ ∀ t ∈ r, ptokOK t = true := by
  intro f
  induction f with
  | zero =>
    intro acc ts h hok hacc
    simp only [parseParamListAuxF, Except.ok.injEq, Prod.mk.injEq] at h
    obtain ⟨rfl, rfl⟩ := h
    exact ⟨hacc, hok⟩
  | succ g ih =>
    intro acc ts h hok hacc
    match ts with
    | [] =>
      simp only [parseParamListAuxF, Except.ok.injEq, Prod.mk.injEq] at h
      obtain ⟨rfl, rfl⟩ := h
      exact ⟨hacc, hok⟩
    | (tt, v) :: rest =>
      cases htt : decide (tt = TokType.COMMA) with
      | true =>
        simp only [decide_eq_true_eq] at htt
        subst htt
        simp only [parseParamListAuxF] at h
        cases hp : parseParam rest with
        | ok pr =>
          obtain ⟨p, r2⟩ := pr
          rw [hp] at h
          dsimp only at h
          have hrest : ∀ t ∈ rest, ptokOK t = true := fun t ht => hok t (by simp [ht])
          obtain ⟨hgp, hr2⟩ := parseParam_good hp hrest
          refine ih h hr2 ?_
          intro q hq
          rw [List.mem_append] at hq
          rcases hq with hq | hq
          · exact hacc q hq
          · simp only [List.mem_singleton] at hq
            subst hq
            exact hgp
        | error e =>
          rw [hp] at h
          cases h
      | false =>
        simp only [decide_eq_false_iff_not] at htt
        have hts : parseParamListAuxF (g + 1) acc ((tt, v) :: rest) =
            .ok (acc, (tt, v) :: rest) := by
          cases tt <;> first | exact absurd rfl htt | rfl
        rw [hts] at h
        simp only [Except.ok.injEq, Prod.mk.injEq] at h
        obtain ⟨rfl, rfl⟩ := h
        exact ⟨hacc, hok⟩

theorem parseParamList_good {ts : List PTok} {ps : List Parameter} {r : List PTok}
    (h : parseParamList ts = .ok (ps, r)) (hok : ∀ t ∈ ts, ptokOK t = true) :
    (∀ p ∈ ps, goodParam p) ∧ ∀ t ∈ r, ptokOK t = true := by
  unfold parseParamList at h
  split at h
  · next p r1 hp =>
    obtain ⟨hgp, hr1⟩ := parseParam_good hp hok
    refine parseParamListAuxF_good h hr1 ?_
    intro q hq
    simp only [List.mem_singleton] at hq
    subst hq
    exact hgp
  · cases h

theorem parseData_good {ts : List PTok} {d : List Char} {r : List PTok}
    (h : parseData ts = .ok (d, r)) (hok : ∀ t ∈ ts, ptokOK t = true) :
    valShapeOK d = true ∧ ∀ t ∈ r, ptokOK t = true := by
  unfold parseData at h
  split at h
  · next tt v rest =>
    split at h
    · next hdt =>
      simp only [Except.ok.injEq, Prod.mk.injEq] at h
      obtain ⟨rfl, rfl⟩ := h
      exact ⟨dataTok_shape hdt (hok (tt, v) (by simp)),
        fun t ht => hok t (by simp [ht])⟩
    · cases h
  · cases h

theorem parseDataListAuxF_ne_nil {xs : List (List Char)} {r : List PTok} :
    ∀ {f : Nat} {acc : List (List Char)} {ts : List PTok}, acc ≠ [] →
    parseDataListAuxF f acc ts = .ok (xs, r) → xs ≠ [] := by
  intro f
  induction f with
  | zero =>
    intro acc ts hacc h
    simp only [parseDataListAuxF, Except.ok.injEq, Prod.mk.injEq] at h
    exact h.1 ▸ hacc
  | succ g ih =>
    intro acc ts hacc h
    match ts with
    | [] =>
      simp only [parseDataListAuxF, Except.ok.injEq, Prod.mk.injEq] at h
      exact h.1 ▸ hacc
    | (tt, v) :: rest =>
      cases htt : decide (tt = TokType.COMMA) with
      | true =>
        simp only [decide_eq_true_eq] at htt
        subst htt
        simp only [parseDataListAuxF] at h
        cases hp : parseData rest with
        | ok pr =>
          obtain ⟨d, r2⟩ := pr
          rw [hp] at h
          exact ih (by simp) h
        | error e =>
          rw [hp] at h
          cases h
      | false =>
        simp only [decide_eq_false_iff_not] at htt
        by_cases hdt : isDataTok tt = true
        · have hts : parseDataListAuxF (g + 1) acc ((tt, v) :: rest) =
              parseDataListAuxF g (acc ++ [v]) rest := by
            cases tt <;>
              first
              | exact absurd rfl htt
              | exact absurd hdt (by decide)
              | (simp [parseDataListAuxF, isDataTok])
          rw [hts] at h
          exact ih (by simp) h
        · have hts : parseDataListAuxF (g + 1) acc ((tt, v) :: rest) =
              .ok (acc, (tt, v) :: rest) := by
            cases tt <;>
              first
              | exact absurd rfl htt
              | exact absurd (by decide) hdt
              | (simp [parseDataListAuxF, isDataTok])
          rw [hts] at h
          simp only [Except.ok.injEq, Prod.mk.injEq] at h
          exact h.1 ▸ hacc

theorem parseDataListAuxF_good {xs : List (List Char)} {r : List PTok} :
    ∀ {f : Nat} {acc : List (List Char)} {ts : List PTok},
    parseDataListAuxF f acc ts = .ok (xs, r) →
    (∀ t ∈ ts, ptokOK t = true) → (∀ d ∈ acc, valShapeOK d = true) →
    (∀ d ∈ xs, valShapeOK d = true) ∧ ∀ t ∈ r, ptokOK t = true := by
  intro f
  induction f with
  | zero =>
    intro acc ts h hok hacc
    simp only [parseDataListAuxF, Except.ok.injEq, Prod.mk.injEq] at h
    obtain ⟨rfl, rfl⟩ := h
    exact ⟨hacc, hok⟩
  | succ g ih =>
    intro acc ts h hok hacc
    match ts with
    | [] =>
      simp only [parseDataListAuxF, Except.ok.injEq, Prod.mk.injEq] at h
      obtain ⟨rfl, rfl⟩ := h
      exact ⟨hacc, hok⟩
    | (tt, v) :: rest =>
      cases htt : decide (tt = TokType.COMMA) with
      | true =>
        simp only [decide_eq_true_eq] at htt
        subst htt
        simp only [parseDataListAuxF] at h
        cases hp : parseData rest with
        | ok pr =>
          obtain ⟨d, r2⟩ := pr
          rw [hp] at h
          dsimp only at h
          have hrest : ∀ t ∈ rest, ptokOK t = true := fun t ht => hok t (by simp [ht])
          obtain ⟨hd2, hr2⟩ := parseData_good hp hrest
          refine ih h hr2 ?_
          intro q hq
          rw [List.mem_append] at hq
          rcases hq with hq | hq
          · exact hacc q hq
          · simp only [List.mem_singleton] at hq
            subst hq
            exact hd2
        | error e =>
          rw [hp] at h
          cases h
      | false =>
        simp only [decide_eq_false_iff_not] at htt
        by_cases hdt : isDataTok tt = true
        · have hts : parseDataListAuxF (g + 1) acc ((tt, v) :: rest) =
              parseDataListAuxF g (acc ++ [v]) rest := by
            cases tt <;>
              first
              | exact absurd rfl htt
              | exact absurd hdt (by decide)
              | (simp [parseDataListAuxF, isDataTok])
          rw [hts] at h
          refine ih h (fun t ht => hok t (by simp [ht])) ?_
          intro q hq
          rw [List.mem_append] at hq
          rcases hq with hq | hq
          · exact hacc q hq
          · simp only [List.mem_singleton] at hq
            subst hq
            exact dataTok_shape hdt (hok (tt, q) (by simp))
        · have hts : parseDataListAuxF (g + 1) acc ((tt, v) :: rest) =
              .ok (acc, (tt, v) :: rest) := by
            cases tt <;>
              first
              | exact absurd rfl htt
              | exact absurd (by decide) hdt
              | (simp [parseDataListAuxF, isDataTok])
          rw [hts] at h
          simp only [Except.ok.injEq, Prod.mk.injEq] at h
          obtain ⟨rfl, rfl⟩ := h
          exact ⟨hacc, hok⟩

theorem parseDataList_good {ts : List PTok} {xs : List (List Char)} {r : List PTok}
    (h : parseDataList ts = .ok (xs, r)) (hok : ∀ t ∈ ts, ptokOK t = true) :
    xs ≠ [] ∧ (∀ d ∈ xs, valShapeOK d = true) ∧ ∀ t ∈ r, ptokOK t = true := by
  unfold parseDataList at h
  split at h
  · next d r1 hp =>
    obtain ⟨hd2, hr1⟩ := parseData_good hp hok
    obtain ⟨hflds, hrest⟩ := parseDataListAuxF_good h hr1 (by
      intro q hq
      simp only [List.mem_singleton] at hq
      subst hq
      exact hd2)
    exact ⟨parseDataListAuxF_ne_nil (by simp) h, hflds, hrest⟩
  · cases h

theorem parseDataLine_good {ts : List PTok} {xs : List (List Char)} {r : List PTok}
    (h : parseDataLine ts = .ok (xs, r)) (hok : ∀ t ∈ ts, ptokOK t = true) :
    goodLine xs ∧ ∀ t ∈ r, ptokOK t = true := by
  unfold parseDataLine at h
  split at h
  · next ys v rest hp =>
    simp only [Except.ok.injEq, Prod.mk.injEq] at h
    obtain ⟨rfl, rfl⟩ := h
    obtain ⟨hne, hflds, hrest⟩ := parseDataList_good hp hok
    exact ⟨⟨hne, hflds⟩, fun t ht => hrest t (by simp [ht])⟩
  · cases h
  · cases h

theorem parseDataLinesAuxF_good {ls : List (List (List Char))} {r : List PTok} :
    ∀ {f : Nat} {acc : List (List (List Char))} {ts : List PTok},
    parseDataLinesAuxF f acc ts = .ok (ls, r) →
    (∀ t ∈ ts, ptokOK t = true) → (∀ l ∈ acc, goodLine l) →
    (∀ l ∈ ls, goodLine l) ∧ ∀ t ∈ r, ptokOK t = true := by
  intro f
  induction f with
  | zero =>
    intro acc ts h hok hacc
    simp only [parseDataLinesAuxF, Except.ok.injEq, Prod.mk.injEq] at h
    obtain ⟨rfl, rfl⟩ := h
    exact ⟨hacc, hok⟩
  | succ g ih =>
    intro acc ts h hok hacc
    rw [parseDataLinesAuxF] at h
    split at h
    · cases hp : parseDataLine ts with
      | ok pr =>
        obtain ⟨l, r2⟩ := pr
        rw [hp] at h
        dsimp only at h
        obtain ⟨hgl, hr2⟩ := parseDataLine_good hp hok
        refine ih h hr2 ?_
        intro q hq
        rw [List.mem_append] at hq
        rcases hq with hq | hq
        · exact hacc q hq
        · simp only [List.mem_singleton] at hq
          subst hq
          exact hgl
      | error e =>
        rw [hp] at h
        cases h
    · simp only [Except.ok.injEq, Prod.mk.injEq] at h
      obtain ⟨rfl, rfl⟩ := h
      exact ⟨hacc, hok⟩

theorem parseDataLines_good {ts : List PTok} {ls : List (List (List Char))}
    {r : List PTok} (h : parseDataLines ts = .ok (ls, r))
    (hok : ∀ t ∈ ts, ptokOK t = true) :
    (∀ l ∈ ls, goodLine l) ∧ ∀ t ∈ r, ptokOK t = true := by
  unfold parseDataLines at h
  split at h
  · next l r1 hp =>
    obtain ⟨hgl, hr1⟩ := parseDataLine_good hp hok
    refine parseDataLinesAuxF_good h hr1 ?_
    intro q hq
    simp only [List.mem_singleton] at hq
    subst hq
    exact hgl
  · cases h

theorem parseKeyword_good {ts : List PTok} {k : Keyword} {r : List PTok}
    (h : parseKeyword ts = .ok (k, r)) (hok : ∀ t ∈ ts, ptokOK t = true) :
    goodKw k ∧ ∀ t ∈ r, ptokOK t = true := by
  unfold parseKeyword at h
  split at h
  · next name rest =>
    have hname : kwNameShape name = true := by
      have := hok (.KEYWORD, name) (by simp)
      simpa [ptokOK] using this
    have hrest : ∀ t ∈ rest, ptokOK t = true := fun t ht => hok t (by simp [ht])
    split at h
    · next v r2 =>
      have hr2 : ∀ t ∈ r2, ptokOK t = true := fun t ht => hrest t (by simp [ht])
      split at h
      · next ps r3 hps =>
        obtain ⟨hgps, hr3⟩ := parseParamList_good hps hr2
        have hpsne : ps ≠ [] := parseParamList_ne_nil hps
        split at h
        · split at h
          · next ds r4 hds =>
            obtain ⟨hgds, hr4⟩ := parseDataLines_good hds hr3
            have hdsne : ds ≠ [] := parseDataLines_ne_nil hds
            simp only [Except.ok.injEq, Prod.mk.injEq] at h
            obtain ⟨rfl, rfl⟩ := h
            refine ⟨⟨hname, ?_, ?_⟩, hr4⟩
            · intro ps' hps'
              simp only [Option.some.injEq] at hps'
              subst hps'
              exact ⟨hpsne, hgps⟩
            · intro ds' hds'
              simp only [Option.some.injEq] at hds'
              subst hds'
              exact ⟨hdsne, hgds⟩
          · cases h
        · split at h
          · simp only [Except.ok.injEq, Prod.mk.injEq] at h
            obtain ⟨rfl, rfl⟩ := h
            refine ⟨⟨hname, ?_, ?_⟩, by simp⟩
            · intro ps' hps'
              simp only [Option.some.injEq] at hps'
              subst hps'
              exact ⟨hpsne, hgps⟩
            · intro ds' hds'
              cases hds'
          · next v2 r4 =>
            simp only [Except.ok.injEq, Prod.mk.injEq] at h
            obtain ⟨rfl, rfl⟩ := h
            refine ⟨⟨hname, ?_, ?_⟩, hr3⟩
            · intro ps' hps'
              simp only [Option.some.injEq] at hps'
              subst hps'
              exact ⟨hpsne, hgps⟩
            · intro ds' hds'
              cases hds'
          · cases h
      · cases h
    · split at h
      · split at h
        · next ds r4 hds =>
          obtain ⟨hgds, hr4⟩ := parseDataLines_good hds hrest
          have hdsne : ds ≠ [] := parseDataLines_ne_nil hds
          simp only [Except.ok.injEq, Prod.mk.injEq] at h
          obtain ⟨rfl, rfl⟩ := h
          refine ⟨⟨hname, ?_, ?_⟩, hr4⟩
          · intro ps' hps'
            cases hps'
          · intro ds' hds'
            simp only [Option.some.injEq] at hds'
            subst hds'
            exact ⟨hdsne, hgds⟩
        · cases h
      · split at h
        · simp only [Except.ok.injEq, Prod.mk.injEq] at h
          obtain ⟨rfl, rfl⟩ := h
          refine ⟨⟨hname, ?_, ?_⟩, by simp⟩
          · intro ps' hps'
            cases hps'
          · intro ds' hds'
            cases hds'
        · next v2 r4 =>
          simp only [Except.ok.injEq, Prod.mk.injEq] at h
          obtain ⟨rfl, rfl⟩ := h
          refine ⟨⟨hname, ?_, ?_⟩, hrest⟩
          · intro ps' hps'
            cases hps'
          · intro ds' hds'
            cases hds'
        · cases h
  · cases h

theorem parseDocAuxF_good {doc : List Keyword} :
    ∀ {f : Nat} {acc : List Keyword} {ts : List PTok},
    parseDocAuxF f acc ts = .ok doc →
    (∀ t ∈ ts, ptokOK t = true) → (∀ k ∈ acc, goodKw k) →
    ∀ k ∈ doc, goodKw k := by
  intro f
  induction f with
  | zero =>
    intro acc ts h hok hacc
    match ts with
    | [] =>
      simp only [parseDocAuxF, Except.ok.injEq] at h
      subst h
      exact hacc
    | t :: rest => simp [parseDocAuxF] at h
  | succ g ih =>
    intro acc ts h hok hacc
    match ts with
    | [] =>
      simp only [parseDocAuxF, Except.ok.injEq] at h
      subst h
      exact hacc
    | (tt, v) :: rest =>
      cases htt : decide (tt = TokType.KEYWORD) with
      | true =>
        simp only [decide_eq_true_eq] at htt
        subst htt
        simp only [parseDocAuxF] at h
        cases hp : parseKeyword ((TokType.KEYWORD, v) :: rest) with
        | ok pr =>
          obtain ⟨k2, r⟩ := pr
          rw [hp] at h
          dsimp only at h
          obtain ⟨hgk, hr⟩ := parseKeyword_good hp hok
          refine ih h hr ?_
          intro q hq
          rw [List.mem_append] at hq
          rcases hq with hq | hq
          · exact hacc q hq
          · simp only [List.mem_singleton] at hq
            subst hq
            exact hgk
        | error e =>
          rw [hp] at h
          cases h
      | false =>
        simp only [decide_eq_false_iff_not] at htt
        have hts : parseDocAuxF (g + 1) acc ((tt, v) :: rest) =
            .error "syntax error" := by
          cases tt <;> first | exact absurd rfl htt | rfl
        rw [hts] at h
        cases h

theorem parseToks_good {ts : List PTok} {doc : List Keyword}
    (h : parseToks ts = .ok doc) (hok : ∀ t ∈ ts, ptokOK t = true) :
    ∀ k ∈ doc, goodKw k := by
  unfold parseToks at h
  split at h
  · cases h
  · split at h
    · next k r hp =>
      obtain ⟨hgk, hr⟩ := parseKeyword_good hp hok
      refine parseDocAuxF_good h hr ?_
      intro q hq
      simp only [List.mem_singleton] at hq
      subst hq
      exact hgk
    · cases h

theorem isValueTok_pvalTokType (v : List Char) : isValueTok (pvalTokType v) = true := by
  unfold pvalTokType
  split_ifs <;> rfl

theorem isDataTok_fieldTokType (v : List Char) : isDataTok (fieldTokType v) = true := by
  unfold fieldTokType
  split_ifs <;> rfl

theorem fieldTokType_ne_comma (v : List Char) : fieldTokType v ≠ TokType.COMMA := by
  unfold fieldTokType
  split_ifs <;> decide

theorem fieldTokType_ne_equals (v : List Char) : fieldTokType v ≠ TokType.EQUALS := by
  unfold fieldTokType
  split_ifs <;> decide

/-- The comma-separated continuation of a data line's token list after
its first field. -/
def fieldsSep : List (List Char) → List PTok
  | [] => []
  | g :: gs => (.COMMA, [',']) :: (fieldTokType g, g) :: fieldsSep gs

theorem fieldsToks_cons (f : List Char) (fs : List (List Char)) :
    fieldsToks (f :: fs) = (fieldTokType f, f) :: fieldsSep fs := by
  induction fs generalizing f with
  | nil => rfl
  | cons g gs ih =>
    simp only [fieldsToks, fieldsSep]
    rw [ih g]

theorem parseParam_emit (p : Parameter) (rest : List PTok)
    (hrest : ∀ u r2, rest ≠ (TokType.EQUALS, u) :: r2) :
    parseParam (paramToks p ++ rest) = .ok (p, rest) := by
  cases hval : p.value with
  | none =>
    simp only [paramToks, hval, List.cons_append, List.nil_append]
    cases rest with
    | nil =>
      rw [show p = (⟨p.name, none⟩ : Parameter) from by rw [← hval]]
      rfl
    | cons t r2 =>
      obtain ⟨tt, u⟩ := t
      rw [show p = (⟨p.name, none⟩ : Parameter) from by rw [← hval]]
      cases tt <;> first | exact absurd rfl (hrest u r2) | rfl
  | some v =>
    simp only [paramToks, hval, List.cons_append, List.nil_append]
    simp only [parseParam, isValueTok_pvalTokType, if_true]
    rw [show p = (⟨p.name, some v⟩ : Parameter) from by rw [← hval]]

theorem parseParamListAux_stop (acc : List Parameter) (ts : List PTok)
    (h : ∀ u r2, ts ≠ (TokType.COMMA, u) :: r2) :
    parseParamListAux acc ts = .ok (acc, ts) := by
  match ts with
  | [] => rfl
  | (tt, u) :: r2 =>
    show parseParamListAuxF (r2.length + 1) acc _ = _
    cases tt <;> first | exact absurd rfl (h u r2) | rfl

theorem parseParamListAux_emit : ∀ (ps : List Parameter) (acc : List Parameter)
    (T : List PTok),
    (∀ tt u r2, T = (tt, u) :: r2 → tt ≠ TokType.COMMA ∧ tt ≠ TokType.EQUALS) →
    parseParamListAux acc (paramsToks ps ++ T) = .ok (acc ++ ps, T) := by
  intro ps
  induction ps with
  | nil =>
    intro acc T hstop
    simp only [paramsToks, List.nil_append, List.append_nil]
    exact parseParamListAux_stop acc T (fun u r2 he => (hstop _ u r2 he).1 rfl)
  | cons p ps ih =>
    intro acc T hstop
    have hform : paramsToks (p :: ps) ++ T =
        (TokType.COMMA, [',']) :: (paramToks p ++ (paramsToks ps ++ T)) := by
      simp [paramsToks, List.append_assoc]
    rw [hform, parseParamListAux_comma]
    have hne : ∀ u r2, paramsToks ps ++ T ≠ (TokType.EQUALS, u) :: r2 := by
      cases ps with
      | nil =>
        simp only [paramsToks, List.nil_append]
        intro u r2 he
        exact (hstop _ u r2 he).2 rfl
      | cons q qs =>
        simp only [paramsToks, List.cons_append]
        intro u r2 he
        simp at he
    rw [parseParam_emit p (paramsToks ps ++ T) hne]
    dsimp only
    rw [ih (acc ++ [p]) T hstop]
    simp [List.append_assoc]

theorem parseParamList_emit (p : Parameter) (ps : List Parameter) (T : List PTok)
    (hstop : ∀ tt u r2, T = (tt, u) :: r2 →
      tt ≠ TokType.COMMA ∧ tt ≠ TokType.EQUALS) :
    parseParamList (paramToks p ++ (paramsToks ps ++ T)) = .ok (p :: ps, T) := by
  have hne : ∀ u r2, paramsToks ps ++ T ≠ (TokType.EQUALS, u) :: r2 := by
    cases ps with
    | nil =>
      simp only [paramsToks, List.nil_append]
      intro u r2 he
      exact (hstop _ u r2 he).2 rfl
    | cons q qs =>
      simp only [paramsToks, List.cons_append]
      intro u r2 he
      simp at he
  unfold parseParamList
  rw [parseParam_emit p (paramsToks ps ++ T) hne]
  dsimp only
  rw [parseParamListAux_emit ps [p] T hstop]
  rfl

theorem parseData_emit (f : List Char) (rest : List PTok) :
    parseData ((fieldTokType f, f) :: rest) = .ok (f, rest) := by
  simp [parseData, isDataTok_fieldTokType]

theorem parseDataListAux_sep : ∀ (fs : List (List Char)) (acc : List (List Char))
    (w : List Char) (rest : List PTok),
    parseDataListAux acc (fieldsSep fs ++ (TokType.LASTTOKENONLINE, w) :: rest) =
      .ok (acc ++ fs, (TokType.LASTTOKENONLINE, w) :: rest) := by
  intro fs
  induction fs with
  | nil =>
    intro acc w rest
    simp only [fieldsSep, List.nil_append, List.append_nil]
    show parseDataListAuxF (rest.length + 1) acc _ = _
    rfl
  | cons g gs ih =>
    intro acc w rest
    simp only [fieldsSep, List.cons_append]
    rw [parseDataListAux_comma]
    rw [parseData_emit g (fieldsSep gs ++ (TokType.LASTTOKENONLINE, w) :: rest)]
    dsimp only
    rw [ih (acc ++ [g]) w rest]
    simp [List.append_assoc]

theorem parseDataList_emit (f : List Char) (fs : List (List Char)) (w : List Char)
    (rest : List PTok) :
    parseDataList (fieldsToks (f :: fs) ++ (TokType.LASTTOKENONLINE, w) :: rest) =
      .ok (f :: fs, (TokType.LASTTOKENONLINE, w) :: rest) := by
  rw [fieldsToks_cons, List.cons_append]
  unfold parseDataList
  rw [parseData_emit f (fieldsSep fs ++ (TokType.LASTTOKENONLINE, w) :: rest)]
  dsimp only
  rw [parseDataListAux_sep fs [f] w rest]
  rfl

theorem parseDataLine_emit (f : List Char) (fs : List (List Char)) (w : List Char)
    (rest : List PTok) :
    parseDataLine (fieldsToks (f :: fs) ++ (TokType.LASTTOKENONLINE, w) :: rest) =
      .ok (f :: fs, rest) := by
  unfold parseDataLine
  rw [parseDataList_emit f fs w rest]

theorem parseDataLinesAux_emit : ∀ (ls : List (List (List Char)))
    (acc : List (List (List Char))), (∀ x ∈ ls, x ≠ []) →
    parseDataLinesAux acc (linesToks ls) = .ok (acc ++ ls, []) := by
  intro ls
  induction ls with
  | nil =>
    intro acc hg
    simp only [linesToks, List.append_nil]
    rfl
  | cons l ls2 ih =>
    intro acc hg
    have hl := hg l (by simp)
    match l, hl with
    | f :: fs, _ =>
      have hhead : headIsData (linesToks ((f :: fs) :: ls2)) = true := by
        simp only [linesToks, fieldsToks_cons, List.cons_append, headIsData]
        exact isDataTok_fieldTokType f
      rw [parseDataLinesAux_step acc _ hhead]
      rw [show linesToks ((f :: fs) :: ls2) = fieldsToks (f :: fs) ++
        (TokType.LASTTOKENONLINE, ['\n']) :: linesToks ls2 from rfl]
      rw [parseDataLine_emit f fs ['\n'] (linesToks ls2)]
      dsimp only
      rw [ih (acc ++ [f :: fs]) (fun x hx => hg x (by simp [hx]))]
      simp [List.append_assoc]

theorem parseDataLines_emit (l : List (List Char)) (ls : List (List (List Char)))
    (hg : ∀ x ∈ l :: ls, x ≠ []) :
    parseDataLines (linesToks (l :: ls)) = .ok (l :: ls, []) := by
  have hl := hg l (by simp)
  match l, hl with
  | f :: fs, _ =>
    unfold parseDataLines
    rw [show linesToks ((f :: fs) :: ls) = fieldsToks (f :: fs) ++
      (TokType.LASTTOKENONLINE, ['\n']) :: linesToks ls from rfl]
    rw [parseDataLine_emit f fs ['\n'] (linesToks ls)]
    dsimp only
    rw [parseDataLinesAux_emit ls [f :: fs] (fun x hx => hg x (by simp [hx]))]
    rfl

theorem parseKeyword_data_entry (nm : List Char) (tt : TokType) (v : List Char)
    (r2 : List PTok) (hdt : isDataTok tt = true) :
    parseKeyword ((.KEYWORD, nm) :: (tt, v) :: r2) =
      match parseDataLines ((tt, v) :: r2) with
      | .ok (ds, r4) => .ok (⟨nm, none, some ds⟩, r4)
      | .error e => .error e := by
  cases tt <;>
    first
    | exact absurd hdt (by decide)
    | (simp [parseKeyword, headIsData, isDataTok])

theorem linesToks_head_stop (ds : List (List (List Char))) (hg : ∀ x ∈ ds, x ≠ []) :
    ∀ tt u r2, linesToks ds = (tt, u) :: r2 →
      tt ≠ TokType.COMMA ∧ tt ≠ TokType.EQUALS := by
  intro tt u r2 he
  cases ds with
  | nil => cases he
  | cons l ls =>
    have hl := hg l (by simp)
    match l, hl with
    | f :: fs, _ =>
      rw [show linesToks ((f :: fs) :: ls) = (fieldTokType f, f) ::
        (fieldsSep fs ++ (TokType.LASTTOKENONLINE, ['\n']) :: linesToks ls) from by
          simp [linesToks, fieldsToks_cons]] at he
      simp only [List.cons.injEq, Prod.mk.injEq] at he
      obtain ⟨⟨rfl, -⟩, -⟩ := he
      exact ⟨fieldTokType_ne_comma f, fieldTokType_ne_equals f⟩

theorem parseKeyword_emit (k : Keyword) (hg : goodKw k) :
    parseKeyword (emitToks k) = .ok (k, []) := by
  obtain ⟨nm, pOpt, dOpt⟩ := k
  obtain ⟨hname, hps, hds⟩ := hg
  cases pOpt with
  | none =>
    cases dOpt with
    | none => rfl
    | some ds =>
      obtain ⟨hdne, hlines⟩ := hds ds rfl
      match ds, hdne with
      | l :: ls, _ =>
        have hlne : ∀ x ∈ l :: ls, x ≠ [] := fun x hx => (hlines x hx).1
        have hl := hlne l (by simp)
        match l, hl with
        | f :: fs, _ =>
          have hform : emitToks ⟨nm, none, some ((f :: fs) :: ls)⟩ =
              (TokType.KEYWORD, nm) :: (fieldTokType f, f) ::
                (fieldsSep fs ++ (TokType.LASTTOKENONLINE, ['\n']) :: linesToks ls) := by
            simp [emitToks, paramsToks, linesToks, fieldsToks_cons]
          rw [hform]
          rw [parseKeyword_data_entry nm (fieldTokType f) f _ (isDataTok_fieldTokType f)]
          rw [show (fieldTokType f, f) :: (fieldsSep fs ++
            (TokType.LASTTOKENONLINE, ['\n']) :: linesToks ls) =
            linesToks ((f :: fs) :: ls) from by simp [linesToks, fieldsToks_cons]]
          rw [parseDataLines_emit (f :: fs) ls hlne]
  | some ps =>
    obtain ⟨hpne, hparams⟩ := hps ps rfl
    match ps, hpne with
    | p :: ps', _ =>
      have hform : emitToks ⟨nm, some (p :: ps'), dOpt⟩ =
          (TokType.KEYWORD, nm) :: (TokType.COMMA, [',']) ::
            (paramToks p ++ (paramsToks ps' ++ linesToks (dOpt.getD []))) := by
        simp [emitToks, paramsToks, List.append_assoc]
      rw [hform]
      cases dOpt with
      | none =>
        have hstop : ∀ tt u r2, linesToks ((none : Option _).getD []) = (tt, u) :: r2 →
            tt ≠ TokType.COMMA ∧ tt ≠ TokType.EQUALS := by
          intro tt u r2 he
          cases he
        simp only [parseKeyword]
        rw [parseParamList_emit p ps' (linesToks ((none : Option _).getD [])) hstop]
        rfl
      | some ds =>
        obtain ⟨hdne, hlines⟩ := hds ds rfl
        match ds, hdne with
        | l :: ls, _ =>
          have hlne : ∀ x ∈ l :: ls, x ≠ [] := fun x hx => (hlines x hx).1
          have hl := hlne l (by simp)
          match l, hl with
          | f :: fs, _ =>
            have hstop := linesToks_head_stop ((f :: fs) :: ls) hlne
            simp only [parseKeyword]
            rw [parseParamList_emit p ps'
              (linesToks ((some ((f :: fs) :: ls)).getD [])) (by
                simpa using hstop)]
            dsimp only
            have hhead : headIsData (linesToks ((f :: fs) :: ls)) = true := by
              simp only [linesToks, fieldsToks_cons, List.cons_append, headIsData]
              exact isDataTok_fieldTokType f
            rw [if_pos (by simpa using hhead)]
            rw [show ((some ((f :: fs) :: ls)).getD []) = (f :: fs) :: ls from rfl]
            rw [parseDataLines_emit (f :: fs) ls hlne]

theorem parseToks_emit (k : Keyword) (hg : goodKw k) :
    parseToks (emitToks k) = .ok [k] := by
  have hne : emitToks k = (TokType.KEYWORD, k.keyword) ::
      (paramsToks (k.params.getD []) ++ linesToks (k.data.getD [])) := rfl
  unfold parseToks
  rw [hne]
  dsimp only
  rw [← hne, parseKeyword_emit k hg]
  rfl

/-- C9: round-trip — for every Keyword obtained from a successful parse,
re-emitting its name as a header, its parameters in order (`name=value`
when a value is present, bare name otherwise) and its data lines one per
line with comma-separated fields, and parsing the emitted text, yields
exactly that Keyword back: the same name, the same parameter sequence
with the same names and raw values, and the same data field sequence per
line (a one-Keyword Document equal to `[k]`). -/
theorem c9_round_trip (s : List Char) (doc : List Keyword) (k : Keyword)
    (hs : parseString s = .ok doc) (hk : k ∈ doc) :
    parseString (emit k) = .ok [k] := by
  unfold parseString parseOn at hs
  dsimp only at hs
  by_cases hdg : (runFrom Mode.initial [] s).diags = []
  · rw [if_pos hdg] at hs
    have hok : ∀ t ∈ (runFrom Mode.initial [] s).toks.map projTok, ptokOK t = true := by
      intro t ht
      rw [List.mem_map] at ht
      obtain ⟨t0, ht0, rfl⟩ := ht
      exact runLex_toks_ok s.length s (le_refl _) [] Mode.initial [] 1 t0 ht0
    have hgk : goodKw k := parseToks_good hs hok k hk
    have hscan : projK (runFrom Mode.initial [] (emit k)) =
        ⟨[], emitToks k, Mode.datalinestate, [Mode.initial]⟩ := scanK_emit k hgk
    simp only [projK, KOut.mk.injEq] at hscan
    obtain ⟨hd0, ht0, -, -⟩ := hscan
    have hdia : (runFrom Mode.initial [] (emit k)).diags = [] := by
      rwa [List.map_eq_nil_iff] at hd0
    unfold parseString parseOn
    dsimp only
    rw [if_pos hdia, ht0]
    exact parseToks_emit k hgk
  · rw [if_neg hdg] at hs
    cases hs

/-- C9 witness: the first Keyword of a concrete successful parse
round-trips through `emit` to the one-element Document holding it. -/
theorem c9_witness :
    parseString "*a,b=c\n1,2\n*end\n".toList =
      Except.ok [⟨['a'], some [⟨['b'], some ['c']⟩], some [[['1'], ['2']]]⟩,
        ⟨['e', 'n', 'd'], none, none⟩] ∧
    (⟨['a'], some [⟨['b'], some ['c']⟩], some [[['1'], ['2']]]⟩ : Keyword) ∈
      [⟨['a'], some [⟨['b'], some ['c']⟩], some [[['1'], ['2']]]⟩,
        (⟨['e', 'n', 'd'], none, none⟩ : Keyword)] ∧
    parseString (emit ⟨['a'], some [⟨['b'], some ['c']⟩], some [[['1'], ['2']]]⟩) =
      Except.ok [⟨['a'], some [⟨['b'], some ['c']⟩], some [[['1'], ['2']]]⟩] :=
  ⟨rfl, List.mem_cons_self _ _,
    c9_round_trip "*a,b=c\n1,2\n*end\n".toList _ _ rfl (List.mem_cons_self _ _)⟩

/-- C6 witness: a concrete successful parse whose Document names match
its scan's `KEYWORD` token values. -/
theorem c6_witness :
    parseString "*a,b=c\n1,2\n*end\n".toList =
      Except.ok [⟨['a'], some [⟨['b'], some ['c']⟩], some [[['1'], ['2']]]⟩,
        ⟨['e', 'n', 'd'], none, none⟩] ∧
    ([⟨['a'], some [⟨['b'], some ['c']⟩], some [[['1'], ['2']]]⟩,
        (⟨['e', 'n', 'd'], none, none⟩ : Keyword)]).map (fun k => k.keyword) =
      ((lexAll "*a,b=c\n1,2\n*end\n".toList).toks.filter
        (fun t => t.ttype = TokType.KEYWORD)).map (fun t => t.value) :=
  ⟨rfl, c6_document_is_headers _ _ rfl⟩

end Abq
